import Mathlib

/-!
# Binomial-heap `priority_queue` (`src/priority_queue/src/priority_queue.hpp`)

The C++ code works on raw `node<T>*` pointers, so the embedding is a small explicit
memory: a table of cells indexed by addresses, with address `0` standing for `nullptr`.
Every C++ statement that reads or writes through a pointer becomes a read or write of
that table, loops and recursions become functions that are recursive on a step bound,
and the `Compare` functor is a function that may answer `none`, meaning that the call
threw.

The element count `size_t length` is a natural number. The `int` temporaries
`init_length` and `f_length` are 32-bit: storing `length` in them keeps its low 32 bits,
read as a signed number, `int` arithmetic wraps around, and storing a negative `int`
back in `length` wraps around modulo `2 ^ 64`.
-/

namespace sjtu

/-- Addresses of memory cells; `0` is `nullptr`. -/
abbrev Ptr := Nat

/-- The record `struct node` of the source. -/
structure node (α : Type) where
  data : α
  order : Int
  child : Ptr
  parent : Ptr
  sibling : Ptr
deriving DecidableEq, Repr

/-- The memory: `cell p` is the node stored at address `p`, or `none` when nothing is
allocated there; `last` is the highest address `malloc` has handed out so far. -/
structure Mem (α : Type) where
  cell : Ptr → Option (node α)
  last : Nat

/-- The memory in which nothing is allocated. -/
def Mem.empty {α : Type} : Mem α := ⟨fun _ => none, 0⟩

/-- Reading through a pointer: `none` for `nullptr` and for an address that holds no
live node (never allocated, or already freed). -/
def Mem.deref {α : Type} (m : Mem α) (p : Ptr) : Option (node α) :=
  if p = 0 then none else m.cell p

/-- Overwriting the node stored at `p`. -/
def Mem.write {α : Type} (m : Mem α) (p : Ptr) (n : node α) : Mem α :=
  { m with cell := fun q => if q = p then some n else m.cell q }

/-- Releasing the cell at `p`. -/
def Mem.release {α : Type} (m : Mem α) (p : Ptr) : Mem α :=
  { m with cell := fun q => if q = p then none else m.cell q }

/-- The reasons for which an execution has no defined result. -/
inductive Fault where
  /-- a read, write or `free` through `nullptr` or through a dangling pointer -/
  | undefined_behaviour
  /-- the step bound was used up -/
  | out_of_steps
deriving DecidableEq, Repr

/-- The exceptions of the source: `container_is_empty` (from `exceptions.hpp`) and whatever
the user's `Compare` throws. -/
inductive Exc where
  | container_is_empty
  | thrown_by_compare
deriving DecidableEq, Repr

/-- Outcome of a member function: a normal return with value `v`, an exception that
leaves the state `s` behind, or a fault. -/
inductive Res (τ σ : Type) where
  | ret (v : τ)
  | throw (e : Exc) (s : σ)
  | fault (f : Fault)

/-- The step bound given to every loop and recursion that runs over memory `m`: a chain
of distinct live nodes is never longer than the number of addresses handed out. -/
def Mem.steps {α : Type} (m : Mem α) : Nat := m.last + 1

/-- The function `free(p)`: freeing `nullptr` or a cell that is not live is a fault. -/
def free {α : Type} (m : Mem α) (p : Ptr) : Except Fault (Mem α) :=
  match m.deref p with
  | none => .error .undefined_behaviour
  | some _ => .ok (m.release p)

/-- The function `make_node(value)`: a fresh cell with order 0 and null links. -/
def make_node {α : Type} (m : Mem α) (value : α) : Ptr × Mem α :=
  (m.last + 1,
   { cell := fun q => if q = m.last + 1 then some ⟨value, 0, 0, 0, 0⟩ else m.cell q,
     last := m.last + 1 })

/-- The function `Link(heap1, heap2)`: `heap1` becomes the first child of `heap2`. -/
def Link {α : Type} (m : Mem α) (heap1 heap2 : Ptr) : Except Fault (Mem α) :=
  match m.deref heap1 with
  | none => .error .undefined_behaviour
  | some n1 =>
    -- heap1->parent = heap2;
    let m1 := m.write heap1 { n1 with parent := heap2 }
    match m1.deref heap2, m1.deref heap1 with
    | some n2, some n1 =>
      -- heap1->sibling = heap2->child;
      let m2 := m1.write heap1 { n1 with sibling := n2.child }
      match m2.deref heap2 with
      | none => .error .undefined_behaviour
      | some n2 =>
        -- heap2->child = heap1;
        let m3 := m2.write heap2 { n2 with child := heap1 }
        match m3.deref heap2 with
        | none => .error .undefined_behaviour
        | some n2 =>
          -- heap2->order = heap2->order + 1;
          .ok (m3.write heap2 { n2 with order := n2.order + 1 })
    | _, _ => .error .undefined_behaviour

/-- The function `Merge(heap1, heap2)`: merges two root lists by order, rewriting only
`sibling` links. -/
def Merge {α : Type} : Nat → Mem α → Ptr → Ptr → Except Fault (Mem α × Ptr)
  | 0, _, _, _ => .error .out_of_steps
  | f + 1, m, heap1, heap2 =>
    if heap1 = 0 then .ok (m, heap2)
    else if heap2 = 0 then .ok (m, heap1)
    else
      match m.deref heap1, m.deref heap2 with
      | some n1, some n2 =>
        if n1.order < n2.order then
          match Merge f m n1.sibling heap2 with
          | .error e => .error e
          | .ok (m1, r) =>
            match m1.deref heap1 with
            | none => .error .undefined_behaviour
            | some n1 => .ok (m1.write heap1 { n1 with sibling := r }, heap1)
        else
          match Merge f m n2.sibling heap1 with
          | .error e => .error e
          | .ok (m1, r) =>
            match m1.deref heap2 with
            | none => .error .undefined_behaviour
            | some n2 => .ok (m1.write heap2 { n2 with sibling := r }, heap2)
      | _, _ => .error .undefined_behaviour

/-- The member `clear(heap)`: releases the whole structure reachable from `heap` through
`child` and `sibling` links. -/
def clear {α : Type} : Nat → Mem α → Ptr → Except Fault (Mem α)
  | 0, _, _ => .error .out_of_steps
  | f + 1, m, heap =>
    if heap = 0 then .ok m
    else
      match m.deref heap with
      | none => .error .undefined_behaviour
      | some h =>
        match (if h.child ≠ 0 then clear f m h.child else .ok m) with
        | .error e => .error e
        | .ok m1 =>
          match m1.deref heap with
          | none => .error .undefined_behaviour
          | some h1 =>
            match (if h1.sibling ≠ 0 then clear f m1 h1.sibling else .ok m1) with
            | .error e => .error e
            | .ok m2 => free m2 heap

/-- The member `copy_node(src, parent)`: a deep copy of the structure at `src`. -/
def copy_node {α : Type} : Nat → Mem α → Ptr → Ptr → Except Fault (Mem α × Ptr)
  | 0, _, _, _ => .error .out_of_steps
  | f + 1, m, src, parent =>
    if src = 0 then .ok (m, 0)
    else
      match m.deref src with
      | none => .error .undefined_behaviour
      | some s =>
        -- malloc, then data, order and parent are filled in
        let newNode := m.last + 1
        let m0 : Mem α :=
          { cell := fun q => if q = newNode then some ⟨s.data, s.order, 0, parent, 0⟩
                             else m.cell q,
            last := m.last + 1 }
        match copy_node f m0 s.child newNode with
        | .error e => .error e
        | .ok (m1, c) =>
          match m1.deref newNode, m1.deref src with
          | some n, some s1 =>
            let m2 := m1.write newNode { n with child := c }
            match copy_node f m2 s1.sibling parent with
            | .error e => .error e
            | .ok (m3, sb) =>
              match m3.deref newNode with
              | none => .error .undefined_behaviour
              | some n => .ok (m3.write newNode { n with sibling := sb }, newNode)
          | _, _ => .error .undefined_behaviour

/-- The data members of `class priority_queue`. -/
structure priority_queue where
  head : Ptr
  length : Nat
deriving DecidableEq, Repr

/-- Conversion of an `int` to `size_t`: a negative value wraps around modulo `2 ^ 64`. -/
def to_size_t (i : Int) : Nat := if 0 ≤ i then i.toNat else (i % 2 ^ 64).toNat

/-- Conversion of a `size_t` to `int` (32 bits, two's complement), as in
`int init_length = length;`: the value modulo `2 ^ 32`, read as a signed number. -/
def to_int (n : Nat) : Int :=
  if n % 2 ^ 32 < 2 ^ 31 then ((n % 2 ^ 32 : Nat) : Int) else ((n % 2 ^ 32 : Nat) : Int) - 2 ^ 32

/-- The value of an `int` expression whose exact result is `i`: the 32-bit two's-complement
number congruent to `i`. Inside the range of `int` this is `i` itself; for `INT_MAX + 1`
and `INT_MIN - 1`, where C++ leaves the result open, it is the wrapped value. -/
def wrap_int (i : Int) : Int :=
  if i % 2 ^ 32 < 2 ^ 31 then i % 2 ^ 32 else i % 2 ^ 32 - 2 ^ 32

namespace priority_queue

/-- The default constructor. -/
def mk_empty : priority_queue := ⟨0, 0⟩

/-- The member `size()`. -/
def size (this : priority_queue) : Nat := this.length

/-- The member `empty()`. -/
def empty (this : priority_queue) : Bool := this.head = 0

/-- The copy constructor, run on storage that holds `raw` before construction: `length`
is assigned only when `other` has a head. -/
def copy_construct {α : Type} (m : Mem α) (raw other : priority_queue) :
    Except Fault (Mem α × priority_queue) :=
  let this : priority_queue := { raw with head := 0 }
  if other.head ≠ 0 then
    let this : priority_queue := { this with length := other.length }
    match copy_node m.steps m other.head 0 with
    | .error e => .error e
    | .ok (m1, h) => .ok (m1, { this with head := h })
  else .ok (m, this)

/-- The loop of `top()`: `ans` is the best root so far, `cur` the root being looked at. -/
def top_loop {α : Type} (comp : α → α → Option Bool) (m : Mem α) :
    Nat → Ptr → Ptr → Res α Unit
  | 0, _, _ => .fault .out_of_steps
  | f + 1, ans, cur =>
    if cur = 0 then
      match m.deref ans with
      | none => .fault .undefined_behaviour
      | some a => .ret a.data
    else
      match m.deref ans, m.deref cur with
      | some a, some c =>
        match comp a.data c.data with      -- the call inside `try`
        | none => .throw .thrown_by_compare ()
        | some _ =>
          match comp a.data c.data with    -- the call in the `if`
          | none => .throw .thrown_by_compare ()
          | some b => top_loop comp m f (if b then cur else ans) c.sibling
      | _, _ => .fault .undefined_behaviour

/-- The member `top()`. -/
def top {α : Type} (comp : α → α → Option Bool) (m : Mem α) (this : priority_queue) :
    Res α Unit :=
  if this.empty then .throw .container_is_empty ()
  else top_loop comp m m.steps this.head this.head

/-- The carry pass of `merge`: the `while (nxt != nullptr)` loop. A throwing comparison
leaves the loop with the memory as it is at that moment. -/
def merge_loop {α : Type} (comp : α → α → Option Bool) :
    Nat → Mem α → Ptr → Ptr → Ptr → Ptr → Res (Mem α × Ptr) (Mem α)
  | 0, _, _, _, _, _ => .fault .out_of_steps
  | f + 1, m, Head, pre, cur, nxt =>
    if nxt = 0 then .ret (m, Head)
    else
      match m.deref cur, m.deref nxt with
      | some c, some n =>
        -- (cur->order != nxt->order) ||
        --   ((nxt->sibling != nullptr) && (nxt->order == nxt->sibling->order))
        match (if c.order ≠ n.order then some true
               else if n.sibling ≠ 0 then
                 (m.deref n.sibling).map (fun s => decide (n.order = s.order))
               else some false) with
        | none => .fault .undefined_behaviour
        | some true =>
          -- pre = cur; cur = nxt; nxt = cur->sibling;
          merge_loop comp f m Head cur nxt n.sibling
        | some false =>
          match comp n.data c.data with
          | none => .throw .thrown_by_compare m
          | some true =>
            -- cur->sibling = nxt->sibling; nxt->parent = cur; Link(nxt, cur);
            let m1 := m.write cur { c with sibling := n.sibling }
            match m1.deref nxt with
            | none => .fault .undefined_behaviour
            | some n1 =>
              let m2 := m1.write nxt { n1 with parent := cur }
              match Link m2 nxt cur with
              | .error e => .fault e
              | .ok m3 =>
                -- nxt = cur->sibling;
                match m3.deref cur with
                | none => .fault .undefined_behaviour
                | some c3 => merge_loop comp f m3 Head pre cur c3.sibling
          | some false =>
            -- if (pre == nullptr) Head = nxt; else pre->sibling = nxt;
            match (if pre = 0 then some (m, nxt)
                   else (m.deref pre).map
                     (fun p => (m.write pre { p with sibling := nxt }, Head))) with
            | none => .fault .undefined_behaviour
            | some (m1, Head1) =>
              -- Link(cur, nxt); cur = nxt; nxt = cur->sibling;
              match Link m1 cur nxt with
              | .error e => .fault e
              | .ok m2 =>
                match m2.deref nxt with
                | none => .fault .undefined_behaviour
                | some n2 => merge_loop comp f m2 Head1 pre nxt n2.sibling
      | _, _ => .fault .undefined_behaviour

/-- The member `this->merge(other)`; `same_object` says whether `this == &other`. The
result is the memory with the two queues `(*this, other)`. When the carry pass throws,
the local queue `temp`, whose head is still the merged list, is destroyed during
unwinding. -/
def merge {α : Type} (comp : α → α → Option Bool) (m : Mem α)
    (this other : priority_queue) (same_object : Bool) :
    Res (Mem α × priority_queue × priority_queue) (Mem α × priority_queue × priority_queue) :=
  if other.empty ∨ same_object = true then .ret (m, this, other)
  else
    match Merge m.steps m this.head other.head with
    | .error e => .fault e
    | .ok (m1, Head) =>
      let temp_head := Head
      if Head = 0 then .ret (m1, { this with head := 0 }, other)
      else
        match m1.deref Head with
        | none => .fault .undefined_behaviour
        | some h =>
          match merge_loop comp m1.steps m1 Head 0 Head h.sibling with
          | .fault e => .fault e
          | .ret (m2, Head2) =>
            .ret (m2, { this with head := Head2 }, { other with head := 0 })
          | .throw e m2 =>
            match clear m2.steps m2 temp_head with
            | .error e1 => .fault e1
            | .ok m3 => .throw e (m3, this, other)

/-- The member `push(e)`. -/
def push {α : Type} (comp : α → α → Option Bool) (m : Mem α) (this : priority_queue)
    (e : α) : Res (Mem α × priority_queue) (Mem α × priority_queue) :=
  let (temp, m0) := make_node m e
  -- int init_length = length;
  let init_length : Int := to_int this.length
  if this.head = 0 then
    .ret (m0, { head := temp, length := to_size_t (wrap_int (init_length + 1)) })
  else
    let temp_queue : priority_queue := { head := temp, length := 1 }
    match m0.deref this.head with
    | none => .fault .undefined_behaviour
    | some h =>
      match comp h.data e with
      | none =>
        -- rethrown; unwinding destroys temp_queue
        match clear m0.steps m0 temp_queue.head with
        | .error e1 => .fault e1
        | .ok m1 => .throw .thrown_by_compare (m1, this)
      | some _ =>
        match merge comp m0 this temp_queue false with
        | .fault e1 => .fault e1
        | .ret (m1, this1, _) =>
          .ret (m1, { this1 with length := to_size_t (wrap_int (init_length + 1)) })
        | .throw ex (m1, this1, temp_queue1) =>
          -- temp->data.~T(); free(temp); throw;  then temp_queue is destroyed
          match free m1 temp with
          | .error e1 => .fault e1
          | .ok m2 =>
            match clear m2.steps m2 temp_queue1.head with
            | .error e1 => .fault e1
            | .ok m3 => .throw ex (m3, this1)

/-- The first loop of `pop()`: the scan for the root to remove. -/
def pop_scan {α : Type} (comp : α → α → Option Bool) (m : Mem α) :
    Nat → Ptr → Ptr → Res Ptr Unit
  | 0, _, _ => .fault .out_of_steps
  | f + 1, top, cur =>
    if cur = 0 then .ret top
    else
      match m.deref top, m.deref cur with
      | some t, some c =>
        match comp t.data c.data with
        | none => .throw .thrown_by_compare ()
        | some b => pop_scan comp m f (if b then cur else top) c.sibling
      | _, _ => .fault .undefined_behaviour

/-- The loop `while (cur->sibling != top) cur = cur->sibling;` of `pop()`. -/
def pop_find {α : Type} (m : Mem α) : Nat → Ptr → Ptr → Except Fault Ptr
  | 0, _, _ => .error .out_of_steps
  | f + 1, cur, top =>
    match m.deref cur with
    | none => .error .undefined_behaviour
    | some c => if c.sibling ≠ top then pop_find m f c.sibling top else .ok cur

/-- The loop of `pop()` that turns the child list around, with the final
`temp->sibling = tail`. -/
def pop_reverse {α : Type} : Nat → Mem α → Ptr → Ptr → Except Fault (Mem α × Ptr)
  | 0, _, _, _ => .error .out_of_steps
  | f + 1, m, temp, tail =>
    match m.deref temp with
    | none => .error .undefined_behaviour
    | some t =>
      if t.sibling ≠ 0 then
        -- next = temp->sibling; temp->sibling = tail; tail = temp; temp = next;
        let next := t.sibling
        let m1 := m.write temp { t with sibling := tail }
        -- temp->parent = nullptr;
        match m1.deref next with
        | none => .error .undefined_behaviour
        | some n => pop_reverse f (m1.write next { n with parent := 0 }) next temp
      else
        .ok (m.write temp { t with sibling := tail }, temp)

/-- The part of `pop()` that takes `top` out of the root list; `t` is the node at `top`. -/
def pop_unlink {α : Type} (m : Mem α) (this : priority_queue) (top : Ptr) (t : node α) :
    Except Fault (Mem α × priority_queue) :=
  if top = this.head then
    -- head = top->sibling;
    .ok (m, { this with head := t.sibling })
  else
    -- cur = head; while (cur->sibling != top) cur = cur->sibling;
    match pop_find m m.steps this.head top with
    | .error e => .error e
    | .ok cur =>
      -- cur->sibling = top->sibling;
      match m.deref cur with
      | none => .error .undefined_behaviour
      | some c => .ok (m.write cur { c with sibling := t.sibling }, this)

/-- The part of `pop()` that detaches the child list starting at `temp = top->child` and
turns it around; the result holds the final `temp`. -/
def pop_detach {α : Type} (m : Mem α) (this : priority_queue) (temp : Ptr) :
    Except Fault (Mem α × Ptr × priority_queue) :=
  if temp = 0 then .ok (m, 0, this)
  else
    -- temp->parent = nullptr;
    match m.deref temp with
    | none => .error .undefined_behaviour
    | some c =>
      match pop_reverse m.steps (m.write temp { c with parent := 0 }) temp 0 with
      | .error e => .error e
      | .ok (m1, temp1) =>
        -- length--;
        .ok (m1, temp1, { this with length := to_size_t ((this.length : Int) - 1) })

/-- The member `pop()`. -/
def pop {α : Type} (comp : α → α → Option Bool) (m : Mem α) (this : priority_queue) :
    Res (Mem α × priority_queue) (Mem α × priority_queue) :=
  if this.empty then .throw .container_is_empty (m, this)
  else
    -- int f_length = length;
    let f_length : Int := to_int this.length
    match pop_scan comp m m.steps this.head this.head with
    | .fault e => .fault e
    | .throw ex _ => .throw ex (m, this)
    | .ret top =>
      match m.deref top with
      | none => .fault .undefined_behaviour
      | some t =>
        match pop_unlink m this top t with
        | .error e => .fault e
        | .ok (m1, this1) =>
          match m1.deref top with
          | none => .fault .undefined_behaviour
          | some t1 =>
            match pop_detach m1 this1 t1.child with
            | .error e => .fault e
            | .ok (m2, temp, this2) =>
              let tmp : priority_queue := { head := temp, length := 0 }
              match (if temp ≠ 0 then merge comp m2 this2 tmp false
                     else .ret (m2, this2, tmp)) with
              | .fault e => .fault e
              | .ret (m3, this3, _) =>
                -- this->length = f_length - 1; top->data.~T(); free(top);
                match free m3 top with
                | .error e => .fault e
                | .ok m4 => .ret (m4, { this3 with length := to_size_t (wrap_int (f_length - 1)) })
              | .throw ex (m3, this3, tmp3) =>
                -- this->head = Merge(head, temp); this->length = f_length; throw;
                match Merge m3.steps m3 this3.head temp with
                | .error e => .fault e
                | .ok (m4, h) =>
                  -- unwinding destroys tmp
                  match clear m4.steps m4 tmp3.head with
                  | .error e => .fault e
                  | .ok m5 => .throw ex (m5, { head := h, length := to_size_t f_length })

end priority_queue

/-! ## The forest a memory holds

The proofs describe what hangs off a pointer by a value of `Shape`: the binary picture
of the `child`/`sibling` links, with the address of every node. -/

/-- A finite structure of nodes linked by `child` and `sibling`. -/
inductive Shape (α : Type) where
  | nil
  | node (addr : Ptr) (data : α) (order : Int) (child sibling : Shape α)
deriving DecidableEq, Repr

namespace Shape

/-- The pointer at which a shape starts. -/
def ptr {α : Type} : Shape α → Ptr
  | nil => 0
  | node a _ _ _ _ => a

/-- The addresses of all nodes. -/
def addrs {α : Type} : Shape α → Multiset Ptr
  | nil => 0
  | node a _ _ c s => {a} + (c.addrs + s.addrs)

/-- The payloads of all nodes, with multiplicity. -/
def payloads {α : Type} : Shape α → Multiset α
  | nil => 0
  | node _ d _ c s => {d} + (c.payloads + s.payloads)

/-- The number of nodes on the sibling chain. -/
def len {α : Type} : Shape α → Nat
  | nil => 0
  | node _ _ _ _ s => s.len + 1

/-- The payloads on the sibling chain (for a root list: the payloads of the roots). -/
def rootData {α : Type} : Shape α → List α
  | nil => []
  | node _ d _ _ s => d :: s.rootData

/-- The addresses on the sibling chain. -/
def rootAddrs {α : Type} : Shape α → List Ptr
  | nil => []
  | node a _ _ _ s => a :: s.rootAddrs

/-- Chaining two sibling chains. -/
def append {α : Type} : Shape α → Shape α → Shape α
  | nil, t => t
  | node a d o c s, t => node a d o c (append s t)

/-- Heap order: on every parent-child edge the parent is not less than the child. -/
def HeapOrdered {α : Type} (less : α → α → Bool) : Shape α → Prop
  | nil => True
  | node _ d _ c s => (∀ x ∈ c.rootData, less d x = false) ∧ HeapOrdered less c ∧
      HeapOrdered less s

/-- What `Merge` computes, on shapes. -/
def mergeS {α : Type} : Shape α → Shape α → Shape α
  | nil, s2 => s2
  | node a1 d1 o1 c1 r1, nil => node a1 d1 o1 c1 r1
  | node a1 d1 o1 c1 r1, node a2 d2 o2 c2 r2 =>
    if o1 < o2 then node a1 d1 o1 c1 (mergeS r1 (node a2 d2 o2 c2 r2))
    else node a2 d2 o2 c2 (mergeS r2 (node a1 d1 o1 c1 r1))
termination_by s1 s2 => s1.len + s2.len
decreasing_by all_goals (simp_wf; simp [len]; try omega)

/-- Whether a chain starts with a node of order `o`. -/
def startsWith {α : Type} (o : Int) : Shape α → Bool
  | nil => false
  | node _ _ o3 _ _ => decide (o = o3)

/-- What the carry pass computes from the root `(a, d, o, c)` onwards, on shapes. -/
def carryS {α : Type} (less : α → α → Bool) (a : Ptr) (d : α) (o : Int) (c : Shape α) :
    Shape α → Shape α
  | nil => node a d o c nil
  | node a2 d2 o2 c2 r =>
    if o ≠ o2 ∨ startsWith o2 r = true then node a d o c (carryS less a2 d2 o2 c2 r)
    else if less d2 d = true then carryS less a d (o + 1) (node a2 d2 o2 c2 c) r
    else carryS less a2 d2 (o2 + 1) (node a d o c c2) r

/-- The carry pass on a whole root list. -/
def carry {α : Type} (less : α → α → Bool) : Shape α → Shape α
  | nil => nil
  | node a d o c r => carryS less a d o c r

/-- The root that the scans of `top()` and `pop()` select, starting from the candidate
`(a, d)`: its address and payload. -/
def scanS {α : Type} (less : α → α → Bool) (a : Ptr) (d : α) : Shape α → Ptr × α
  | nil => (a, d)
  | node a2 d2 _ _ r => if less d d2 = true then scanS less a2 d2 r else scanS less a d r

/-- The sibling chain turned around, onto `acc`. -/
def revOnto {α : Type} : Shape α → Shape α → Shape α
  | nil, acc => acc
  | node a d o c s, acc => revOnto s (node a d o c acc)

end Shape

/-- The statement that memory `m` holds shape `s` from `p` up to `q`: the sibling chain of `s` starts at
`p` and its last node has `sibling == q`; child chains end in `nullptr`. -/
def Seg {α : Type} (m : Mem α) : Shape α → Ptr → Ptr → Prop
  | .nil, p, q => p = q
  | .node a d o c s, p, q =>
    p = a ∧ a ≠ 0 ∧ ∃ pc pp ps, m.cell a = some ⟨d, o, pc, pp, ps⟩ ∧ Seg m c pc 0 ∧ Seg m s ps q

/-- A queue whose forest is `s`: the memory holds `s` from `head`, no node occurs twice,
and every node was handed out by `malloc`. -/
structure Holds {α : Type} (m : Mem α) (this : priority_queue) (s : Shape α) : Prop where
  seg : Seg m s this.head 0
  nodup : s.addrs.Nodup
  bound : ∀ a ∈ s.addrs, a ≤ m.last

/-- The non-throwing `Compare` given by a Boolean relation. -/
def nothrow {α : Type} (less : α → α → Bool) : α → α → Option Bool :=
  fun a b => some (less a b)

/-- Strict weak orderings, as `Compare` is required to be. -/
structure StrictWeakOrder {α : Type} (less : α → α → Bool) : Prop where
  irrefl : ∀ a, less a a = false
  trans : ∀ a b c, less a b = true → less b c = true → less a c = true
  incomp_trans : ∀ a b c, less a b = false → less b c = false → less a c = false

/-- The root list in front of `cur`, as the carry pass sees it: `pre` is its last node
and points to `cur`; when there is no such node `pre` is null and `Head` is `cur`. -/
def Pre {α : Type} (m : Mem α) (pfx : Shape α) (Head pre cur : Ptr) : Prop :=
  (pfx = .nil ∧ pre = 0 ∧ Head = cur) ∨
  (∃ pfx0 d o c pc pp, pfx = pfx0.append (.node pre d o c .nil) ∧ pre ≠ 0 ∧
    Seg m pfx0 Head pre ∧ m.cell pre = some ⟨d, o, pc, pp, cur⟩ ∧ Seg m c pc 0)

/-- The forest `merge` leaves in `*this`, on shapes: nothing happens when `other` is
empty, otherwise the two root lists are merged and the carry pass runs. -/
def Shape.mergeQ {α : Type} (less : α → α → Bool) (sa : Shape α) : Shape α → Shape α
  | .nil => sa
  | .node a d o c r => Shape.carry less (Shape.mergeS sa (.node a d o c r))

/-- The root list without its first root of address `t`. -/
def Shape.remove {α : Type} (t : Ptr) : Shape α → Shape α
  | .nil => .nil
  | .node a d o c r => if a = t then r else .node a d o c (Shape.remove t r)

/-- The child list of the first root of address `t`. -/
def Shape.childOf {α : Type} (t : Ptr) : Shape α → Shape α
  | .nil => .nil
  | .node a _ _ c r => if a = t then c else Shape.childOf t r

/-- The root `top()` and `pop()` select in a root list: address and payload. -/
def Shape.best {α : Type} (less : α → α → Bool) : Shape α → Option (Ptr × α)
  | .nil => none
  | .node a d o c r => some (Shape.scanS less a d (.node a d o c r))

/-- The forest `pop()` leaves, on shapes: the selected root is taken out, its children
are turned around and merged back. -/
def Shape.popS {α : Type} (less : α → α → Bool) (s : Shape α) : Shape α :=
  match Shape.best less s with
  | none => .nil
  | some (t, _) =>
    Shape.mergeQ less (Shape.remove t s) (Shape.revOnto (Shape.childOf t s) .nil)

/-! ## Drivers and sample data used by the claims -/

/-- Pushing the elements of a list one after the other, stopping at the first call that
does not return. -/
def push_all {α : Type} (comp : α → α → Option Bool) :
    List α → Mem α → priority_queue →
      Res (Mem α × priority_queue) (Mem α × priority_queue)
  | [], m, q => .ret (m, q)
  | x :: xs, m, q =>
    match priority_queue.push comp m q x with
    | .ret (m1, q1) => push_all comp xs m1 q1
    | r => r

/-- A call made by a client: `push(v)`, or `top()` followed by `pop()`. -/
inductive Op (α : Type) where
  | push (v : α)
  | pop

/-- The values a sequence of calls pushes. -/
def pushed {α : Type} : List (Op α) → Multiset α
  | [] => 0
  | .push v :: ops => v ::ₘ pushed ops
  | .pop :: ops => pushed ops

/-- Whether a sequence of calls, started on a queue of `n` elements, calls `pop()` on an
empty queue. -/
def underflows {α : Type} : Nat → List (Op α) → Bool
  | _, [] => false
  | n, .push _ :: ops => underflows (n + 1) ops
  | n, .pop :: ops => if n = 0 then true else underflows (n - 1) ops

/-- Running a sequence of calls; `out` collects what `top()` returned before each `pop()`.
The run stops at the first call that does not return. -/
def run {α : Type} (comp : α → α → Option Bool) :
    List (Op α) → Mem α → priority_queue → List α →
      Res (Mem α × priority_queue × List α) (Mem α × priority_queue × List α)
  | [], m, q, out => .ret (m, q, out)
  | .push v :: ops, m, q, out =>
    match priority_queue.push comp m q v with
    | .ret (m1, q1) => run comp ops m1 q1 out
    | .throw e (m1, q1) => .throw e (m1, q1, out)
    | .fault f => .fault f
  | .pop :: ops, m, q, out =>
    match priority_queue.top comp m q with
    | .ret v =>
      match priority_queue.pop comp m q with
      | .ret (m1, q1) => run comp ops m1 q1 (v :: out)
      | .throw e (m1, q1) => .throw e (m1, q1, out)
      | .fault f => .fault f
    | .throw e _ => .throw e (m, q, out)
    | .fault f => .fault f

/-- The default `Compare`, `std::less`, on natural numbers. -/
def nat_less (a b : Nat) : Bool := decide (a < b)

/-- A `Compare` on natural numbers that throws when called on `(x, y)` and is `std::less`
otherwise. -/
def throws_on (x y : Nat) (a b : Nat) : Option Bool :=
  if a = x ∧ b = y then none else some (decide (a < b))

/-- Sample memory: what pushing 1, 2, 3 onto an empty queue leaves behind. -/
def demo_mem : Mem Nat :=
  { cell := fun p =>
      if p = 1 then some ⟨1, 0, 0, 2, 0⟩
      else if p = 2 then some ⟨2, 1, 1, 0, 0⟩
      else if p = 3 then some ⟨3, 0, 0, 0, 2⟩
      else none,
    last := 3 }

/-- The queue that owns the nodes of `demo_mem`. -/
def demo_queue : priority_queue := { head := 3, length := 3 }

/-- The forest of `demo_queue`. -/
def demo_shape : Shape Nat :=
  .node 3 3 0 .nil (.node 2 2 1 (.node 1 1 0 .nil .nil) .nil)

/-- Sample memory with two one-element queues: `1` at address 1 and `2` at address 2. -/
def two_mem : Mem Nat :=
  { cell := fun p =>
      if p = 1 then some ⟨1, 0, 0, 0, 0⟩
      else if p = 2 then some ⟨2, 0, 0, 0, 0⟩
      else none,
    last := 2 }

/-! ## Ranks and the binomial shape -/

/-- The orders on the sibling chain (for a root list: the ranks of the roots). -/
def Shape.ranks {α : Type} : Shape α → List Int
  | .nil => []
  | .node _ _ o _ s => o :: s.ranks

/-- The child list of a node of rank `k` in a binomial tree: the first child has rank
`k - 1` and is itself a binomial tree, and the children after it are those of a node of
rank `k - 1`, down to rank 0. -/
def Shape.BinomChildren {α : Type} : Int → Shape α → Prop
  | k, .nil => k = 0
  | k, .node _ _ o c s => o = k - 1 ∧ Shape.BinomChildren o c ∧ Shape.BinomChildren o s

/-- Every root of the list is a binomial tree of its rank. -/
def Shape.Trees {α : Type} : Shape α → Prop
  | .nil => True
  | .node _ _ o c s => Shape.BinomChildren o c ∧ Shape.Trees s

/-- The binomial-forest invariant: root ranks strictly ascending, every root a binomial
tree of its rank. -/
def Shape.Binomial {α : Type} (s : Shape α) : Prop :=
  s.ranks.Sorted (· < ·) ∧ s.Trees

/-- Everything of a node but its `sibling` link. -/
def node.unlinked {α : Type} (n : node α) : α × Int × Ptr × Ptr :=
  (n.data, n.order, n.child, n.parent)

/-! ## Further drivers -/

/-- Draining a queue: `top()` then `pop()` until `empty()`; the values are collected in the
order in which they are popped. -/
def drain {α : Type} (comp : α → α → Option Bool) :
    Nat → Mem α → priority_queue → List α →
      Res (Mem α × priority_queue × List α) (Mem α × priority_queue × List α)
  | 0, _, _, _ => .fault .out_of_steps
  | f + 1, m, q, out =>
    if q.empty then .ret (m, q, out)
    else
      match priority_queue.top comp m q with
      | .ret v =>
        match priority_queue.pop comp m q with
        | .ret (m1, q1) => drain comp f m1 q1 (out ++ [v])
        | .throw e (m1, q1) => .throw e (m1, q1, out)
        | .fault e => .fault e
      | .throw e _ => .throw e (m, q, out)
      | .fault e => .fault e

/-- What a client observes in the scenario of the specification. -/
structure Observed where
  top_after_pushes : Nat
  top_after_pop : Nat
  size_after_pop : Nat
  size_after_merge : Nat
  top_after_merge : Nat
  top_after_two_more_pops : Nat
  size_after_two_more_pops : Nat
deriving DecidableEq, Repr

/-- The scenario of the specification with `std::less`: push 1, 3, 2, 5, 4; `pop()`; merge a
queue built by pushing 10 and 0; `pop()` twice. -/
def scenario : Option Observed :=
  match push_all (nothrow nat_less) [1, 3, 2, 5, 4] Mem.empty priority_queue.mk_empty with
  | .ret (m1, a1) =>
    match priority_queue.top (nothrow nat_less) m1 a1,
          priority_queue.pop (nothrow nat_less) m1 a1 with
    | .ret t1, .ret (m2, a2) =>
      match priority_queue.top (nothrow nat_less) m2 a2,
            push_all (nothrow nat_less) [10, 0] m2 priority_queue.mk_empty with
      | .ret t2, .ret (m3, b3) =>
        match priority_queue.merge (nothrow nat_less) m3 a2 b3 false with
        | .ret (m4, a4, _) =>
          match priority_queue.top (nothrow nat_less) m4 a4,
                priority_queue.pop (nothrow nat_less) m4 a4 with
          | .ret t4, .ret (m5, a5) =>
            match priority_queue.pop (nothrow nat_less) m5 a5 with
            | .ret (m6, a6) =>
              match priority_queue.top (nothrow nat_less) m6 a6 with
              | .ret t6 => some ⟨t1, t2, a2.size, a4.size, t4, t6, a6.size⟩
              | _ => none
            | _ => none
          | _, _ => none
        | _ => none
      | _, _ => none
    | _, _ => none
  | _ => none

/-! ## `push` with a counter of the calls of `Link` -/

/-- The carry pass of `merge` with a counter: `links` goes up by one at each call of `Link`;
the second component of the result is the counter when the loop is left. -/
def priority_queue.merge_loop_counting {α : Type} (comp : α → α → Option Bool) :
    Nat → Mem α → Ptr → Ptr → Ptr → Ptr → Nat → Res (Mem α × Ptr) (Mem α) × Nat
  | 0, _, _, _, _, _, links => (.fault .out_of_steps, links)
  | f + 1, m, Head, pre, cur, nxt, links =>
    if nxt = 0 then (.ret (m, Head), links)
    else
      match m.deref cur, m.deref nxt with
      | some c, some n =>
        match (if c.order ≠ n.order then some true
               else if n.sibling ≠ 0 then
                 (m.deref n.sibling).map (fun s => decide (n.order = s.order))
               else some false) with
        | none => (.fault .undefined_behaviour, links)
        | some true =>
          priority_queue.merge_loop_counting comp f m Head cur nxt n.sibling links
        | some false =>
          match comp n.data c.data with
          | none => (.throw .thrown_by_compare m, links)
          | some true =>
            let m1 := m.write cur { c with sibling := n.sibling }
            match m1.deref nxt with
            | none => (.fault .undefined_behaviour, links)
            | some n1 =>
              let m2 := m1.write nxt { n1 with parent := cur }
              -- Link(nxt, cur);
              match Link m2 nxt cur with
              | .error e => (.fault e, links + 1)
              | .ok m3 =>
                match m3.deref cur with
                | none => (.fault .undefined_behaviour, links + 1)
                | some c3 =>
                  priority_queue.merge_loop_counting comp f m3 Head pre cur c3.sibling (links + 1)
          | some false =>
            match (if pre = 0 then some (m, nxt)
                   else (m.deref pre).map
                     (fun p => (m.write pre { p with sibling := nxt }, Head))) with
            | none => (.fault .undefined_behaviour, links)
            | some (m1, Head1) =>
              -- Link(cur, nxt);
              match Link m1 cur nxt with
              | .error e => (.fault e, links + 1)
              | .ok m2 =>
                match m2.deref nxt with
                | none => (.fault .undefined_behaviour, links + 1)
                | some n2 =>
                  priority_queue.merge_loop_counting comp f m2 Head1 pre nxt n2.sibling (links + 1)
      | _, _ => (.fault .undefined_behaviour, links)

/-- The member `merge` with the counter of the calls of `Link`, which are all made in the
carry pass (`Merge` and the destructor of `temp` make none). -/
def priority_queue.merge_counting {α : Type} (comp : α → α → Option Bool) (m : Mem α)
    (this other : priority_queue) (same_object : Bool) (links : Nat) :
    Res (Mem α × priority_queue × priority_queue) (Mem α × priority_queue × priority_queue) ×
      Nat :=
  if other.empty ∨ same_object = true then (.ret (m, this, other), links)
  else
    match Merge m.steps m this.head other.head with
    | .error e => (.fault e, links)
    | .ok (m1, Head) =>
      let temp_head := Head
      if Head = 0 then (.ret (m1, { this with head := 0 }, other), links)
      else
        match m1.deref Head with
        | none => (.fault .undefined_behaviour, links)
        | some h =>
          match priority_queue.merge_loop_counting comp m1.steps m1 Head 0 Head h.sibling links with
          | (.fault e, k) => (.fault e, k)
          | (.ret (m2, Head2), k) =>
            (.ret (m2, { this with head := Head2 }, { other with head := 0 }), k)
          | (.throw e m2, k) =>
            match clear m2.steps m2 temp_head with
            | .error e1 => (.fault e1, k)
            | .ok m3 => (.throw e (m3, this, other), k)

/-- The member `push(e)` with the counter of the calls of `Link`. -/
def priority_queue.push_counting {α : Type} (comp : α → α → Option Bool) (m : Mem α)
    (this : priority_queue) (e : α) (links : Nat) :
    Res (Mem α × priority_queue) (Mem α × priority_queue) × Nat :=
  let (temp, m0) := make_node m e
  -- int init_length = length;
  let init_length : Int := to_int this.length
  if this.head = 0 then
    (.ret (m0, { head := temp, length := to_size_t (wrap_int (init_length + 1)) }), links)
  else
    let temp_queue : priority_queue := { head := temp, length := 1 }
    match m0.deref this.head with
    | none => (.fault .undefined_behaviour, links)
    | some h =>
      match comp h.data e with
      | none =>
        match clear m0.steps m0 temp_queue.head with
        | .error e1 => (.fault e1, links)
        | .ok m1 => (.throw .thrown_by_compare (m1, this), links)
      | some _ =>
        match priority_queue.merge_counting comp m0 this temp_queue false links with
        | (.fault e1, k) => (.fault e1, k)
        | (.ret (m1, this1, _), k) =>
          (.ret (m1, { this1 with length := to_size_t (wrap_int (init_length + 1)) }), k)
        | (.throw ex (m1, this1, temp_queue1), k) =>
          match free m1 temp with
          | .error e1 => (.fault e1, k)
          | .ok m2 =>
            match clear m2.steps m2 temp_queue1.head with
            | .error e1 => (.fault e1, k)
            | .ok m3 => (.throw ex (m3, this1), k)

/-- Pushing the elements of a list one after the other with the counter of the calls of
`Link`, stopping at the first call that does not return. -/
def push_all_counting {α : Type} (comp : α → α → Option Bool) :
    List α → Mem α → priority_queue → Nat →
      Res (Mem α × priority_queue) (Mem α × priority_queue) × Nat
  | [], m, q, links => (.ret (m, q), links)
  | x :: xs, m, q, links =>
    match priority_queue.push_counting comp m q x links with
    | (.ret (m1, q1), k) => push_all_counting comp xs m1 q1 k
    | r => r

/-! ## Memory lemmas -/

section
variable {α : Type}
open Shape priority_queue

@[simp] theorem Mem.cell_write (m : Mem α) (p : Ptr) (n : node α) (q : Ptr) :
    (m.write p n).cell q = if q = p then some n else m.cell q := rfl

@[simp] theorem Mem.last_write (m : Mem α) (p : Ptr) (n : node α) :
    (m.write p n).last = m.last := rfl

@[simp] theorem Mem.cell_release (m : Mem α) (p q : Ptr) :
    (m.release p).cell q = if q = p then none else m.cell q := rfl

@[simp] theorem Mem.last_release (m : Mem α) (p : Ptr) : (m.release p).last = m.last := rfl

theorem Mem.deref_of_ne {m : Mem α} {p : Ptr} (h : p ≠ 0) : m.deref p = m.cell p := by
  simp [Mem.deref, h]

@[simp] theorem Mem.deref_zero (m : Mem α) : m.deref 0 = none := by simp [Mem.deref]

theorem Seg.frame {m m1 : Mem α} : ∀ {s : Shape α} {p q : Ptr},
    (∀ a ∈ s.addrs, m1.cell a = m.cell a) → Seg m s p q → Seg m1 s p q := by
  intro s
  induction s with
  | nil => intro p q _ h; exact h
  | node a d o c s ihc ihs =>
    intro p q hfr h
    obtain ⟨hp, ha, pc, pp, ps, hcell, hc, hs⟩ := h
    refine ⟨hp, ha, pc, pp, ps, ?_, ihc ?_ hc, ihs ?_ hs⟩
    · rw [hfr a (by simp [Shape.addrs]), hcell]
    · intro x hx; exact hfr x (by simp [Shape.addrs, hx])
    · intro x hx; exact hfr x (by simp [Shape.addrs, hx])

theorem Seg.ptr_eq {m : Mem α} {s : Shape α} {p : Ptr} (h : Seg m s p 0) : p = s.ptr := by
  cases s with
  | nil => exact h
  | node a d o c s => exact h.1

theorem Seg.zero_not_mem {m : Mem α} : ∀ {s : Shape α} {p q : Ptr}, Seg m s p q → 0 ∉ s.addrs := by
  intro s
  induction s with
  | nil => intro p q _; simp [Shape.addrs]
  | node a d o c s ihc ihs =>
    intro p q h
    obtain ⟨_, ha, pc, pp, ps, _, hc, hs⟩ := h
    simp only [Shape.addrs, Multiset.mem_singleton, Multiset.mem_add, not_or]
    exact ⟨fun h0 => ha h0.symm, ihc hc, ihs hs⟩

theorem Seg.append {m : Mem α} : ∀ {s t : Shape α} {p q r : Ptr},
    Seg m s p q → Seg m t q r → Seg m (s.append t) p r := by
  intro s
  induction s with
  | nil => intro t p q r h1 h2; cases h1; exact h2
  | node a d o c s _ ihs =>
    intro t p q r h1 h2
    obtain ⟨hp, ha, pc, pp, ps, hcell, hc, hs⟩ := h1
    exact ⟨hp, ha, pc, pp, ps, hcell, hc, ihs hs h2⟩


/-! ## `Merge` rewrites the sibling links into the merged root list -/

@[simp] theorem Shape.ptr_nil : (Shape.nil : Shape α).ptr = 0 := rfl

@[simp] theorem Shape.ptr_node (a : Ptr) (d : α) (o : Int) (c s : Shape α) :
    (Shape.node a d o c s).ptr = a := rfl

theorem nodup3 {a : Ptr} {C R : Multiset Ptr} (h : ({a} + (C + R)).Nodup) :
    a ∉ C ∧ a ∉ R ∧ C.Nodup ∧ R.Nodup ∧ (C + R).Nodup ∧ (∀ x ∈ C, x ≠ a ∧ x ∉ R) ∧
      (∀ x ∈ R, x ≠ a ∧ x ∉ C) := by
  rw [Multiset.nodup_add] at h
  obtain ⟨_, h2, h3⟩ := h
  have h2' := h2
  rw [Multiset.nodup_add] at h2
  obtain ⟨hC, hR, hCR⟩ := h2
  rw [Multiset.disjoint_left] at h3 hCR
  have ha := h3 (Multiset.mem_singleton_self a)
  rw [Multiset.mem_add, not_or] at ha
  refine ⟨ha.1, ha.2, hC, hR, h2', ?_, ?_⟩
  · intro x hx
    exact ⟨fun e => ha.1 (e ▸ hx), hCR hx⟩
  · intro x hx
    exact ⟨fun e => ha.2 (e ▸ hx), fun hc => hCR hc hx⟩

theorem Shape.mergeS_nil_right (s : Shape α) : mergeS s .nil = s := by
  cases s <;> simp [mergeS]

theorem Shape.addrs_mergeS_aux : ∀ (n : Nat) (s1 s2 : Shape α), s1.len + s2.len ≤ n →
    (mergeS s1 s2).addrs = s1.addrs + s2.addrs ∧
    (mergeS s1 s2).payloads = s1.payloads + s2.payloads := by
  intro n
  induction n with
  | zero =>
    intro s1 s2 h
    cases s1 with
    | nil => simp [mergeS, addrs, payloads]
    | node a d o c r => simp [len] at h
  | succ n ih =>
    intro s1 s2 h
    cases s1 with
    | nil => simp [mergeS, addrs, payloads]
    | node a1 d1 o1 c1 r1 =>
      cases s2 with
      | nil => simp [mergeS, addrs, payloads]
      | node a2 d2 o2 c2 r2 =>
        rw [mergeS]
        split
        · simp only [addrs, payloads]
          rw [(ih r1 _ (by simp [len] at h ⊢; omega)).1, (ih r1 _ (by simp [len] at h ⊢; omega)).2]
          simp only [addrs, payloads]
          constructor <;> ac_rfl
        · simp only [addrs, payloads]
          rw [(ih r2 _ (by simp [len] at h ⊢; omega)).1, (ih r2 _ (by simp [len] at h ⊢; omega)).2]
          simp only [addrs, payloads]
          constructor <;> ac_rfl

theorem Shape.addrs_mergeS (s1 s2 : Shape α) : (mergeS s1 s2).addrs = s1.addrs + s2.addrs :=
  (addrs_mergeS_aux _ s1 s2 le_rfl).1

theorem Shape.payloads_mergeS (s1 s2 : Shape α) :
    (mergeS s1 s2).payloads = s1.payloads + s2.payloads :=
  (addrs_mergeS_aux _ s1 s2 le_rfl).2

theorem Seg.node_intro {m : Mem α} {a : Ptr} {d : α} {o : Int} {c s : Shape α} {q : Ptr}
    (pc pp ps : Ptr)
    (ha : a ≠ 0) (hcell : m.cell a = some ⟨d, o, pc, pp, ps⟩) (hc : Seg m c pc 0)
    (hs : Seg m s ps q) : Seg m (Shape.node a d o c s) a q :=
  ⟨rfl, ha, pc, pp, ps, hcell, hc, hs⟩

/-- Merge, left-biased step used in both branches. -/
theorem Merge_spec : ∀ (f : Nat) (m : Mem α) (s1 s2 : Shape α) (p1 p2 : Ptr),
    Seg m s1 p1 0 → Seg m s2 p2 0 → (s1.addrs + s2.addrs).Nodup → s1.len + s2.len < f →
    ∃ m1, Merge f m p1 p2 = .ok (m1, (mergeS s1 s2).ptr) ∧
      Seg m1 (mergeS s1 s2) (mergeS s1 s2).ptr 0 ∧ m1.last = m.last ∧
      (∀ x, x ∉ s1.addrs + s2.addrs → m1.cell x = m.cell x) := by
  intro f
  induction f with
  | zero => intro m s1 s2 p1 p2 _ _ _ h; omega
  | succ f ih =>
    intro m s1 s2 p1 p2 h1 h2 hnd hlen
    cases s1 with
    | nil =>
      cases h1
      refine ⟨m, ?_, ?_, rfl, fun _ _ => rfl⟩
      · simp [Merge, mergeS, h2.ptr_eq]
      · simpa [mergeS, ← h2.ptr_eq] using h2
    | node a1 d1 o1 c1 r1 =>
      obtain ⟨hp1, ha1, pc1, pp1, ps1, hcell1, hc1, hr1⟩ := h1
      subst hp1
      cases s2 with
      | nil =>
        cases h2
        refine ⟨m, ?_, ?_, rfl, fun _ _ => rfl⟩
        · simp [Merge, mergeS, ha1]
        · simp only [mergeS, Shape.ptr_node]; exact ⟨rfl, ha1, pc1, pp1, ps1, hcell1, hc1, hr1⟩
      | node a2 d2 o2 c2 r2 =>
        have hs2 := h2
        obtain ⟨hp2, ha2, pc2, pp2, ps2, hcell2, hc2, hr2⟩ := h2
        subst hp2
        have hs1 : Seg m (Shape.node p1 d1 o1 c1 r1) p1 0 := Seg.node_intro _ _ _ ha1 hcell1 hc1 hr1
        have hd1 : m.deref p1 = some ⟨d1, o1, pc1, pp1, ps1⟩ := by rw [Mem.deref_of_ne ha1, hcell1]
        have hd2 : m.deref p2 = some ⟨d2, o2, pc2, pp2, ps2⟩ := by rw [Mem.deref_of_ne ha2, hcell2]
        by_cases ho : o1 < o2
        · have key := nodup3 (a := p1) (C := c1.addrs) (R := r1.addrs + (Shape.node p2 d2 o2 c2 r2).addrs)
            (by rw [show ({p1} : Multiset Ptr) + (c1.addrs + (r1.addrs + (Shape.node p2 d2 o2 c2 r2).addrs)) =
                  (Shape.node p1 d1 o1 c1 r1).addrs + (Shape.node p2 d2 o2 c2 r2).addrs by
                    simp only [addrs]; ac_rfl]
                exact hnd)
          obtain ⟨k1, k2, k3, k4, k5, k6, k7⟩ := key
          obtain ⟨m1, hM, hS, hL, hF⟩ := ih m r1 (Shape.node p2 d2 o2 c2 r2) ps1 p2 hr1 hs2 k4
            (by simp [len] at hlen ⊢; omega)
          have hc1' : m1.cell p1 = some ⟨d1, o1, pc1, pp1, ps1⟩ := by
            rw [hF p1 k2, hcell1]
          refine ⟨m1.write p1 ⟨d1, o1, pc1, pp1, (mergeS r1 (Shape.node p2 d2 o2 c2 r2)).ptr⟩, ?_, ?_, ?_, ?_⟩
          · rw [Merge]
            simp [ha1, ha2, hd1, hd2, ho, hM, Mem.deref_of_ne ha1, hc1', mergeS]
          · rw [mergeS]; simp only [ho, if_true, if_false, Shape.ptr_node]
            refine Seg.node_intro pc1 pp1 (mergeS r1 (Shape.node p2 d2 o2 c2 r2)).ptr ha1
              (by simp) ?_ ?_
            · refine Seg.frame ?_ hc1
              intro x hx
              simp only [Mem.cell_write, (k6 x hx).1, if_false]
              exact hF x (k6 x hx).2
            · refine Seg.frame ?_ hS
              intro x hx
              rw [addrs_mergeS] at hx
              have : x ≠ p1 := by rintro rfl; exact k2 hx
              simp [this]
          · simp [hL]
          · intro x hx
            have hx' : x ∉ ({p1} : Multiset Ptr) + (c1.addrs + (r1.addrs + (Shape.node p2 d2 o2 c2 r2).addrs)) := by
              rw [show ({p1} : Multiset Ptr) + (c1.addrs + (r1.addrs + (Shape.node p2 d2 o2 c2 r2).addrs)) =
                  (Shape.node p1 d1 o1 c1 r1).addrs + (Shape.node p2 d2 o2 c2 r2).addrs by
                    simp only [addrs]; ac_rfl]
              exact hx
            simp only [Multiset.mem_add, Multiset.mem_singleton, not_or] at hx'
            simp only [Mem.cell_write, hx'.1, if_false]
            exact hF x (by simp only [Multiset.mem_add, not_or]; exact hx'.2.2)
        · have key := nodup3 (a := p2) (C := c2.addrs) (R := r2.addrs + (Shape.node p1 d1 o1 c1 r1).addrs)
            (by rw [show ({p2} : Multiset Ptr) + (c2.addrs + (r2.addrs + (Shape.node p1 d1 o1 c1 r1).addrs)) =
                  (Shape.node p1 d1 o1 c1 r1).addrs + (Shape.node p2 d2 o2 c2 r2).addrs by
                    simp only [addrs]; ac_rfl]
                exact hnd)
          obtain ⟨k1, k2, k3, k4, k5, k6, k7⟩ := key
          obtain ⟨m1, hM, hS, hL, hF⟩ := ih m r2 (Shape.node p1 d1 o1 c1 r1) ps2 p1 hr2 hs1 k4
            (by simp [len] at hlen ⊢; omega)
          have hc2' : m1.cell p2 = some ⟨d2, o2, pc2, pp2, ps2⟩ := by
            rw [hF p2 k2, hcell2]
          refine ⟨m1.write p2 ⟨d2, o2, pc2, pp2, (mergeS r2 (Shape.node p1 d1 o1 c1 r1)).ptr⟩, ?_, ?_, ?_, ?_⟩
          · rw [Merge]
            simp [ha2, ha1, hd2, hd1, ho, hM, Mem.deref_of_ne ha2, hc2', mergeS]
          · rw [mergeS]; simp only [ho, if_true, if_false, Shape.ptr_node]
            refine Seg.node_intro pc2 pp2 (mergeS r2 (Shape.node p1 d1 o1 c1 r1)).ptr ha2
              (by simp) ?_ ?_
            · refine Seg.frame ?_ hc2
              intro x hx
              simp only [Mem.cell_write, (k6 x hx).1, if_false]
              exact hF x (k6 x hx).2
            · refine Seg.frame ?_ hS
              intro x hx
              rw [addrs_mergeS] at hx
              have : x ≠ p2 := by rintro rfl; exact k2 hx
              simp [this]
          · simp [hL]
          · intro x hx
            have hx' : x ∉ ({p2} : Multiset Ptr) + (c2.addrs + (r2.addrs + (Shape.node p1 d1 o1 c1 r1).addrs)) := by
              rw [show ({p2} : Multiset Ptr) + (c2.addrs + (r2.addrs + (Shape.node p1 d1 o1 c1 r1).addrs)) =
                  (Shape.node p1 d1 o1 c1 r1).addrs + (Shape.node p2 d2 o2 c2 r2).addrs by
                    simp only [addrs]; ac_rfl]
              exact hx
            simp only [Multiset.mem_add, Multiset.mem_singleton, not_or] at hx'
            simp only [Mem.cell_write, hx'.1, if_false]
            exact hF x (by simp only [Multiset.mem_add, not_or]; exact hx'.2.2)

/-! ## `Link`, and the root list in front of the carry pass -/

theorem Link_spec {m : Mem α} {h1 h2 : Ptr} {n1 n2 : node α} (e1 : m.cell h1 = some n1)
    (e2 : m.cell h2 = some n2) (z1 : h1 ≠ 0) (z2 : h2 ≠ 0) (ne : h1 ≠ h2) :
    ∃ m1, Link m h1 h2 = .ok m1 ∧
      m1.cell h1 = some ⟨n1.data, n1.order, n1.child, h2, n2.child⟩ ∧
      m1.cell h2 = some ⟨n2.data, n2.order + 1, h1, n2.parent, n2.sibling⟩ ∧
      (∀ x, x ≠ h1 → x ≠ h2 → m1.cell x = m.cell x) ∧ m1.last = m.last := by
  refine ⟨(((m.write h1 ⟨n1.data, n1.order, n1.child, h2, n1.sibling⟩).write h1
      ⟨n1.data, n1.order, n1.child, h2, n2.child⟩).write h2
      ⟨n2.data, n2.order, h1, n2.parent, n2.sibling⟩).write h2
      ⟨n2.data, n2.order + 1, h1, n2.parent, n2.sibling⟩, ?_, ?_, ?_, ?_, ?_⟩
  · simp [Link, Mem.deref_of_ne z1, Mem.deref_of_ne z2, e1, e2, ne, Ne.symm ne]
  · simp [ne]
  · simp
  · intro x hx1 hx2; simp [hx1, hx2]
  · simp

@[simp] theorem Shape.addrs_append (s t : Shape α) : (s.append t).addrs = s.addrs + t.addrs := by
  induction s with
  | nil => simp [Shape.append, addrs]
  | node a d o c s _ ih => simp only [Shape.append, addrs, ih]; ac_rfl

@[simp] theorem Shape.payloads_append (s t : Shape α) :
    (s.append t).payloads = s.payloads + t.payloads := by
  induction s with
  | nil => simp [Shape.append, payloads]
  | node a d o c s _ ih => simp only [Shape.append, payloads, ih]; ac_rfl

theorem Shape.append_assoc (s t u : Shape α) : (s.append t).append u = s.append (t.append u) := by
  induction s with
  | nil => rfl
  | node a d o c s _ ih => simp only [Shape.append, ih]

@[simp] theorem Shape.append_nil (s : Shape α) : s.append .nil = s := by
  induction s with
  | nil => rfl
  | node a d o c s _ ih => simp only [Shape.append, ih]

theorem Pre.seg {m : Mem α} {pfx : Shape α} {Head pre cur : Ptr} (h : Pre m pfx Head pre cur) :
    Seg m pfx Head cur := by
  rcases h with ⟨rfl, _, rfl⟩ | ⟨pfx0, d, o, c, pc, pp, rfl, hpre, hseg, hcell, hc⟩
  · rfl
  · exact Seg.append hseg (Seg.node_intro pc pp cur hpre hcell hc rfl)

theorem Pre.transport {m m1 : Mem α} {pfx : Shape α} {Head pre cur : Ptr}
    (hfr : ∀ a ∈ pfx.addrs, m1.cell a = m.cell a) (h : Pre m pfx Head pre cur) :
    Pre m1 pfx Head pre cur := by
  rcases h with ⟨rfl, h1, h2⟩ | ⟨pfx0, d, o, c, pc, pp, rfl, hpre, hseg, hcell, hc⟩
  · exact Or.inl ⟨rfl, h1, h2⟩
  · refine Or.inr ⟨pfx0, d, o, c, pc, pp, rfl, hpre, Seg.frame ?_ hseg, ?_, Seg.frame ?_ hc⟩
    · intro a ha; exact hfr a (by simp [ha])
    · rw [hfr pre (by simp [addrs]), hcell]
    · intro a ha; exact hfr a (by simp [addrs, ha])

theorem Pre.snoc {m : Mem α} {pfx : Shape α} {Head pre cur : Ptr} (h : Pre m pfx Head pre cur)
    {d : α} {o : Int} {c : Shape α} (pc pp nxt : Ptr) (hcur : cur ≠ 0)
    (hcell : m.cell cur = some ⟨d, o, pc, pp, nxt⟩) (hc : Seg m c pc 0) :
    Pre m (pfx.append (.node cur d o c .nil)) Head cur nxt :=
  Or.inr ⟨pfx, d, o, c, pc, pp, rfl, hcur, h.seg, hcell, hc⟩

theorem Pre.redirect {m : Mem α} {pfx : Shape α} {Head pre cur : Ptr}
    (h : Pre m pfx Head pre cur) (hnd : pfx.addrs.Nodup) (nxt : Ptr) :
    ∃ m1 Head1,
      (if pre = 0 then some (m, nxt)
       else (m.deref pre).map (fun p => (m.write pre { p with sibling := nxt }, Head))) =
        some (m1, Head1) ∧
      Pre m1 pfx Head1 pre nxt ∧ m1.last = m.last ∧ (∀ x, x ∉ pfx.addrs → m1.cell x = m.cell x) := by
  rcases h with ⟨rfl, h1, h2⟩ | ⟨pfx0, d, o, c, pc, pp, rfl, hpre, hseg, hcell, hc⟩
  · exact ⟨m, nxt, by simp [h1], Or.inl ⟨rfl, h1, rfl⟩, rfl, fun _ _ => rfl⟩
  · have hnd' : (({pre} : Multiset Ptr) + (c.addrs + pfx0.addrs)).Nodup := by
      have e : ({pre} : Multiset Ptr) + (c.addrs + pfx0.addrs) =
          (pfx0.append (.node pre d o c .nil)).addrs := by
        simp only [addrs_append, addrs]; ac_rfl
      rw [e]; exact hnd
    obtain ⟨k1, k2, k3, k4, k5, k6, k7⟩ := nodup3 hnd'
    refine ⟨m.write pre ⟨d, o, pc, pp, nxt⟩, Head, ?_, ?_, rfl, ?_⟩
    · simp [hpre, Mem.deref_of_ne hpre, hcell]
    · refine Or.inr ⟨pfx0, d, o, c, pc, pp, rfl, hpre, Seg.frame ?_ hseg, by simp, Seg.frame ?_ hc⟩
      · intro a ha; simp [(k7 a ha).1]
      · intro a ha; simp [(k6 a ha).1]
    · intro x hx
      have : x ≠ pre := by rintro rfl; exact hx (by simp [addrs])
      simp [this]

theorem third_eq {m : Mem α} {r : Shape α} {ps : Ptr} (o : Int) (h : Seg m r ps 0) :
    (if ps ≠ 0 then (m.deref ps).map (fun s => decide (o = s.order)) else some false) =
      some (startsWith o r) := by
  cases r with
  | nil => cases h; simp [startsWith]
  | node a3 d3 o3 c3 r3 =>
    obtain ⟨rfl, ha, pc, pp, ps3, hcell, _, _⟩ := h
    simp [ha, Mem.deref_of_ne ha, hcell, startsWith]

/-! ## The carry pass computes `carryS` -/

theorem six {P C C2 R : Multiset Ptr} {x y : Ptr}
    (h : (P + ({x} + (C + ({y} + (C2 + R))))).Nodup) :
    x ≠ y ∧ (x ∉ P ∧ x ∉ C ∧ x ∉ C2 ∧ x ∉ R) ∧ (y ∉ P ∧ y ∉ C ∧ y ∉ C2 ∧ y ∉ R) := by
  have h' := Multiset.nodup_iff_count_le_one.1 h
  have hx := h' x
  have hy := h' y
  simp only [Multiset.count_add, Multiset.count_singleton_self, Multiset.count_singleton] at hx hy
  refine ⟨?_, ⟨?_, ?_, ?_, ?_⟩, ⟨?_, ?_, ?_, ?_⟩⟩
  · intro e; subst e; simp only [eq_self_iff_true, if_true] at hx hy; omega
  all_goals
    intro hm
    have := Multiset.count_pos.2 hm
    split_ifs at hx hy <;> omega

theorem sep {U A B : Multiset Ptr} (hU : U.Nodup) (e : A + B = U) :
    A.Nodup ∧ B.Nodup ∧ (∀ x ∈ A, x ∉ B) ∧ (∀ x ∈ B, x ∉ A) := by
  subst e
  obtain ⟨h1, h2, h3⟩ := Multiset.nodup_add.1 hU
  rw [Multiset.disjoint_left] at h3
  exact ⟨h1, h2, fun x hx => h3 hx, fun x hx hx' => h3 hx' hx⟩

theorem merge_loop_spec (less : α → α → Bool) : ∀ (rest : Shape α) (f : Nat) (m : Mem α)
    (Head pre cur : Ptr) (pfx : Shape α) (d : α) (o : Int) (c : Shape α) (pc pp nxt : Ptr),
    Pre m pfx Head pre cur → cur ≠ 0 → m.cell cur = some ⟨d, o, pc, pp, nxt⟩ →
    Seg m c pc 0 → Seg m rest nxt 0 →
    (pfx.addrs + ({cur} + (c.addrs + rest.addrs))).Nodup → rest.len < f →
    ∃ m1 Head1, merge_loop (nothrow less) f m Head pre cur nxt = .ret (m1, Head1) ∧
      Seg m1 (pfx.append (carryS less cur d o c rest)) Head1 0 ∧ m1.last = m.last ∧
      (∀ x, x ∉ pfx.addrs + ({cur} + (c.addrs + rest.addrs)) → m1.cell x = m.cell x) := by
  intro rest
  induction rest with
  | nil =>
    intro f m Head pre cur pfx d o c pc pp nxt hpre hcur hcell hc hrest _ hlen
    cases hrest
    obtain ⟨f, rfl⟩ : ∃ f', f = f' + 1 := ⟨f - 1, by omega⟩
    refine ⟨m, Head, by simp [merge_loop], ?_, rfl, fun _ _ => rfl⟩
    exact Seg.append hpre.seg (Seg.node_intro pc pp 0 hcur hcell hc rfl)
  | node a2 d2 o2 c2 r _ ih =>
    intro f m Head pre cur pfx d o c pc pp nxt hpre hcur hcell hc hrest hnd hlen
    obtain ⟨rfl, ha2, pc2, pp2, ps2, hcell2, hc2, hr2⟩ := hrest
    obtain ⟨f, rfl⟩ : ∃ f', f = f' + 1 := ⟨f - 1, by omega⟩
    have hlen' : r.len < f := by simp [len] at hlen; omega
    simp only [addrs] at hnd
    obtain ⟨hne, ⟨x1, x2, x3, x4⟩, ⟨y1, y2, y3, y4⟩⟩ := six hnd
    have hthird := third_eq (m := m) o2 hr2
    have hcond : (if o ≠ o2 then some true
        else if ps2 ≠ 0 then (m.deref ps2).map (fun s => decide (o2 = s.order))
        else some false) = some (decide (o ≠ o2 ∨ startsWith o2 r = true)) := by
      by_cases ho : o = o2
      · simp only [ho, ne_eq, not_true_eq_false, if_false, false_or]
        rw [hthird]; simp
      · simp [ho]
    rw [merge_loop]
    simp only [ha2, if_false, Mem.deref_of_ne hcur, Mem.deref_of_ne ha2, hcell, hcell2]
    rw [hcond]
    by_cases hadv : o ≠ o2 ∨ startsWith o2 r = true
    · -- the roots stay apart
      simp only [hadv, decide_True]
      obtain ⟨m1, Head1, hrun, hseg, hlast, hfr⟩ := ih f m Head cur nxt
        (pfx.append (.node cur d o c .nil)) d2 o2 c2 pc2 pp2 ps2
        (hpre.snoc pc pp nxt hcur hcell hc) ha2 hcell2 hc2 hr2
        (by
          have e : (pfx.append (.node cur d o c .nil)).addrs + ({nxt} + (c2.addrs + r.addrs)) =
              pfx.addrs + ({cur} + (c.addrs + ({nxt} + (c2.addrs + r.addrs)))) := by
            simp only [addrs_append, addrs]; ac_rfl
          rw [e]; exact hnd) hlen'
      refine ⟨m1, Head1, hrun, ?_, hlast, ?_⟩
      · rw [carryS, if_pos hadv]
        rw [Shape.append_assoc] at hseg
        exact hseg
      · intro x hx
        refine hfr x ?_
        have e : (pfx.append (.node cur d o c .nil)).addrs + ({nxt} + (c2.addrs + r.addrs)) =
            pfx.addrs + ({cur} + (c.addrs + (Shape.node nxt d2 o2 c2 r).addrs)) := by
          simp only [addrs_append, addrs]; ac_rfl
        rw [e]; exact hx
    · simp only [hadv, decide_False, nothrow]
      have hregion : ∀ x, (x ∈ pfx.addrs ∨ x ∈ c.addrs ∨ x ∈ c2.addrs ∨ x ∈ r.addrs) →
          x ≠ cur ∧ x ≠ nxt := by
        intro x hx
        constructor
        · rintro rfl; rcases hx with h | h | h | h
          · exact x1 h
          · exact x2 h
          · exact x3 h
          · exact x4 h
        · rintro rfl; rcases hx with h | h | h | h
          · exact y1 h
          · exact y2 h
          · exact y3 h
          · exact y4 h
      by_cases hl : less d2 d = true
      · -- nxt becomes the first child of cur
        simp only [hl]
        have e1 : (m.write cur ⟨d, o, pc, pp, ps2⟩).cell nxt = some ⟨d2, o2, pc2, pp2, ps2⟩ := by
          simp [Ne.symm hne, hcell2]
        simp only [e1]
        obtain ⟨m3, hL, hk1, hk2, hoth, hlast3⟩ :=
          @Link_spec α ((m.write cur ⟨d, o, pc, pp, ps2⟩).write nxt ⟨d2, o2, pc2, cur, ps2⟩)
            nxt cur ⟨d2, o2, pc2, cur, ps2⟩ ⟨d, o, pc, pp, ps2⟩ (by simp) (by simp [hne])
            ha2 hcur (Ne.symm hne)
        simp only [hL, Mem.deref_of_ne hcur, hk2]
        have hfr3 : ∀ x, x ≠ cur → x ≠ nxt → m3.cell x = m.cell x := by
          intro x h1 h2
          rw [hoth x h2 h1]; simp [h1, h2]
        obtain ⟨m1, Head1, hrun, hseg, hlast, hfr⟩ := ih f m3 Head pre cur pfx d (o + 1)
          (.node nxt d2 o2 c2 c) nxt pp ps2
          (hpre.transport (fun a ha => hfr3 a (hregion a (Or.inl ha)).1 (hregion a (Or.inl ha)).2))
          hcur hk2
          (Seg.node_intro pc2 cur pc ha2 hk1
            (Seg.frame (fun a ha => hfr3 a (hregion a (Or.inr (Or.inr (Or.inl ha)))).1
              (hregion a (Or.inr (Or.inr (Or.inl ha)))).2) hc2)
            (Seg.frame (fun a ha => hfr3 a (hregion a (Or.inr (Or.inl ha))).1
              (hregion a (Or.inr (Or.inl ha))).2) hc))
          (Seg.frame (fun a ha => hfr3 a (hregion a (Or.inr (Or.inr (Or.inr ha)))).1
              (hregion a (Or.inr (Or.inr (Or.inr ha)))).2) hr2)
          (by
            have e : pfx.addrs + ({cur} + ((Shape.node nxt d2 o2 c2 c).addrs + r.addrs)) =
                pfx.addrs + ({cur} + (c.addrs + ({nxt} + (c2.addrs + r.addrs)))) := by
              simp only [addrs]; ac_rfl
            rw [e]; exact hnd) hlen'
        refine ⟨m1, Head1, hrun, ?_, by rw [hlast, hlast3]; rfl, ?_⟩
        · rw [carryS, if_neg hadv, if_pos hl]; exact hseg
        · intro x hx
          have hx' : x ∉ pfx.addrs + ({cur} + ((Shape.node nxt d2 o2 c2 c).addrs + r.addrs)) := by
            have e : pfx.addrs + ({cur} + ((Shape.node nxt d2 o2 c2 c).addrs + r.addrs)) =
                pfx.addrs + ({cur} + (c.addrs + (Shape.node nxt d2 o2 c2 r).addrs)) := by
              simp only [addrs]; ac_rfl
            rw [e]; exact hx
          rw [hfr x hx']
          simp only [addrs, Multiset.mem_add, Multiset.mem_singleton, not_or] at hx
          exact hfr3 x hx.2.1 hx.2.2.2.1
      · -- cur becomes the first child of nxt
        have hl' : less d2 d = false := by simpa using hl
        simp only [hl']
        have hndp : pfx.addrs.Nodup :=
          (sep hnd (A := pfx.addrs) (B := {cur} + (c.addrs + ({nxt} + (c2.addrs + r.addrs)))) rfl).1
        obtain ⟨m1, Head1, hred, hpre1, hlast1, hfr1⟩ := hpre.redirect hndp nxt
        simp only [hred]
        have hcur1 : m1.cell cur = some ⟨d, o, pc, pp, nxt⟩ := by rw [hfr1 cur x1, hcell]
        have hnxt1 : m1.cell nxt = some ⟨d2, o2, pc2, pp2, ps2⟩ := by rw [hfr1 nxt y1, hcell2]
        obtain ⟨m3, hL, hk1, hk2, hoth, hlast3⟩ :=
          @Link_spec α m1 cur nxt ⟨d, o, pc, pp, nxt⟩ ⟨d2, o2, pc2, pp2, ps2⟩ hcur1 hnxt1
            hcur ha2 hne
        simp only [hL, Mem.deref_of_ne ha2, hk2]
        have hfr3 : ∀ x, x ≠ cur → x ≠ nxt → x ∉ pfx.addrs → m3.cell x = m.cell x := by
          intro x h1 h2 h3
          rw [hoth x h1 h2, hfr1 x h3]
        have hsepP := (sep hnd (A := pfx.addrs)
          (B := {cur} + (c.addrs + ({nxt} + (c2.addrs + r.addrs)))) rfl).2.2.2
        have hout : ∀ x, (x ∈ c.addrs ∨ x ∈ c2.addrs ∨ x ∈ r.addrs) → m3.cell x = m.cell x := by
          intro x hx
          have hr := hregion x (Or.inr hx)
          refine hfr3 x hr.1 hr.2 (hsepP x ?_)
          simp only [Multiset.mem_add, Multiset.mem_singleton]
          tauto
        obtain ⟨m4, Head4, hrun, hseg, hlast, hfr⟩ := ih f m3 Head1 pre nxt pfx d2 (o2 + 1)
          (.node cur d o c c2) cur pp2 ps2
          (hpre1.transport (fun a ha => hoth a (hregion a (Or.inl ha)).1 (hregion a (Or.inl ha)).2))
          ha2 hk2
          (Seg.node_intro pc nxt pc2 hcur hk1
            (Seg.frame (fun a ha => hout a (Or.inl ha)) hc)
            (Seg.frame (fun a ha => hout a (Or.inr (Or.inl ha))) hc2))
          (Seg.frame (fun a ha => hout a (Or.inr (Or.inr ha))) hr2)
          (by
            have e : pfx.addrs + ({nxt} + ((Shape.node cur d o c c2).addrs + r.addrs)) =
                pfx.addrs + ({cur} + (c.addrs + ({nxt} + (c2.addrs + r.addrs)))) := by
              simp only [addrs]; ac_rfl
            rw [e]; exact hnd) hlen'
        refine ⟨m4, Head4, hrun, ?_, by rw [hlast, hlast3, hlast1], ?_⟩
        · rw [carryS, if_neg hadv, if_neg hl]; exact hseg
        · intro x hx
          have hx' : x ∉ pfx.addrs + ({nxt} + ((Shape.node cur d o c c2).addrs + r.addrs)) := by
            have e : pfx.addrs + ({nxt} + ((Shape.node cur d o c c2).addrs + r.addrs)) =
                pfx.addrs + ({cur} + (c.addrs + (Shape.node nxt d2 o2 c2 r).addrs)) := by
              simp only [addrs]; ac_rfl
            rw [e]; exact hx
          rw [hfr x hx']
          simp only [addrs, Multiset.mem_add, Multiset.mem_singleton, not_or] at hx
          exact hfr3 x hx.2.1 hx.2.2.2.1 hx.1

/-! ## `merge` and `push` -/

theorem Shape.len_le_card (s : Shape α) : s.len ≤ Multiset.card s.addrs := by
  induction s with
  | nil => simp [len]
  | node a d o c s _ ih => simp only [len, addrs, Multiset.card_add, Multiset.card_singleton]; omega

theorem card_le_last {A : Multiset Ptr} {n : Nat} (hnd : A.Nodup) (h0 : 0 ∉ A)
    (hb : ∀ x ∈ A, x ≤ n) : Multiset.card A ≤ n := by
  have hsub : A.toFinset ⊆ Finset.Icc 1 n := by
    intro x hx
    rw [Multiset.mem_toFinset] at hx
    rw [Finset.mem_Icc]
    refine ⟨?_, hb x hx⟩
    rcases Nat.eq_zero_or_pos x with h | h
    · exact absurd (h ▸ hx) h0
    · exact h
  have := Finset.card_le_card hsub
  rw [Multiset.toFinset_card_of_nodup hnd, Nat.card_Icc] at this
  omega

theorem Shape.carryS_addrs (less : α → α → Bool) : ∀ (r : Shape α) (a : Ptr) (d : α) (o : Int)
    (c : Shape α), (carryS less a d o c r).addrs = {a} + (c.addrs + r.addrs) ∧
      (carryS less a d o c r).payloads = {d} + (c.payloads + r.payloads) := by
  intro r
  induction r with
  | nil => intro a d o c; simp [carryS, addrs, payloads]
  | node a2 d2 o2 c2 r _ ih =>
    intro a d o c
    rw [carryS]
    split_ifs
    · simp only [addrs, payloads, (ih a2 d2 o2 c2).1, (ih a2 d2 o2 c2).2]
      exact ⟨trivial, trivial⟩
    · rw [(ih a d (o + 1) _).1, (ih a d (o + 1) _).2]
      simp only [addrs, payloads]
      constructor <;> ac_rfl
    · rw [(ih a2 d2 (o2 + 1) _).1, (ih a2 d2 (o2 + 1) _).2]
      simp only [addrs, payloads]
      constructor <;> ac_rfl

theorem Shape.addrs_carry (less : α → α → Bool) (s : Shape α) : (carry less s).addrs = s.addrs := by
  cases s with
  | nil => rfl
  | node a d o c r => simp only [carry, (carryS_addrs less r a d o c).1, addrs]

theorem Shape.payloads_carry (less : α → α → Bool) (s : Shape α) :
    (carry less s).payloads = s.payloads := by
  cases s with
  | nil => rfl
  | node a d o c r => simp only [carry, (carryS_addrs less r a d o c).2, payloads]

theorem Shape.addrs_mergeQ (less : α → α → Bool) (sa sb : Shape α) :
    (mergeQ less sa sb).addrs = sa.addrs + sb.addrs := by
  cases sb with
  | nil => simp [mergeQ, addrs]
  | node a d o c r => simp only [mergeQ, addrs_carry, addrs_mergeS]

theorem Shape.payloads_mergeQ (less : α → α → Bool) (sa sb : Shape α) :
    (mergeQ less sa sb).payloads = sa.payloads + sb.payloads := by
  cases sb with
  | nil => simp [mergeQ, payloads]
  | node a d o c r => simp only [mergeQ, payloads_carry, payloads_mergeS]

theorem Shape.mergeS_node (sa : Shape α) (a : Ptr) (d : α) (o : Int) (c r : Shape α) :
    ∃ a1 d1 o1 c1 r1, mergeS sa (.node a d o c r) = .node a1 d1 o1 c1 r1 := by
  cases sa with
  | nil => exact ⟨a, d, o, c, r, by simp [mergeS]⟩
  | node a0 d0 o0 c0 r0 =>
    rw [mergeS]
    split_ifs
    · exact ⟨_, _, _, _, _, rfl⟩
    · exact ⟨_, _, _, _, _, rfl⟩

theorem merge_spec (less : α → α → Bool) {m : Mem α} {a b : priority_queue} {sa sb : Shape α}
    (ha : Seg m sa a.head 0) (hb : Seg m sb b.head 0) (hnd : (sa.addrs + sb.addrs).Nodup)
    (hbd : ∀ x ∈ sa.addrs + sb.addrs, x ≤ m.last) :
    ∃ m1, merge (nothrow less) m a b false =
        .ret (m1, { a with head := (mergeQ less sa sb).ptr }, { b with head := 0 }) ∧
      Seg m1 (mergeQ less sa sb) (mergeQ less sa sb).ptr 0 ∧ m1.last = m.last ∧
      (∀ x, x ∉ sa.addrs + sb.addrs → m1.cell x = m.cell x) := by
  cases sb with
  | nil =>
    have hb0 : b.head = 0 := hb
    refine ⟨m, ?_, ?_, rfl, fun _ _ => rfl⟩
    · have : a.head = sa.ptr := ha.ptr_eq
      simp [merge, priority_queue.empty, mergeQ, ← this, hb0]
      cases b; simp at hb0; simp [hb0]
    · simp only [mergeQ]; rw [← ha.ptr_eq]; exact ha
  | node pb db ob cb rb =>
    have hb0 : b.head ≠ 0 := by rw [hb.1]; exact hb.2.1
    have h0 : 0 ∉ sa.addrs + (Shape.node pb db ob cb rb).addrs := by
      rw [Multiset.mem_add, not_or]; exact ⟨ha.zero_not_mem, hb.zero_not_mem⟩
    have hcard := card_le_last hnd h0 hbd
    have hlen : sa.len + (Shape.node pb db ob cb rb).len < m.steps := by
      have h1 := len_le_card sa
      have h2 := len_le_card (Shape.node pb db ob cb rb)
      rw [Multiset.card_add] at hcard
      simp only [Mem.steps]; omega
    obtain ⟨m1, hM, hS, hL, hF⟩ := Merge_spec m.steps m sa _ a.head b.head ha hb hnd hlen
    obtain ⟨a1, d1, o1, c1, r1, hshape⟩ := mergeS_node sa pb db ob cb rb
    have haddr := addrs_mergeS sa (Shape.node pb db ob cb rb)
    rw [hshape] at hM hS haddr
    simp only [Shape.ptr_node] at hM hS
    obtain ⟨_, ha1, pc1, pp1, ps1, hcell1, hc1, hr1⟩ := hS
    have hnd1 : ((Shape.nil : Shape α).addrs + ({a1} + (c1.addrs + r1.addrs))).Nodup := by
      have e : (Shape.nil : Shape α).addrs + ({a1} + (c1.addrs + r1.addrs)) =
          sa.addrs + (Shape.node pb db ob cb rb).addrs := by
        rw [← haddr]; simp [addrs]
      rw [e]; exact hnd
    have hlen1 : r1.len < m1.steps := by
      have h1 := len_le_card r1
      rw [← haddr] at hcard
      simp only [addrs, Multiset.card_add, Multiset.card_singleton] at hcard
      simp only [Mem.steps, hL]; omega
    obtain ⟨m2, Head2, hrun, hseg2, hlast2, hfr2⟩ := merge_loop_spec less r1 m1.steps m1 a1 0 a1
      .nil d1 o1 c1 pc1 pp1 ps1 (Or.inl ⟨rfl, rfl, rfl⟩) ha1 hcell1 hc1 hr1 hnd1 hlen1
    simp only [Shape.append] at hseg2
    have hres : mergeQ less sa (Shape.node pb db ob cb rb) = carryS less a1 d1 o1 c1 r1 := by
      simp only [mergeQ, hshape, carry]
    have hHead2 : Head2 = (carryS less a1 d1 o1 c1 r1).ptr := hseg2.ptr_eq
    refine ⟨m2, ?_, ?_, by rw [hlast2, hL], ?_⟩
    · simp [merge, priority_queue.empty, hb0, hM, ha1, Mem.deref_of_ne ha1, hcell1, hrun, hres,
        hHead2]
    · rw [hres, ← hHead2]; exact hseg2
    · intro x hx
      rw [hfr2 x (by
        have e : (Shape.nil : Shape α).addrs + ({a1} + (c1.addrs + r1.addrs)) =
            sa.addrs + (Shape.node pb db ob cb rb).addrs := by
          rw [← haddr]; simp [addrs]
        rw [e]; exact hx)]
      exact hF x hx

theorem to_size_t_succ (n : Nat) : to_size_t ((n : Int) + 1) = n + 1 := by
  have h : (0 : Int) ≤ (n : Int) + 1 := by omega
  simp only [to_size_t, h, if_true]
  omega

theorem to_size_t_pred (n : Nat) (h : 1 ≤ n) : to_size_t ((n : Int) - 1) = n - 1 := by
  have h : (0 : Int) ≤ (n : Int) - 1 := by omega
  simp only [to_size_t, h, if_true]
  omega

theorem to_size_t_nat (n : Nat) : to_size_t (n : Int) = n := by
  simp [to_size_t]

theorem to_int_small (n : Nat) (h : n < 2 ^ 31) : to_int n = n := by
  have h1 : n % 2 ^ 32 = n := Nat.mod_eq_of_lt (by omega)
  simp only [to_int, h1, h, if_true]

theorem wrap_int_small (i : Int) (h1 : -(2 ^ 31) ≤ i) (h2 : i < 2 ^ 31) : wrap_int i = i := by
  simp only [wrap_int]
  split_ifs <;> omega

theorem length_succ (n : Nat) (h : n + 1 < 2 ^ 31) :
    to_size_t (wrap_int (to_int n + 1)) = n + 1 := by
  rw [to_int_small n (by omega), wrap_int_small _ (by omega) (by omega), to_size_t_succ]

theorem length_pred (n : Nat) (h : n < 2 ^ 31) :
    to_size_t (wrap_int (to_int n - 1)) + 1 = if n = 0 then 2 ^ 64 else n := by
  rw [to_int_small n h, wrap_int_small _ (by omega) (by omega)]
  by_cases h0 : n = 0
  · subst h0; simp [to_size_t]
  · rw [to_size_t_pred n (by omega), if_neg h0]; omega

theorem push_spec (less : α → α → Bool) {m : Mem α} {q : priority_queue} {s : Shape α}
    (h : Holds m q s) (e : α) :
    ∃ m1, push (nothrow less) m q e =
        .ret (m1, ⟨(carry less (mergeS s (.node (m.last + 1) e 0 .nil .nil))).ptr,
          to_size_t (wrap_int (to_int q.length + 1))⟩) ∧
      Holds m1 ⟨(carry less (mergeS s (.node (m.last + 1) e 0 .nil .nil))).ptr,
          to_size_t (wrap_int (to_int q.length + 1))⟩
        (carry less (mergeS s (.node (m.last + 1) e 0 .nil .nil))) ∧
      m1.last = m.last + 1 := by
  obtain ⟨hseg, hnd, hbd⟩ := h
  obtain ⟨qh, ql⟩ := q
  simp only at hseg ⊢
  have hfresh : m.last + 1 ∉ s.addrs := fun hx => by
    have h1 : (m.last + 1 : Nat) ≤ m.last := hbd _ hx
    omega
  have hnd0 : (s.addrs + (Shape.node (m.last + 1) e 0 .nil .nil).addrs).Nodup := by
    simp only [addrs, add_zero]
    rw [Multiset.nodup_add]
    refine ⟨hnd, Multiset.nodup_singleton _, ?_⟩
    rw [Multiset.disjoint_left]
    intro x hx hx'
    rw [Multiset.mem_singleton] at hx'
    exact hfresh (hx' ▸ hx)
  cases s with
  | nil =>
    have hq : qh = 0 := hseg
    refine ⟨(make_node m e).2, ?_, ⟨?_, ?_, ?_⟩, rfl⟩
    · simp [push, make_node, hq, mergeS, carry, carryS]
    · simp only [mergeS, carry, carryS, Shape.ptr_node]
      exact Seg.node_intro 0 0 0 (Nat.succ_ne_zero m.last) (by simp [make_node]) rfl rfl
    · simp [mergeS, carry, carryS, addrs]
    · intro x hx
      simp [mergeS, carry, carryS, addrs] at hx
      simp [make_node, hx]
  | node a d o c r =>
    obtain ⟨hqa, ha, pc, pp, ps, hcell, hc, hr⟩ := hseg
    subst hqa
    have hseg : Seg m (Shape.node qh d o c r) qh 0 := ⟨rfl, ha, pc, pp, ps, hcell, hc, hr⟩
    have hane : qh ≠ m.last + 1 := by
      rintro rfl; exact hfresh (by simp [addrs])
    have hseg0 : Seg (make_node m e).2 (Shape.node qh d o c r) (priority_queue.mk qh ql).head 0 := by
      refine Seg.frame ?_ hseg
      intro x hx
      have : x ≠ m.last + 1 := by rintro rfl; exact hfresh hx
      simp [make_node, this]
    have hnew : Seg (make_node m e).2 (Shape.node (m.last + 1) e 0 .nil .nil)
        (priority_queue.mk (m.last + 1) 1).head 0 :=
      Seg.node_intro 0 0 0 (Nat.succ_ne_zero m.last) (by simp [make_node]) rfl rfl
    obtain ⟨m1, hrun, hseg1, hlast1, hfr1⟩ := merge_spec less hseg0 hnew hnd0 (by
      intro x hx
      rw [Multiset.mem_add] at hx
      rcases hx with hx | hx
      · exact Nat.le_succ_of_le (hbd x hx)
      · simp [addrs] at hx; simp [make_node, hx])
    have hcell0 : (make_node m e).2.cell qh = some ⟨d, o, pc, pp, ps⟩ := by
      simp [make_node, hane, hcell]
    refine ⟨m1, ?_, ⟨?_, ?_, ?_⟩, by rw [hlast1]; rfl⟩
    · simp only [push, ha, if_false]
      rw [show (make_node m e).1 = m.last + 1 from rfl]
      simp only [Mem.deref_of_ne ha, hcell0, nothrow]
      simp only [nothrow] at hrun
      rw [hrun]
      simp [mergeQ]
    · simpa [mergeQ] using hseg1
    · rw [addrs_carry, addrs_mergeS]; exact hnd0
    · intro x hx
      rw [addrs_carry, addrs_mergeS, Multiset.mem_add] at hx
      rw [hlast1]
      rcases hx with hx | hx
      · exact Nat.le_succ_of_le (hbd x hx)
      · simp [addrs] at hx; simp [make_node, hx]

/-! ## The scans of `top()` and `pop()` -/

theorem top_loop_spec (less : α → α → Bool) {m : Mem α} : ∀ (rest : Shape α) (f : Nat)
    (ans : Ptr) (da : α) (cur : Ptr),
    ans ≠ 0 → (∃ n, m.cell ans = some n ∧ n.data = da) → Seg m rest cur 0 → rest.len < f →
    top_loop (nothrow less) m f ans cur = .ret (scanS less ans da rest).2 := by
  intro rest
  induction rest with
  | nil =>
    intro f ans da cur hans ⟨n, hn, hd⟩ hseg hlen
    cases hseg
    obtain ⟨f, rfl⟩ : ∃ f', f = f' + 1 := ⟨f - 1, by omega⟩
    simp [top_loop, Mem.deref_of_ne hans, hn, hd, scanS]
  | node a2 d2 o2 c2 r _ ih =>
    intro f ans da cur hans ⟨n, hn, hd⟩ hseg hlen
    obtain ⟨rfl, ha2, pc2, pp2, ps2, hcell2, hc2, hr2⟩ := hseg
    obtain ⟨f, rfl⟩ : ∃ f', f = f' + 1 := ⟨f - 1, by omega⟩
    have hlen' : r.len < f := by simp [len] at hlen; omega
    rw [top_loop]
    simp only [ha2, if_false, Mem.deref_of_ne hans, Mem.deref_of_ne ha2, hn, hcell2, nothrow, hd]
    rw [scanS]
    cases hl : less da d2
    · simp only [Bool.false_eq_true, if_false]
      exact ih f ans da ps2 hans ⟨n, hn, hd⟩ hr2 hlen'
    · simp only [if_true]
      exact ih f cur d2 ps2 ha2 ⟨_, hcell2, rfl⟩ hr2 hlen'

theorem pop_scan_spec (less : α → α → Bool) {m : Mem α} : ∀ (rest : Shape α) (f : Nat)
    (top : Ptr) (dt : α) (cur : Ptr),
    top ≠ 0 → (∃ n, m.cell top = some n ∧ n.data = dt) → Seg m rest cur 0 → rest.len < f →
    pop_scan (nothrow less) m f top cur = .ret (scanS less top dt rest).1 := by
  intro rest
  induction rest with
  | nil =>
    intro f top dt cur _ _ hseg hlen
    cases hseg
    obtain ⟨f, rfl⟩ : ∃ f', f = f' + 1 := ⟨f - 1, by omega⟩
    simp [pop_scan, scanS]
  | node a2 d2 o2 c2 r _ ih =>
    intro f top dt cur htop ⟨n, hn, hd⟩ hseg hlen
    obtain ⟨rfl, ha2, pc2, pp2, ps2, hcell2, hc2, hr2⟩ := hseg
    obtain ⟨f, rfl⟩ : ∃ f', f = f' + 1 := ⟨f - 1, by omega⟩
    have hlen' : r.len < f := by simp [len] at hlen; omega
    rw [pop_scan]
    simp only [ha2, if_false, Mem.deref_of_ne htop, Mem.deref_of_ne ha2, hn, hcell2, nothrow, hd]
    rw [scanS]
    cases hl : less dt d2
    · simp only [Bool.false_eq_true, if_false]
      exact ih f top dt ps2 htop ⟨n, hn, hd⟩ hr2 hlen'
    · simp only [if_true]
      exact ih f cur d2 ps2 ha2 ⟨_, hcell2, rfl⟩ hr2 hlen'

theorem Holds.len_lt {m : Mem α} {q : priority_queue} {s : Shape α} (h : Holds m q s) :
    Multiset.card s.addrs < m.steps := by
  have := card_le_last h.nodup h.seg.zero_not_mem h.bound
  simp only [Mem.steps]; omega

theorem top_spec (less : α → α → Bool) {m : Mem α} {q : priority_queue} {a : Ptr} {d : α}
    {o : Int} {c r : Shape α} (h : Holds m q (.node a d o c r)) :
    top (nothrow less) m q = .ret (scanS less a d (.node a d o c r)).2 := by
  have hseg := h.seg
  obtain ⟨hq, ha, pc, pp, ps, hcell, hc, hr⟩ := hseg
  have hq0 : q.head ≠ 0 := by rw [hq]; exact ha
  simp only [top, priority_queue.empty, hq0, decide_False, Bool.false_eq_true, if_false]
  have hs := h.seg
  rw [hq] at hs ⊢
  refine top_loop_spec less _ _ a d a ha ⟨_, hcell, rfl⟩ hs ?_
  exact lt_of_le_of_lt (len_le_card _) h.len_lt

/-! ## `pop()`: unlinking the root, turning its children around, merging back -/

theorem Seg.split {m : Mem α} : ∀ {s t : Shape α} {p q : Ptr},
    Seg m (s.append t) p q → ∃ mid, Seg m s p mid ∧ Seg m t mid q := by
  intro s
  induction s with
  | nil => intro t p q h; exact ⟨p, rfl, h⟩
  | node a d o c s _ ihs =>
    intro t p q h
    obtain ⟨hp, ha, pc, pp, ps, hcell, hc, hs⟩ := h
    obtain ⟨mid, h1, h2⟩ := ihs hs
    exact ⟨mid, ⟨hp, ha, pc, pp, ps, hcell, hc, h1⟩, h2⟩

theorem Seg.split_last {m : Mem α} : ∀ {pfx : Shape α} {Head cur : Ptr},
    Seg m pfx Head cur → pfx ≠ .nil →
    ∃ pfx0 pre d o c pc pp, pfx = pfx0.append (.node pre d o c .nil) ∧ Seg m pfx0 Head pre ∧
      pre ≠ 0 ∧ m.cell pre = some ⟨d, o, pc, pp, cur⟩ ∧ Seg m c pc 0 := by
  intro pfx
  induction pfx with
  | nil => intro _ _ _ h; exact absurd rfl h
  | node a d o c s _ ihs =>
    intro Head cur h _
    obtain ⟨hp, ha, pc, pp, ps, hcell, hc, hs⟩ := h
    cases s with
    | nil =>
      cases hs
      exact ⟨.nil, a, d, o, c, pc, pp, rfl, hp, ha, hcell, hc⟩
    | node a2 d2 o2 c2 s2 =>
      obtain ⟨pfx0, pre, d', o', c', pc', pp', e, h1, h2, h3, h4⟩ := ihs hs (by simp)
      refine ⟨.node a d o c pfx0, pre, d', o', c', pc', pp', ?_, ?_, h2, h3, h4⟩
      · simp only [Shape.append, e]
      · exact ⟨hp, ha, pc, pp, ps, hcell, hc, h1⟩

theorem Seg.ptr_mem {m : Mem α} {s : Shape α} {p q : Ptr} (h : Seg m s p q) :
    p = q ∨ p ∈ s.rootAddrs := by
  cases s with
  | nil => exact Or.inl h
  | node a d o c s => exact Or.inr (by simp [rootAddrs, h.1])

theorem pop_find_spec {m : Mem α} : ∀ (pfx0 : Shape α) (f : Nat) (head pre t : Ptr) (d : α)
    (o : Int) (pc pp : Ptr), Seg m pfx0 head pre → pre ≠ 0 →
    m.cell pre = some ⟨d, o, pc, pp, t⟩ → t ∉ pfx0.rootAddrs → t ≠ pre → pfx0.len < f →
    pop_find m f head t = .ok pre := by
  intro pfx0
  induction pfx0 with
  | nil =>
    intro f head pre t d o pc pp hseg hpre hcell _ _ hlen
    cases hseg
    obtain ⟨f, rfl⟩ : ∃ f', f = f' + 1 := ⟨f - 1, by omega⟩
    simp [pop_find, Mem.deref_of_ne hpre, hcell]
  | node a1 d1 o1 c1 r1 _ ih =>
    intro f head pre t d o pc pp hseg hpre hcell hnot hne hlen
    obtain ⟨rfl, ha1, pc1, pp1, ps1, hcell1, hc1, hr1⟩ := hseg
    obtain ⟨f, rfl⟩ : ∃ f', f = f' + 1 := ⟨f - 1, by omega⟩
    have hlen' : r1.len < f := by simp [len] at hlen; omega
    have hps : ps1 ≠ t := by
      rcases hr1.ptr_mem with h | h
      · rw [h]; exact Ne.symm hne
      · rintro rfl; exact hnot (by simp [rootAddrs, h])
    rw [pop_find]
    simp only [Mem.deref_of_ne ha1, hcell1, hps, ne_eq, not_false_eq_true, if_true]
    exact ih f ps1 pre t d o pc pp hr1 hpre hcell (fun h => hnot (by simp [rootAddrs, h])) hne hlen'

theorem pop_reverse_spec {m0 : Mem α} : ∀ (rest : Shape α) (f : Nat) (m : Mem α)
    (temp tail : Ptr) (d : α) (o : Int) (c : Shape α) (pc pp nxt : Ptr) (acc : Shape α),
    temp ≠ 0 → m.cell temp = some ⟨d, o, pc, pp, nxt⟩ → Seg m c pc 0 → Seg m rest nxt 0 →
    Seg m acc tail 0 → (acc.addrs + ({temp} + (c.addrs + rest.addrs))).Nodup → rest.len < f →
    m.last = m0.last →
    ∃ m1, pop_reverse f m temp tail = .ok (m1, (revOnto (.node temp d o c rest) acc).ptr) ∧
      Seg m1 (revOnto (.node temp d o c rest) acc) (revOnto (.node temp d o c rest) acc).ptr 0 ∧
      m1.last = m0.last ∧
      (∀ x, x ∉ acc.addrs + ({temp} + (c.addrs + rest.addrs)) → m1.cell x = m.cell x) := by
  intro rest
  induction rest with
  | nil =>
    intro f m temp tail d o c pc pp nxt acc htemp hcell hc hrest hacc hnd hlen hlast
    cases hrest
    obtain ⟨f, rfl⟩ : ∃ f', f = f' + 1 := ⟨f - 1, by omega⟩
    simp only [addrs, add_zero] at hnd
    obtain ⟨_, _, hA, hB⟩ := sep hnd (A := acc.addrs) (B := {temp} + c.addrs) rfl
    refine ⟨m.write temp ⟨d, o, pc, pp, tail⟩, ?_, ?_, by simp [hlast], ?_⟩
    · simp [pop_reverse, Mem.deref_of_ne htemp, hcell, revOnto]
    · simp only [revOnto, Shape.ptr_node]
      refine Seg.node_intro pc pp tail htemp (by simp) (Seg.frame ?_ hc) (Seg.frame ?_ hacc)
      · intro x hx
        have : x ≠ temp := by
          rintro rfl
          have := (Multiset.nodup_add.1 (sep hnd (A := acc.addrs) (B := {x} + c.addrs) rfl).2.1).2.2
          rw [Multiset.disjoint_left] at this
          exact this (Multiset.mem_singleton_self x) hx
        simp [this]
      · intro x hx
        have : x ≠ temp := by
          rintro rfl
          exact hA x hx (by simp)
        simp [this]
    · intro x hx
      simp only [addrs, add_zero, Multiset.mem_add, Multiset.mem_singleton, not_or] at hx
      simp [hx.2.1]
  | node a2 d2 o2 c2 r _ ih =>
    intro f m temp tail d o c pc pp nxt acc htemp hcell hc hrest hacc hnd hlen hlast
    obtain ⟨rfl, ha2, pc2, pp2, ps2, hcell2, hc2, hr2⟩ := hrest
    obtain ⟨f, rfl⟩ : ∃ f', f = f' + 1 := ⟨f - 1, by omega⟩
    have hlen' : r.len < f := by simp [len] at hlen; omega
    simp only [addrs] at hnd
    obtain ⟨hne, ⟨x1, x2, x3, x4⟩, ⟨y1, y2, y3, y4⟩⟩ := six hnd
    have hregion : ∀ x, (x ∈ acc.addrs ∨ x ∈ c.addrs ∨ x ∈ c2.addrs ∨ x ∈ r.addrs) →
        x ≠ temp ∧ x ≠ nxt := by
      intro x hx
      constructor
      · rintro rfl; rcases hx with h | h | h | h
        · exact x1 h
        · exact x2 h
        · exact x3 h
        · exact x4 h
      · rintro rfl; rcases hx with h | h | h | h
        · exact y1 h
        · exact y2 h
        · exact y3 h
        · exact y4 h
    have hfr2 : ∀ x, x ≠ temp → x ≠ nxt →
        ((m.write temp ⟨d, o, pc, pp, tail⟩).write nxt ⟨d2, o2, pc2, 0, ps2⟩).cell x = m.cell x := by
      intro x h1 h2; simp [h1, h2]
    obtain ⟨m1, hrun, hseg, hlast1, hfr⟩ := ih f
      ((m.write temp ⟨d, o, pc, pp, tail⟩).write nxt ⟨d2, o2, pc2, 0, ps2⟩) nxt temp d2 o2 c2
      pc2 0 ps2 (.node temp d o c acc) ha2 (by simp)
      (Seg.frame (fun a ha => hfr2 a (hregion a (Or.inr (Or.inr (Or.inl ha)))).1
        (hregion a (Or.inr (Or.inr (Or.inl ha)))).2) hc2)
      (Seg.frame (fun a ha => hfr2 a (hregion a (Or.inr (Or.inr (Or.inr ha)))).1
        (hregion a (Or.inr (Or.inr (Or.inr ha)))).2) hr2)
      (Seg.node_intro pc pp tail htemp (by simp [hne])
        (Seg.frame (fun a ha => hfr2 a (hregion a (Or.inr (Or.inl ha))).1
          (hregion a (Or.inr (Or.inl ha))).2) hc)
        (Seg.frame (fun a ha => hfr2 a (hregion a (Or.inl ha)).1
          (hregion a (Or.inl ha)).2) hacc))
      (by
        have e : (Shape.node temp d o c acc).addrs + ({nxt} + (c2.addrs + r.addrs)) =
            acc.addrs + ({temp} + (c.addrs + ({nxt} + (c2.addrs + r.addrs)))) := by
          simp only [addrs]; ac_rfl
        rw [e]; exact hnd) hlen' (by simp [hlast])
    refine ⟨m1, ?_, ?_, hlast1, ?_⟩
    · rw [pop_reverse]
      simp only [Mem.deref_of_ne htemp, hcell, ha2, ne_eq, not_false_eq_true, if_true,
        Mem.deref_of_ne ha2]
      have e1 : (m.write temp ⟨d, o, pc, pp, tail⟩).cell nxt = some ⟨d2, o2, pc2, pp2, ps2⟩ := by
        simp [Ne.symm hne, hcell2]
      simp only [e1]
      rw [hrun]; rfl
    · exact hseg
    · intro x hx
      have hx' : x ∉ (Shape.node temp d o c acc).addrs + ({nxt} + (c2.addrs + r.addrs)) := by
        have e : (Shape.node temp d o c acc).addrs + ({nxt} + (c2.addrs + r.addrs)) =
            acc.addrs + ({temp} + (c.addrs + (Shape.node nxt d2 o2 c2 r).addrs)) := by
          simp only [addrs]; ac_rfl
        rw [e]; exact hx
      rw [hfr x hx']
      simp only [addrs, Multiset.mem_add, Multiset.mem_singleton, not_or] at hx
      exact hfr2 x hx.2.1 hx.2.2.2.1

theorem Shape.rootAddrs_sub (s : Shape α) : ∀ x ∈ s.rootAddrs, x ∈ s.addrs := by
  induction s with
  | nil => intro x hx; simp [rootAddrs] at hx
  | node a d o c s _ ih =>
    intro x hx
    simp only [rootAddrs, List.mem_cons] at hx
    simp only [addrs, Multiset.mem_add, Multiset.mem_singleton]
    rcases hx with h | h
    · exact Or.inl h
    · exact Or.inr (Or.inr (ih x h))

theorem Shape.addrs_revOnto : ∀ (s acc : Shape α),
    (revOnto s acc).addrs = s.addrs + acc.addrs ∧
    (revOnto s acc).payloads = s.payloads + acc.payloads := by
  intro s
  induction s with
  | nil => intro acc; simp [revOnto, addrs, payloads]
  | node a d o c s _ ih =>
    intro acc
    rw [revOnto, (ih _).1, (ih _).2]
    simp only [addrs, payloads]
    constructor <;> ac_rfl

theorem Shape.scanS_split (less : α → α → Bool) : ∀ (r : Shape α) (a : Ptr) (d : α),
    scanS less a d r = (a, d) ∨
    ∃ (pfx : Shape α) (o : Int) (c sfx : Shape α), r = pfx.append (.node (scanS less a d r).1 (scanS less a d r).2 o c sfx) := by
  intro r
  induction r with
  | nil => intro a d; exact Or.inl rfl
  | node a2 d2 o2 c2 r _ ih =>
    intro a d
    rw [scanS]
    split_ifs
    · rcases ih a2 d2 with h | ⟨pfx, o, c, sfx, h⟩
      · exact Or.inr ⟨.nil, o2, c2, r, by rw [h]; rfl⟩
      · exact Or.inr ⟨.node a2 d2 o2 c2 pfx, o, c, sfx, by rw [Shape.append, ← h]⟩
    · rcases ih a d with h | ⟨pfx, o, c, sfx, h⟩
      · exact Or.inl h
      · exact Or.inr ⟨.node a2 d2 o2 c2 pfx, o, c, sfx, by rw [Shape.append, ← h]⟩

theorem Shape.best_split (less : α → α → Bool) (a : Ptr) (d : α) (o : Int) (c r : Shape α) :
    ∃ (pfx : Shape α) (ot : Int) (ct sfx : Shape α), Shape.node a d o c r =
      pfx.append (.node (scanS less a d (.node a d o c r)).1 (scanS less a d (.node a d o c r)).2
        ot ct sfx) := by
  have e : scanS less a d (.node a d o c r) = scanS less a d r := by
    rw [scanS]; split_ifs <;> rfl
  rw [e]
  rcases scanS_split less r a d with h | ⟨pfx, ot, ct, sfx, h⟩
  · exact ⟨.nil, o, c, r, by rw [h]; rfl⟩
  · exact ⟨.node a d o c pfx, ot, ct, sfx, by rw [Shape.append, ← h]⟩

theorem Shape.remove_append {t : Ptr} : ∀ (pfx : Shape α) (d : α) (o : Int) (c sfx : Shape α),
    t ∉ pfx.rootAddrs →
    remove t (pfx.append (.node t d o c sfx)) = pfx.append sfx ∧
    childOf t (pfx.append (.node t d o c sfx)) = c := by
  intro pfx
  induction pfx with
  | nil => intro d o c sfx _; simp [Shape.append, remove, childOf]
  | node a1 d1 o1 c1 r1 _ ih =>
    intro d o c sfx h
    simp only [rootAddrs, List.mem_cons, not_or] at h
    have hne : a1 ≠ t := fun e => h.1 e.symm
    simp only [Shape.append, remove, childOf, hne, if_false]
    exact ⟨by rw [(ih d o c sfx h.2).1], (ih d o c sfx h.2).2⟩

theorem pop_unlink_spec {m : Mem α} {q : priority_queue} {pfx sfx ct : Shape α} {t : Ptr}
    {dt : α} {ot : Int} (pc pp ps : Ptr)
    (hseg : Seg m (pfx.append (.node t dt ot ct sfx)) q.head 0)
    (hnd : (pfx.append (.node t dt ot ct sfx)).addrs.Nodup)
    (hcell : m.cell t = some ⟨dt, ot, pc, pp, ps⟩)
    (hlen : pfx.len < m.steps) :
    ∃ m1 q1, pop_unlink m q t ⟨dt, ot, pc, pp, ps⟩ = .ok (m1, q1) ∧
      Seg m1 pfx q1.head ps ∧ q1.length = q.length ∧ m1.last = m.last ∧
      (∀ x, x ∉ pfx.addrs → m1.cell x = m.cell x) := by
  obtain ⟨mid, h1, h2⟩ := hseg.split
  obtain ⟨rfl, ht, pc', pp', ps', hcell', hct, hsfx⟩ := h2
  rw [addrs_append] at hnd
  obtain ⟨hndp, _, hA, hB⟩ := sep hnd rfl
  have htp : mid ∉ pfx.addrs := hB mid (by simp [addrs])
  cases hpfx : pfx with
  | nil =>
    subst hpfx
    have hq : q.head = mid := h1
    refine ⟨m, { q with head := ps }, ?_, rfl, rfl, rfl, fun _ _ => rfl⟩
    simp [pop_unlink, hq]
  | node a1 d1 o1 c1 r1 =>
    have hne : pfx ≠ .nil := by rw [hpfx]; simp
    obtain ⟨pfx0, pre, d', o', c', pcp, ppp, e, hs0, hpre, hcellp, hc'⟩ := h1.split_last hne
    have hqh : q.head ≠ mid := by
      have : q.head ∈ pfx.rootAddrs := by
        rw [hpfx] at h1 ⊢
        simp [rootAddrs, h1.1]
      intro e'
      exact htp (e' ▸ rootAddrs_sub pfx _ this)
    have hpre' : Pre m pfx q.head pre mid :=
      Or.inr ⟨pfx0, d', o', c', pcp, ppp, e, hpre, hs0, hcellp, hc'⟩
    have hfind : pop_find m m.steps q.head mid = .ok pre := by
      refine pop_find_spec pfx0 _ q.head pre mid d' o' pcp ppp hs0 hpre hcellp ?_ ?_ ?_
      · intro hx
        apply htp
        rw [e, addrs_append]
        exact Multiset.mem_add.2 (Or.inl (rootAddrs_sub _ _ hx))
      · rintro rfl
        apply htp
        rw [e, addrs_append]
        exact Multiset.mem_add.2 (Or.inr (by simp [addrs]))
      · have : pfx0.len ≤ pfx.len := by
          rw [e]
          clear * -
          induction pfx0 with
          | nil => simp [len]
          | node _ _ _ _ s _ ih => simp only [Shape.append, len]; omega
        omega
    obtain ⟨m1, Head1, hred, hpre1, hlast1, hfr1⟩ := hpre'.redirect hndp ps
    simp only [hpre, if_false, Mem.deref_of_ne hpre, hcellp, Option.map_some',
      Option.some.injEq, Prod.mk.injEq] at hred
    obtain ⟨rfl, rfl⟩ := hred
    rw [← hpfx]
    refine ⟨_, q, ?_, hpre1.seg, rfl, rfl, hfr1⟩
    simp [pop_unlink, Ne.symm hqh, hfind, Mem.deref_of_ne hpre, hcellp]

theorem Seg.eq_nil {m : Mem α} {s : Shape α} (h : Seg m s 0 0) : s = .nil := by
  cases s with
  | nil => rfl
  | node a d o c s => exact absurd h.1.symm h.2.1

theorem merge_empty (comp : α → α → Option Bool) (m : Mem α) (this other : priority_queue)
    (same : Bool) (h : other.head = 0) : merge comp m this other same = .ret (m, this, other) := by
  simp [merge, priority_queue.empty, h]

theorem pop_detach_spec {m : Mem α} {q : priority_queue} {ct : Shape α} {pct : Ptr}
    (hseg : Seg m ct pct 0) (hnd : ct.addrs.Nodup) (hlen : ct.len < m.steps) :
    ∃ m1 q1, pop_detach m q pct = .ok (m1, (revOnto ct .nil).ptr, q1) ∧ q1.head = q.head ∧
      Seg m1 (revOnto ct .nil) (revOnto ct .nil).ptr 0 ∧ m1.last = m.last ∧
      (∀ x, x ∉ ct.addrs → m1.cell x = m.cell x) := by
  cases ct with
  | nil =>
    cases hseg
    exact ⟨m, q, by simp [pop_detach, revOnto], rfl, by simp [revOnto, Seg], rfl, fun _ _ => rfl⟩
  | node a d o c r =>
    obtain ⟨rfl, ha, pc, pp, ps, hcell, hc, hr⟩ := hseg
    simp only [addrs] at hnd
    obtain ⟨k1, k2, k3, k4, k5, k6, k7⟩ := nodup3 hnd
    have hfr0 : ∀ x, x ≠ pct → (m.write pct ⟨d, o, pc, 0, ps⟩).cell x = m.cell x := by
      intro x hx; simp [hx]
    obtain ⟨m1, hrun, hseg1, hlast1, hfr1⟩ := @pop_reverse_spec α m r m.steps
      (m.write pct ⟨d, o, pc, 0, ps⟩) pct 0 d o c pc 0 ps .nil ha (by simp)
      (Seg.frame (fun x hx => hfr0 x (k6 x hx).1) hc)
      (Seg.frame (fun x hx => hfr0 x (k7 x hx).1) hr) rfl
      (by simpa [addrs] using hnd) (by simp [len] at hlen; omega) rfl
    refine ⟨m1, { q with length := to_size_t ((q.length : Int) - 1) }, ?_, rfl, hseg1, hlast1, ?_⟩
    · simp [pop_detach, ha, Mem.deref_of_ne ha, hcell]
      simp only [Mem.steps, Mem.last_write] at hrun ⊢
      rw [hrun]
    · intro x hx
      rw [hfr1 x (by simpa [addrs] using hx)]
      simp only [addrs, Multiset.mem_add, Multiset.mem_singleton, not_or] at hx
      exact hfr0 x hx.1

theorem Seg.head_ne_zero {m : Mem α} {pfx sfx ct : Shape α} {t p : Ptr} {dt : α} {ot : Int}
    (h : Seg m (pfx.append (.node t dt ot ct sfx)) p 0) : p ≠ 0 := by
  cases pfx with
  | nil => rw [h.1]; exact h.2.1
  | node a d o c s => rw [h.1]; exact h.2.1

theorem pop_core (less : α → α → Bool) {m : Mem α} {q : priority_queue} {pfx sfx ct : Shape α}
    {t : Ptr} {dt : α} {ot : Int} (h : Holds m q (pfx.append (.node t dt ot ct sfx)))
    (hscan : pop_scan (nothrow less) m m.steps q.head q.head = .ret t) :
    ∃ m1, pop (nothrow less) m q =
        .ret (m1, ⟨(mergeQ less (pfx.append sfx) (revOnto ct .nil)).ptr,
          to_size_t (wrap_int (to_int q.length - 1))⟩) ∧
      Holds m1 ⟨(mergeQ less (pfx.append sfx) (revOnto ct .nil)).ptr,
          to_size_t (wrap_int (to_int q.length - 1))⟩ (mergeQ less (pfx.append sfx) (revOnto ct .nil)) ∧
      m1.last = m.last := by
  obtain ⟨hseg, hnd, hbd⟩ := h
  have hq0 : q.head ≠ 0 := hseg.head_ne_zero
  have hsteps := (Holds.mk hseg hnd hbd).len_lt
  obtain ⟨mid, hpfx, hnode⟩ := hseg.split
  obtain ⟨rfl, ht, pct, ppt, pst, hcell, hct, hsfx⟩ := hnode
  have hnd' : (pfx.addrs + ({mid} + (ct.addrs + sfx.addrs))).Nodup := by
    simpa [addrs] using hnd
  have hcard : Multiset.card pfx.addrs + (1 + (Multiset.card ct.addrs + Multiset.card sfx.addrs))
      < m.steps := by
    simp only [addrs_append, addrs, Multiset.card_add, Multiset.card_singleton] at hsteps
    omega
  obtain ⟨hndp, hndr, hP, hR⟩ := sep hnd' rfl
  obtain ⟨t1, t2, hndc, hnds, hndcs, hC, hS⟩ := nodup3 hndr
  have htp : mid ∉ pfx.addrs := hR mid (by simp)
  -- unlink
  obtain ⟨m1, q1, hun, hseg1, hlen1, hlast1, hfr1⟩ := pop_unlink_spec pct ppt pst hseg hnd hcell
    (by have := len_le_card pfx; omega)
  have hfrP : ∀ x, x ∈ ct.addrs ∨ x ∈ sfx.addrs ∨ x = mid → m1.cell x = m.cell x := by
    intro x hx
    refine hfr1 x (hR x ?_)
    simp only [Multiset.mem_add, Multiset.mem_singleton]
    tauto
  have hsa1 : Seg m1 (pfx.append sfx) q1.head 0 :=
    hseg1.append (Seg.frame (fun x hx => hfrP x (Or.inr (Or.inl hx))) hsfx)
  have hct1 : Seg m1 ct pct 0 := Seg.frame (fun x hx => hfrP x (Or.inl hx)) hct
  have hcell1 : m1.cell mid = some ⟨dt, ot, pct, ppt, pst⟩ := by
    rw [hfrP mid (Or.inr (Or.inr rfl)), hcell]
  -- detach
  obtain ⟨m2, q2, hdet, hq2, hrev2, hlast2, hfr2⟩ := pop_detach_spec (q := q1) hct1 hndc
    (by have := len_le_card ct; simp only [Mem.steps, hlast1] at hsteps ⊢; simp only [Mem.steps] at hcard; omega)
  have hsa2 : Seg m2 (pfx.append sfx) q2.head 0 := by
    rw [hq2]
    refine Seg.frame ?_ hsa1
    intro x hx
    refine hfr2 x ?_
    rw [addrs_append, Multiset.mem_add] at hx
    rcases hx with hx | hx
    · intro hx'; exact hP x hx (by simp [hx'])
    · exact (hS x hx).2
  have hcell2 : m2.cell mid = some ⟨dt, ot, pct, ppt, pst⟩ := by
    rw [hfr2 mid t1, hcell1]
  -- merge
  have hndm : ((pfx.append sfx).addrs + (revOnto ct .nil).addrs).Nodup := by
    rw [addrs_append, (addrs_revOnto ct .nil).1]
    have e : pfx.addrs + sfx.addrs + (ct.addrs + (Shape.nil : Shape α).addrs) + {mid} =
        pfx.addrs + ({mid} + (ct.addrs + sfx.addrs)) := by
      simp only [addrs, add_zero]; ac_rfl
    exact (sep hnd' e).1
  have hmem : ∀ x, x ∈ (pfx.append sfx).addrs + (revOnto ct .nil).addrs →
      x ∈ (pfx.append (.node mid dt ot ct sfx)).addrs ∧ x ≠ mid := by
    intro x hx
    rw [addrs_append, (addrs_revOnto ct .nil).1] at hx
    simp only [addrs, add_zero, Multiset.mem_add] at hx
    simp only [addrs_append, addrs, Multiset.mem_add, Multiset.mem_singleton]
    refine ⟨by tauto, ?_⟩
    rintro rfl
    rcases hx with (hx | hx) | hx
    · exact htp hx
    · exact t2 hx
    · exact t1 hx
  obtain ⟨m3, hmrg, hseg3, hlast3, hfr3⟩ := merge_spec less (a := q2)
    (b := ⟨(revOnto ct .nil).ptr, 0⟩) hsa2 hrev2 hndm (by
      intro x hx
      rw [hlast2, hlast1]
      exact hbd x (hmem x hx).1)
  have hif : (if (revOnto ct .nil).ptr ≠ 0
      then merge (nothrow less) m2 q2 ⟨(revOnto ct .nil).ptr, 0⟩ false
      else .ret (m2, q2, ⟨(revOnto ct .nil).ptr, 0⟩)) =
      merge (nothrow less) m2 q2 ⟨(revOnto ct .nil).ptr, 0⟩ false := by
    split_ifs with h0
    · rfl
    · rw [merge_empty]; simpa using h0
  have hcell3 : m3.cell mid = some ⟨dt, ot, pct, ppt, pst⟩ := by
    rw [hfr3 mid (fun hx => (hmem mid hx).2 rfl), hcell2]
  have hif2 := hif.trans hmrg
  refine ⟨m3.release mid, ?_, ⟨?_, ?_, ?_⟩, by simp [hlast3, hlast2, hlast1]⟩
  · simp only [pop, priority_queue.empty, hq0, decide_False, Bool.false_eq_true, if_false, hscan,
      Mem.deref_of_ne ht, hcell, hun, hcell1, hdet, hif2, free, hcell3]
  · refine Seg.frame ?_ hseg3
    intro x hx
    rw [addrs_mergeQ] at hx
    have := (hmem x hx).2
    simp [this]
  · rw [addrs_mergeQ]; exact hndm
  · intro x hx
    rw [addrs_mergeQ] at hx
    simp only [Mem.last_release, hlast3, hlast2, hlast1]
    exact hbd x (hmem x hx).1

theorem Shape.popS_eq (less : α → α → Bool) {a : Ptr} {d : α} {o : Int} {c r : Shape α}
    (hnd : (Shape.node a d o c r).addrs.Nodup) :
    ∃ (pfx : Shape α) (ot : Int) (ct sfx : Shape α),
      Shape.node a d o c r = pfx.append (.node (scanS less a d (.node a d o c r)).1
        (scanS less a d (.node a d o c r)).2 ot ct sfx) ∧
      popS less (.node a d o c r) = mergeQ less (pfx.append sfx) (revOnto ct .nil) := by
  obtain ⟨pfx, ot, ct, sfx, hs⟩ := best_split less a d o c r
  refine ⟨pfx, ot, ct, sfx, hs, ?_⟩
  have hnot : (scanS less a d (.node a d o c r)).1 ∉ pfx.rootAddrs := by
    intro hx
    rw [hs, addrs_append] at hnd
    obtain ⟨_, _, hA, _⟩ := sep hnd rfl
    exact hA _ (rootAddrs_sub pfx _ hx) (by simp [addrs])
  have hrem := remove_append pfx (scanS less a d (.node a d o c r)).2 ot ct sfx hnot
  rw [← hs] at hrem
  simp only [popS, best]
  rw [hrem.1, hrem.2]

theorem pop_spec (less : α → α → Bool) {m : Mem α} {q : priority_queue} {a : Ptr} {d : α}
    {o : Int} {c r : Shape α} (h : Holds m q (.node a d o c r)) :
    ∃ m1, pop (nothrow less) m q =
        .ret (m1, ⟨(popS less (.node a d o c r)).ptr, to_size_t (wrap_int (to_int q.length - 1))⟩) ∧
      Holds m1 ⟨(popS less (.node a d o c r)).ptr, to_size_t (wrap_int (to_int q.length - 1))⟩
        (popS less (.node a d o c r)) ∧
      m1.last = m.last := by
  obtain ⟨pfx, ot, ct, sfx, hs, hp⟩ := popS_eq less h.nodup
  have hscan : pop_scan (nothrow less) m m.steps q.head q.head =
      .ret (scanS less a d (.node a d o c r)).1 := by
    have hq : q.head = a := h.seg.1
    have hseg := h.seg
    rw [hq] at hseg ⊢
    obtain ⟨_, ha, pc, pp, ps, hcell, _, _⟩ := h.seg
    exact pop_scan_spec less _ _ a d a ha ⟨_, hcell, rfl⟩ hseg
      (lt_of_le_of_lt (len_le_card _) h.len_lt)
  rw [hp]
  rw [hs] at h
  exact pop_core less h hscan

/-! ## Heap order and the maximum, on shapes -/

theorem StrictWeakOrder.asymm {less : α → α → Bool} (h : StrictWeakOrder less) {x y : α}
    (hxy : less x y = true) : less y x = false := by
  cases hyx : less y x with
  | false => rfl
  | true =>
    have := h.trans x y x hxy hyx
    rw [h.irrefl] at this
    exact absurd this (by simp)

theorem Shape.rootData_append (s t : Shape α) :
    (s.append t).rootData = s.rootData ++ t.rootData := by
  induction s with
  | nil => rfl
  | node a d o c s _ ih => simp only [Shape.append, rootData, ih, List.cons_append]

theorem Shape.rootData_sub (s : Shape α) : ∀ x ∈ s.rootData, x ∈ s.payloads := by
  induction s with
  | nil => intro x hx; simp [rootData] at hx
  | node a d o c s _ ih =>
    intro x hx
    simp only [rootData, List.mem_cons] at hx
    simp only [payloads, Multiset.mem_add, Multiset.mem_singleton]
    rcases hx with h | h
    · exact Or.inl h
    · exact Or.inr (Or.inr (ih x h))

theorem Shape.heapOrdered_append (less : α → α → Bool) (s t : Shape α) :
    HeapOrdered less (s.append t) ↔ HeapOrdered less s ∧ HeapOrdered less t := by
  induction s with
  | nil => simp [Shape.append, HeapOrdered]
  | node a d o c s _ ih => simp only [Shape.append, HeapOrdered, ih, and_assoc]

theorem Shape.heapOrdered_mergeS (less : α → α → Bool) : ∀ (n : Nat) (s1 s2 : Shape α),
    s1.len + s2.len ≤ n → HeapOrdered less s1 → HeapOrdered less s2 →
    HeapOrdered less (mergeS s1 s2) := by
  intro n
  induction n with
  | zero =>
    intro s1 s2 h h1 h2
    cases s1 with
    | nil => simpa [mergeS] using h2
    | node a d o c r => simp [len] at h
  | succ n ih =>
    intro s1 s2 h h1 h2
    cases s1 with
    | nil => simpa [mergeS] using h2
    | node a1 d1 o1 c1 r1 =>
      cases s2 with
      | nil => simpa [mergeS] using h1
      | node a2 d2 o2 c2 r2 =>
        rw [mergeS]
        split
        · exact ⟨h1.1, h1.2.1, ih r1 _ (by simp [len] at h ⊢; omega) h1.2.2 h2⟩
        · exact ⟨h2.1, h2.2.1, ih r2 _ (by simp [len] at h ⊢; omega) h2.2.2 h1⟩

theorem Shape.heapOrdered_carryS {less : α → α → Bool} (hl : StrictWeakOrder less) :
    ∀ (r : Shape α) (a : Ptr) (d : α) (o : Int) (c : Shape α),
    (∀ x ∈ c.rootData, less d x = false) → HeapOrdered less c → HeapOrdered less r →
    HeapOrdered less (carryS less a d o c r) := by
  intro r
  induction r with
  | nil => intro a d o c h1 h2 _; exact ⟨h1, h2, trivial⟩
  | node a2 d2 o2 c2 r _ ih =>
    intro a d o c h1 h2 h3
    obtain ⟨k1, k2, k3⟩ := h3
    rw [carryS]
    split_ifs with hadv hlt
    · exact ⟨h1, h2, ih a2 d2 o2 c2 k1 k2 k3⟩
    · refine ih a d (o + 1) _ ?_ ⟨k1, k2, h2⟩ k3
      intro x hx
      simp only [rootData, List.mem_cons] at hx
      rcases hx with rfl | hx
      · exact hl.asymm hlt
      · exact h1 x hx
    · refine ih a2 d2 (o2 + 1) _ ?_ ⟨h1, h2, k2⟩ k3
      intro x hx
      simp only [rootData, List.mem_cons] at hx
      rcases hx with rfl | hx
      · simpa using hlt
      · exact k1 x hx

theorem Shape.heapOrdered_carry {less : α → α → Bool} (hl : StrictWeakOrder less) (s : Shape α)
    (h : HeapOrdered less s) : HeapOrdered less (carry less s) := by
  cases s with
  | nil => trivial
  | node a d o c r => exact heapOrdered_carryS hl r a d o c h.1 h.2.1 h.2.2

theorem Shape.heapOrdered_mergeQ {less : α → α → Bool} (hl : StrictWeakOrder less)
    (sa sb : Shape α) (ha : HeapOrdered less sa) (hb : HeapOrdered less sb) :
    HeapOrdered less (mergeQ less sa sb) := by
  cases sb with
  | nil => exact ha
  | node a d o c r => exact heapOrdered_carry hl _ (heapOrdered_mergeS less _ _ _ le_rfl ha hb)

theorem Shape.heapOrdered_revOnto (less : α → α → Bool) : ∀ (s acc : Shape α),
    HeapOrdered less s → HeapOrdered less acc → HeapOrdered less (revOnto s acc) := by
  intro s
  induction s with
  | nil => intro acc _ h; exact h
  | node a d o c s _ ih =>
    intro acc h1 h2
    exact ih _ h1.2.2 ⟨h1.1, h1.2.1, h2⟩

theorem Shape.heapOrdered_popS {less : α → α → Bool} (hl : StrictWeakOrder less) {a : Ptr}
    {d : α} {o : Int} {c r : Shape α} (hnd : (Shape.node a d o c r).addrs.Nodup)
    (h : HeapOrdered less (.node a d o c r)) : HeapOrdered less (popS less (.node a d o c r)) := by
  obtain ⟨pfx, ot, ct, sfx, hs, hp⟩ := popS_eq less hnd
  rw [hs, heapOrdered_append] at h
  rw [hp]
  refine heapOrdered_mergeQ hl _ _ ((heapOrdered_append less _ _).2 ⟨h.1, h.2.2.2⟩)
    (heapOrdered_revOnto less _ _ h.2.2.1 trivial)

theorem Shape.payloads_popS (less : α → α → Bool) {a : Ptr} {d : α} {o : Int} {c r : Shape α}
    (hnd : (Shape.node a d o c r).addrs.Nodup) :
    (Shape.node a d o c r).payloads =
      (scanS less a d (.node a d o c r)).2 ::ₘ (popS less (.node a d o c r)).payloads := by
  obtain ⟨pfx, ot, ct, sfx, hs, hp⟩ := popS_eq less hnd
  rw [hp, payloads_mergeQ, payloads_append, (addrs_revOnto ct .nil).2]
  conv_lhs => rw [hs]
  rw [payloads_append, ← Multiset.singleton_add]
  simp only [payloads, add_zero]
  ac_rfl

theorem Shape.scanS_ge {less : α → α → Bool} (hl : StrictWeakOrder less) : ∀ (r : Shape α)
    (a : Ptr) (d : α), less (scanS less a d r).2 d = false ∧
      ∀ x ∈ r.rootData, less (scanS less a d r).2 x = false := by
  intro r
  induction r with
  | nil => intro a d; exact ⟨hl.irrefl d, fun x hx => by simp [rootData] at hx⟩
  | node a2 d2 o2 c2 r _ ih =>
    intro a d
    rw [scanS]
    split_ifs with hlt
    · obtain ⟨h1, h2⟩ := ih a2 d2
      have hd : less (scanS less a2 d2 r).2 d = false := by
        cases hc : less (scanS less a2 d2 r).2 d with
        | false => rfl
        | true =>
          have := hl.trans _ _ _ hc hlt
          rw [h1] at this
          exact absurd this (by simp)
      refine ⟨hd, ?_⟩
      intro x hx
      simp only [rootData, List.mem_cons] at hx
      rcases hx with rfl | hx
      · exact h1
      · exact h2 x hx
    · obtain ⟨h1, h2⟩ := ih a d
      refine ⟨h1, ?_⟩
      intro x hx
      simp only [rootData, List.mem_cons] at hx
      rcases hx with rfl | hx
      · exact hl.incomp_trans _ _ _ h1 (by simpa using hlt)
      · exact h2 x hx

theorem Shape.scanS_mem (less : α → α → Bool) : ∀ (r : Shape α) (a : Ptr) (d : α),
    (scanS less a d r).2 = d ∨ (scanS less a d r).2 ∈ r.rootData := by
  intro r
  induction r with
  | nil => intro a d; exact Or.inl rfl
  | node a2 d2 o2 c2 r _ ih =>
    intro a d
    rw [scanS]
    split_ifs
    · rcases ih a2 d2 with h | h
      · exact Or.inr (by simp [rootData, h])
      · exact Or.inr (by simp [rootData, h])
    · rcases ih a d with h | h
      · exact Or.inl h
      · exact Or.inr (by simp [rootData, h])

theorem Shape.root_dominates {less : α → α → Bool} (hl : StrictWeakOrder less) :
    ∀ (s : Shape α), HeapOrdered less s →
    ∀ x ∈ s.payloads, ∃ y ∈ s.rootData, less y x = false := by
  intro s
  induction s with
  | nil => intro _ x hx; simp [payloads] at hx
  | node a d o c r ihc ihr =>
    intro h x hx
    simp only [payloads, Multiset.mem_add, Multiset.mem_singleton] at hx
    rcases hx with rfl | hx | hx
    · exact ⟨x, by simp [rootData], hl.irrefl x⟩
    · obtain ⟨y, hy, hyx⟩ := ihc h.2.1 x hx
      exact ⟨d, by simp [rootData], hl.incomp_trans _ _ _ (h.1 y hy) hyx⟩
    · obtain ⟨y, hy, hyx⟩ := ihr h.2.2 x hx
      exact ⟨y, by simp [rootData, hy], hyx⟩

theorem Shape.best_max {less : α → α → Bool} (hl : StrictWeakOrder less) {a : Ptr} {d : α}
    {o : Int} {c r : Shape α} (h : HeapOrdered less (.node a d o c r)) :
    (scanS less a d (.node a d o c r)).2 ∈ (Shape.node a d o c r).payloads ∧
    ∀ x ∈ (Shape.node a d o c r).payloads, less (scanS less a d (.node a d o c r)).2 x = false := by
  constructor
  · apply rootData_sub
    rcases scanS_mem less (.node a d o c r) a d with h1 | h1
    · rw [h1]; simp [rootData]
    · exact h1
  · intro x hx
    obtain ⟨y, hy, hyx⟩ := root_dominates hl _ h x hx
    exact hl.incomp_trans _ _ _ ((scanS_ge hl (.node a d o c r) a d).2 y hy) hyx

/-! ## Sample data, sequences of pushes, and the exceptions that can be thrown -/

theorem nat_less_swo : StrictWeakOrder nat_less := by
  refine ⟨?_, ?_, ?_⟩
  · intro a; simp [nat_less]
  · intro a b c h1 h2; simp only [nat_less, decide_eq_true_eq] at *; omega
  · intro a b c h1 h2; simp only [nat_less, decide_eq_false_iff_not] at *; omega

theorem demo_holds : Holds demo_mem demo_queue demo_shape := by
  refine ⟨?_, ?_, ?_⟩
  · exact ⟨rfl, by decide, 0, 0, 2, rfl, rfl, rfl, by decide, 1, 0, 0, rfl,
      ⟨rfl, by decide, 0, 2, 0, rfl, rfl, rfl⟩, rfl⟩
  · decide
  · decide

theorem demo_reached :
    ∃ m, push_all (nothrow nat_less) [1, 2, 3] Mem.empty mk_empty = .ret (m, demo_queue) ∧
      m.last = demo_mem.last ∧ m.cell 1 = demo_mem.cell 1 ∧ m.cell 2 = demo_mem.cell 2 ∧
      m.cell 3 = demo_mem.cell 3 :=
  ⟨_, rfl, rfl, rfl, rfl, rfl⟩

theorem demo_heapOrdered : HeapOrdered nat_less demo_shape := by
  simp [demo_shape, HeapOrdered, rootData, nat_less]

theorem Holds.empty (m : Mem α) : Holds m mk_empty (.nil : Shape α) :=
  ⟨rfl, by simp [addrs], by simp [addrs]⟩

theorem Holds.shape_ne_nil {m : Mem α} {q : priority_queue} {s : Shape α} (h : Holds m q s)
    (hne : q.empty = false) : ∃ a d o c r, s = .node a d o c r := by
  cases s with
  | nil =>
    have : q.head = 0 := h.seg
    simp [priority_queue.empty, this] at hne
  | node a d o c r => exact ⟨a, d, o, c, r, rfl⟩

theorem push_all_spec {less : α → α → Bool} (hl : StrictWeakOrder less) : ∀ (xs : List α)
    (m : Mem α) (q : priority_queue) (s : Shape α), Holds m q s → HeapOrdered less s →
    ∃ m1 q1 s1, push_all (nothrow less) xs m q = .ret (m1, q1) ∧ Holds m1 q1 s1 ∧
      HeapOrdered less s1 ∧ s1.payloads = s.payloads + (xs : Multiset α) ∧
      (q.length + xs.length < 2 ^ 31 → q1.length = q.length + xs.length) := by
  intro xs
  induction xs with
  | nil => intro m q s h ho; exact ⟨m, q, s, rfl, h, ho, by simp, fun _ => rfl⟩
  | cons x xs ih =>
    intro m q s h ho
    obtain ⟨m1, hrun, hh, _⟩ := push_spec less h x
    have ho1 : HeapOrdered less (carry less (mergeS s (.node (m.last + 1) x 0 .nil .nil))) :=
      heapOrdered_carry hl _ (heapOrdered_mergeS less _ _ _ le_rfl ho
        ⟨fun _ hx => by simp [rootData] at hx, trivial, trivial⟩)
    obtain ⟨m2, q2, s2, hrun2, hh2, ho2, hp2, hl2⟩ := ih m1 _ _ hh ho1
    refine ⟨m2, q2, s2, ?_, hh2, ho2, ?_, ?_⟩
    · simp only [push_all, hrun, hrun2]
    · rw [hp2, payloads_carry, payloads_mergeS]
      simp only [payloads, add_zero, ← Multiset.cons_coe, ← Multiset.singleton_add]
      ac_rfl
    · intro hb
      simp only [List.length_cons] at hb ⊢
      have e := length_succ q.length (by omega)
      have h3 := hl2
      simp only [e] at h3
      rw [h3 (by omega)]; omega

theorem top_loop_throw {comp : α → α → Option Bool} {m : Mem α} : ∀ (f : Nat) (ans cur : Ptr)
    (e : Exc) (u : Unit), top_loop comp m f ans cur = .throw e u → e = .thrown_by_compare := by
  intro f
  induction f with
  | zero => intro ans cur e u h; simp [top_loop] at h
  | succ f ih =>
    intro ans cur e u h
    rw [top_loop] at h
    repeat' split at h
    all_goals first
      | exact ih _ _ _ _ h
      | (cases h; rfl)
      | cases h

theorem pop_scan_throw {comp : α → α → Option Bool} {m : Mem α} : ∀ (f : Nat) (top cur : Ptr)
    (e : Exc) (u : Unit), pop_scan comp m f top cur = .throw e u → e = .thrown_by_compare := by
  intro f
  induction f with
  | zero => intro ans cur e u h; simp [pop_scan] at h
  | succ f ih =>
    intro ans cur e u h
    rw [pop_scan] at h
    repeat' split at h
    all_goals first
      | exact ih _ _ _ _ h
      | (cases h; rfl)
      | cases h

theorem merge_loop_throw {comp : α → α → Option Bool} : ∀ (f : Nat) (m : Mem α)
    (Head pre cur nxt : Ptr) (e : Exc) (st : Mem α),
    merge_loop comp f m Head pre cur nxt = .throw e st → e = .thrown_by_compare := by
  intro f
  induction f with
  | zero => intro m Head pre cur nxt e st h; simp [merge_loop] at h
  | succ f ih =>
    intro m Head pre cur nxt e st h
    simp only [merge_loop] at h
    repeat' split at h
    all_goals first
      | exact ih _ _ _ _ _ _ _ h
      | (cases h; rfl)
      | cases h

theorem merge_throw {comp : α → α → Option Bool} {m : Mem α} {a b : priority_queue}
    {same : Bool} {e : Exc} {st : Mem α × priority_queue × priority_queue}
    (h : merge comp m a b same = .throw e st) : e = .thrown_by_compare := by
  simp only [merge] at h
  repeat' split at h
  all_goals first
    | (cases h; exact merge_loop_throw _ _ _ _ _ _ _ _ (by assumption))
    | cases h

theorem pop_throw {comp : α → α → Option Bool} {m : Mem α} {q : priority_queue}
    {e : Exc} {st : Mem α × priority_queue} (h : pop comp m q = .throw e st) :
    q.empty = true ∨ e = .thrown_by_compare := by
  simp only [pop] at h
  repeat' split at h
  all_goals first
    | (left; assumption)
    | (cases h; exact Or.inr (pop_scan_throw _ _ _ _ _ (by assumption)))
    | (cases h
       rename_i hm
       split at hm
       · exact Or.inr (merge_throw hm)
       · cases hm)
    | cases h

/-! ## One call of `push` or `pop`, and sequences of calls -/

theorem push_step (less : α → α → Bool) {m : Mem α} {q : priority_queue} {s : Shape α}
    (h : Holds m q s) (v : α) :
    ∃ m1 q1 s1, push (nothrow less) m q v = .ret (m1, q1) ∧ Holds m1 q1 s1 ∧
      s1.payloads = v ::ₘ s.payloads ∧
      q1.length = to_size_t (wrap_int (to_int q.length + 1)) := by
  obtain ⟨m1, hrun, hh, _⟩ := push_spec less h v
  refine ⟨m1, _, _, hrun, hh, ?_, rfl⟩
  rw [payloads_carry, payloads_mergeS]
  simp only [payloads, add_zero, ← Multiset.singleton_add]
  ac_rfl

theorem pop_step (less : α → α → Bool) {m : Mem α} {q : priority_queue} {s : Shape α}
    (h : Holds m q s) (hne : q.empty = false) :
    ∃ v m1 q1 s1, top (nothrow less) m q = .ret v ∧ pop (nothrow less) m q = .ret (m1, q1) ∧
      Holds m1 q1 s1 ∧ s.payloads = v ::ₘ s1.payloads ∧
      q1.length = to_size_t (wrap_int (to_int q.length - 1)) := by
  obtain ⟨a, d, o, c, r, rfl⟩ := h.shape_ne_nil hne
  obtain ⟨m1, hrun, hh, _⟩ := pop_spec less h
  have hp := payloads_popS less h.nodup
  exact ⟨_, m1, _, _, top_spec less h, hrun, hh, hp, rfl⟩

theorem Holds.empty_iff {m : Mem α} {q : priority_queue} {s : Shape α} (h : Holds m q s) :
    q.empty = true ↔ Multiset.card s.payloads = 0 := by
  cases s with
  | nil =>
    have : q.head = 0 := h.seg
    simp [priority_queue.empty, this, payloads]
  | node a d o c r =>
    have : q.head ≠ 0 := by rw [h.seg.1]; exact h.seg.2.1
    simp [priority_queue.empty, this, payloads]

theorem run_spec (less : α → α → Bool) : ∀ (ops : List (Op α)) (m : Mem α)
    (q : priority_queue) (s : Shape α) (out : List α), Holds m q s →
    (underflows (Multiset.card s.payloads) ops = true ∧
      ∃ st, run (nothrow less) ops m q out = .throw .container_is_empty st) ∨
    (underflows (Multiset.card s.payloads) ops = false ∧
      ∃ m1 q1 out1 s1, run (nothrow less) ops m q out = .ret (m1, q1, out1) ∧ Holds m1 q1 s1 ∧
        s1.payloads + (out1 : Multiset α) = s.payloads + (out : Multiset α) + pushed ops ∧
        (q.length = Multiset.card s.payloads → q.length + ops.length < 2 ^ 31 →
          q1.length = Multiset.card s1.payloads)) := by
  intro ops
  induction ops with
  | nil =>
    intro m q s out h
    exact Or.inr ⟨rfl, m, q, out, s, rfl, h, by simp [pushed], fun hlen _ => hlen⟩
  | cons op ops ih =>
    intro m q s out h
    cases op with
    | push v =>
      obtain ⟨m1, q1, s1, hrun, hh, hp, hl1⟩ := push_step less h v
      have hc1 : Multiset.card s1.payloads = Multiset.card s.payloads + 1 := by
        rw [hp]; simp
      have hu : underflows (Multiset.card s.payloads) (Op.push v :: ops) =
          underflows (Multiset.card s1.payloads) ops := by
        rw [hc1, underflows]
      rcases ih m1 q1 s1 out hh with
        ⟨hu1, st, hst⟩ | ⟨hu1, m2, q2, out2, s2, hr2, hh2, hp2, hl2⟩
      · exact Or.inl ⟨by rw [hu, hu1], st, by simp only [run, hrun, hst]⟩
      · refine Or.inr ⟨by rw [hu, hu1], m2, q2, out2, s2, by simp only [run, hrun, hr2], hh2,
          ?_, ?_⟩
        · rw [hp2, hp]
          simp only [pushed, ← Multiset.singleton_add]
          ac_rfl
        · intro hlen hb
          simp only [List.length_cons] at hb
          have e := length_succ q.length (by omega)
          exact hl2 (by rw [hl1, e, hc1, hlen]) (by rw [hl1, e]; omega)
    | pop =>
      cases hne : q.empty with
      | true =>
        have h0 : Multiset.card s.payloads = 0 := h.empty_iff.1 hne
        refine Or.inl ⟨by rw [h0, underflows]; rfl, (m, q, out), ?_⟩
        simp [run, top, hne]
      | false =>
        obtain ⟨v, m1, q1, s1, htop, hpop, hh, hp, hl1⟩ := pop_step less h hne
        have hc1 : Multiset.card s.payloads = Multiset.card s1.payloads + 1 := by
          rw [hp]; simp
        have hu : underflows (Multiset.card s.payloads) (Op.pop :: ops) =
            underflows (Multiset.card s1.payloads) ops := by
          rw [hc1, underflows]; simp
        rcases ih m1 q1 s1 (v :: out) hh with
          ⟨hu1, st, hst⟩ | ⟨hu1, m2, q2, out2, s2, hr2, hh2, hp2, hl2⟩
        · exact Or.inl ⟨by rw [hu, hu1], st, by simp only [run, htop, hpop, hst]⟩
        · refine Or.inr ⟨by rw [hu, hu1], m2, q2, out2, s2,
            by simp only [run, htop, hpop, hr2], hh2, ?_, ?_⟩
          · rw [hp2, hp]
            simp only [pushed, ← Multiset.cons_coe, ← Multiset.singleton_add]
            ac_rfl
          · intro hlen hb
            simp only [List.length_cons] at hb
            have e := length_pred q.length (by omega)
            rw [if_neg (by omega)] at e
            exact hl2 (by rw [hl1]; omega) (by rw [hl1]; omega)

theorem push_all_append (comp : α → α → Option Bool) : ∀ (xs ys : List α) (m : Mem α)
    (q : priority_queue) (m1 : Mem α) (q1 : priority_queue),
    push_all comp xs m q = .ret (m1, q1) →
    push_all comp (xs ++ ys) m q = push_all comp ys m1 q1 := by
  intro xs
  induction xs with
  | nil =>
    intro ys m q m1 q1 h
    simp only [push_all, Res.ret.injEq, Prod.mk.injEq] at h
    obtain ⟨rfl, rfl⟩ := h
    rfl
  | cons x xs ih =>
    intro ys m q m1 q1 h
    simp only [List.cons_append, push_all] at h ⊢
    cases hp : push comp m q x with
    | ret v =>
      obtain ⟨m2, q2⟩ := v
      rw [hp] at h
      simp only at h ⊢
      exact ih ys m2 q2 m1 q1 h
    | throw e st => rw [hp] at h; cases h
    | fault e => rw [hp] at h; cases h

end

section
variable {α : Type}
open Shape priority_queue

/-! ## The scan keeps the earliest maximal root -/

theorem Shape.scanS_self (less : α → α → Bool) (a : Ptr) (d : α) (o : Int) (c r : Shape α) :
    scanS less a d (.node a d o c r) = scanS less a d r := by
  rw [scanS]; split_ifs <;> rfl

theorem Shape.scanS_earliest {less : α → α → Bool} (hl : StrictWeakOrder less) :
    ∀ (r : Shape α) (a : Ptr) (d : α), ∃ pre post,
      d :: r.rootData = pre ++ (scanS less a d r).2 :: post ∧
      ∀ y ∈ pre, less y (scanS less a d r).2 = true := by
  intro r
  induction r with
  | nil => intro a d; exact ⟨[], [], rfl, fun y hy => by simp at hy⟩
  | node a2 d2 o2 c2 r _ ih =>
    intro a d
    rw [scanS]
    split_ifs with hlt
    · obtain ⟨pre, post, he, hpre⟩ := ih a2 d2
      refine ⟨d :: pre, post, by simp only [rootData, he, List.cons_append], ?_⟩
      intro y hy
      rcases List.mem_cons.1 hy with rfl | hy
      · cases pre with
        | nil =>
          simp only [List.nil_append, List.cons.injEq] at he
          rw [← he.1]; exact hlt
        | cons p pre' =>
          simp only [List.cons_append, List.cons.injEq] at he
          have := hpre p (by simp)
          rw [← he.1] at this
          exact hl.trans _ _ _ hlt this
      · exact hpre y hy
    · obtain ⟨pre, post, he, hpre⟩ := ih a d
      cases pre with
      | nil =>
        simp only [List.nil_append, List.cons.injEq] at he
        refine ⟨[], d2 :: r.rootData, ?_, fun y hy => by simp at hy⟩
        simp only [rootData, List.nil_append, List.cons.injEq, and_true]
        exact he.1
      | cons p pre' =>
        simp only [List.cons_append, List.cons.injEq] at he
        obtain ⟨rfl, he2⟩ := he
        refine ⟨d :: d2 :: pre', post, by simp only [rootData, he2, List.cons_append], ?_⟩
        intro y hy
        have hd := hpre d (by simp)
        rcases List.mem_cons.1 hy with rfl | hy
        · exact hd
        · rcases List.mem_cons.1 hy with rfl | hy
          · cases hc : less y (scanS less a d r).2 with
            | true => rfl
            | false =>
              have := hl.incomp_trans _ _ _ (by simpa using hlt) hc
              rw [hd] at this; cases this
          · exact hpre y (by simp [hy])
/-! ## Ranks and tree shapes under `Merge`, the carry pass and `pop()` -/

theorem Shape.ranks_append (s t : Shape α) : (s.append t).ranks = s.ranks ++ t.ranks := by
  induction s with
  | nil => rfl
  | node a d o c s _ ih => simp only [Shape.append, ranks, ih, List.cons_append]

theorem Shape.trees_append (s t : Shape α) : (s.append t).Trees ↔ s.Trees ∧ t.Trees := by
  induction s with
  | nil => simp [Shape.append, Trees]
  | node a d o c s _ ih => simp only [Shape.append, Trees, ih, and_assoc]

theorem Shape.ranks_length (s : Shape α) : s.ranks.length = s.len := by
  induction s with
  | nil => rfl
  | node a d o c s _ ih => simp only [ranks, len, List.length_cons, ih]

theorem Shape.ranks_mergeS : ∀ (n : Nat) (s1 s2 : Shape α), s1.len + s2.len ≤ n →
    ((mergeS s1 s2).ranks.Perm (s1.ranks ++ s2.ranks)) ∧
    ((mergeS s1 s2).rootAddrs.Perm (s1.rootAddrs ++ s2.rootAddrs)) ∧
    ((mergeS s1 s2).Trees ↔ s1.Trees ∧ s2.Trees) ∧
    (s1.ranks.Sorted (· ≤ ·) → s2.ranks.Sorted (· ≤ ·) → (mergeS s1 s2).ranks.Sorted (· ≤ ·)) := by
  intro n
  induction n with
  | zero =>
    intro s1 s2 h
    cases s1 with
    | nil => simp [mergeS, ranks, rootAddrs, Trees]
    | node a d o c r => simp [len] at h
  | succ n ih =>
    intro s1 s2 h
    cases s1 with
    | nil => simp [mergeS, ranks, rootAddrs, Trees]
    | node a1 d1 o1 c1 r1 =>
      cases s2 with
      | nil => simp [mergeS, ranks, rootAddrs, Trees]
      | node a2 d2 o2 c2 r2 =>
        rw [mergeS]
        split_ifs with ho
        · obtain ⟨i1, i2, i3, i4⟩ := ih r1 (.node a2 d2 o2 c2 r2) (by simp [len] at h ⊢; omega)
          refine ⟨?_, ?_, ?_, ?_⟩
          · simp only [ranks, List.cons_append] at i1 ⊢
            exact List.Perm.cons _ i1
          · simp only [rootAddrs, List.cons_append] at i2 ⊢
            exact List.Perm.cons _ i2
          · simp only [Trees, i3, and_assoc]
          · intro h1 h2
            simp only [ranks, List.sorted_cons] at h1 h2 ⊢
            refine ⟨?_, i4 h1.2 (by simp only [ranks, List.sorted_cons]; exact h2)⟩
            intro v hv
            have := i1.subset hv
            simp only [ranks, List.mem_append, List.mem_cons] at this
            rcases this with hv | rfl | hv
            · exact h1.1 v hv
            · omega
            · have := h2.1 v hv; omega
        · obtain ⟨i1, i2, i3, i4⟩ := ih r2 (.node a1 d1 o1 c1 r1) (by simp [len] at h ⊢; omega)
          refine ⟨?_, ?_, ?_, ?_⟩
          · simp only [ranks] at i1 ⊢
            refine (List.Perm.cons _ i1).trans ?_
            rw [← List.cons_append]
            exact List.perm_append_comm
          · simp only [rootAddrs] at i2 ⊢
            refine (List.Perm.cons _ i2).trans ?_
            rw [← List.cons_append]
            exact List.perm_append_comm
          · simp only [Trees, i3]; tauto
          · intro h1 h2
            simp only [ranks, List.sorted_cons] at h1 h2 ⊢
            refine ⟨?_, i4 h2.2 (by simp only [ranks, List.sorted_cons]; exact h1)⟩
            intro v hv
            have := i1.subset hv
            simp only [ranks, List.mem_append, List.mem_cons] at this
            rcases this with hv | rfl | hv
            · exact h2.1 v hv
            · omega
            · have := h1.1 v hv; omega

theorem Shape.binomChildren_lt : ∀ (c : Shape α) (k : Int), BinomChildren k c →
    0 ≤ k ∧ (∀ v ∈ c.ranks, v < k) ∧ c.ranks.Sorted (· > ·) ∧ c.Trees ∧
      Multiset.card c.payloads + 1 = 2 ^ k.toNat := by
  intro c
  induction c with
  | nil =>
    intro k h
    simp only [BinomChildren] at h
    subst h
    simp [ranks, Trees, payloads]
  | node a d o c s ihc ihs =>
    intro k h
    obtain ⟨ho, hc, hs⟩ := h
    obtain ⟨c1, _, _, _, c5⟩ := ihc o hc
    obtain ⟨s1, s2, s3, s4, s5⟩ := ihs o hs
    refine ⟨by omega, ?_, ?_, ⟨hc, s4⟩, ?_⟩
    · intro v hv
      simp only [ranks, List.mem_cons] at hv
      rcases hv with rfl | hv
      · omega
      · have := s2 v hv; omega
    · simp only [ranks, List.sorted_cons]
      exact ⟨fun v hv => s2 v hv, s3⟩
    · have hk : k.toNat = o.toNat + 1 := by omega
      simp only [payloads, Multiset.card_add, Multiset.card_singleton, hk, pow_succ]
      omega

theorem Shape.startsWith_iff (o : Int) (r : Shape α) :
    startsWith o r = true ↔ ∃ t, r.ranks = o :: t := by
  cases r with
  | nil => simp [startsWith, ranks]
  | node a d o2 c s => simp [startsWith, ranks, eq_comm]

theorem Shape.carryS_sorted (less : α → α → Bool) : ∀ (r : Shape α) (a : Ptr) (d : α) (o : Int)
    (c : Shape α), r.ranks.Sorted (· ≤ ·) → (∀ v, r.ranks.count v ≤ 2) → (∀ v ∈ r.ranks, o ≤ v) →
    (carryS less a d o c r).ranks.Sorted (· < ·) ∧
    (∀ v ∈ (carryS less a d o c r).ranks, o ≤ v) ∧
    (∀ t, r.ranks = o :: t → (∀ v ∈ t, o < v) → ∀ v ∈ (carryS less a d o c r).ranks, o < v) := by
  intro r
  induction r with
  | nil =>
    intro a d o c _ _ _
    refine ⟨by simp [carryS, ranks], by simp [carryS, ranks], ?_⟩
    intro t ht; simp [ranks] at ht
  | node a2 d2 o2 c2 r _ ih =>
    intro a d o c hs hc hlb
    simp only [ranks, List.sorted_cons] at hs
    have hlo : o ≤ o2 := hlb o2 (by simp [ranks])
    have hc' : ∀ v, r.ranks.count v ≤ 2 := by
      intro v
      have := hc v
      simp only [ranks, List.count_cons] at this
      omega
    -- the carry continues with rank `o + 1` when the two roots are linked
    have hlink : o = o2 → startsWith o2 r = false →
        ∀ (x : Ptr) (y : α) (z : Shape α),
          (carryS less x y (o + 1) z r).ranks.Sorted (· < ·) ∧
          ∀ v ∈ (carryS less x y (o + 1) z r).ranks, o + 1 ≤ v := by
      intro ho hst x y z
      have hgt : ∀ v ∈ r.ranks, o + 1 ≤ v := by
        intro v hv
        have h1 := hs.1 v hv
        cases hr : r with
        | nil => rw [hr] at hv; simp [ranks] at hv
        | node a3 d3 o3 c3 r3 =>
          rw [hr] at hst hs
          simp only [startsWith, decide_eq_false_iff_not] at hst
          simp only [ranks, List.sorted_cons] at hs
          have h3 : o2 ≤ o3 := hs.1 o3 (by simp)
          rw [hr] at hv
          simp only [ranks, List.mem_cons] at hv
          rcases hv with rfl | hv
          · omega
          · have := hs.2.1 v hv; omega
      obtain ⟨i1, i2, _⟩ := ih x y (o + 1) z hs.2 hc' hgt
      exact ⟨i1, i2⟩
    rw [carryS]
    split_ifs with hadv hlt
    · -- the root stays
      obtain ⟨i1, i2, i3⟩ := ih a2 d2 o2 c2 hs.2 hc' hs.1
      have hbig : ∀ v ∈ (carryS less a2 d2 o2 c2 r).ranks, o < v := by
        rcases hadv with hne | hst
        · intro v hv; have := i2 v hv; omega
        · obtain ⟨t, ht⟩ := (startsWith_iff o2 r).1 hst
          have hto : ∀ v ∈ t, o2 < v := by
            intro v hv
            have hv' : v ∈ r.ranks := by rw [ht]; simp [hv]
            have h1 : o2 ≤ v := hs.1 v hv'
            rcases lt_or_eq_of_le h1 with h | h
            · exact h
            · exfalso
              have := hc o2
              subst h
              rw [ranks, ht] at this
              have h2 : 0 < List.count o2 t := List.count_pos_iff.2 hv
              simp only [List.count_cons_self] at this
              omega
          intro v hv
          have := i3 t ht hto v hv
          omega
      refine ⟨?_, ?_, ?_⟩
      · simp only [ranks, List.sorted_cons]; exact ⟨hbig, i1⟩
      · intro v hv
        simp only [ranks, List.mem_cons] at hv
        rcases hv with rfl | hv
        · exact le_refl _
        · exact le_of_lt (hbig v hv)
      · intro t ht hto v hv
        simp only [ranks, List.cons.injEq] at ht
        exfalso
        rcases hadv with hne | hst
        · exact hne ht.1.symm
        · obtain ⟨t', ht'⟩ := (startsWith_iff o2 r).1 hst
          have := hto o2 (by rw [← ht.2, ht']; simp)
          omega
    · have ho : o = o2 := by
        by_contra hne; exact hadv (Or.inl hne)
      have hst : startsWith o2 r = false := by
        cases h : startsWith o2 r with
        | false => rfl
        | true => exact absurd (Or.inr h) hadv
      obtain ⟨i1, i2⟩ := hlink ho hst a d (.node a2 d2 o2 c2 c)
      exact ⟨i1, fun v hv => by have := i2 v hv; omega,
        fun _ _ _ v hv => by have := i2 v hv; omega⟩
    · have ho : o = o2 := by
        by_contra hne; exact hadv (Or.inl hne)
      have hst : startsWith o2 r = false := by
        cases h : startsWith o2 r with
        | false => rfl
        | true => exact absurd (Or.inr h) hadv
      obtain ⟨i1, i2⟩ := hlink ho hst a2 d2 (.node a d o c c2)
      rw [← ho]
      exact ⟨i1, fun v hv => by have := i2 v hv; omega,
        fun _ _ _ v hv => by have := i2 v hv; omega⟩

theorem Shape.carryS_trees (less : α → α → Bool) : ∀ (r : Shape α) (a : Ptr) (d : α) (o : Int)
    (c : Shape α), BinomChildren o c → r.Trees → (carryS less a d o c r).Trees := by
  intro r
  induction r with
  | nil => intro a d o c h _; exact ⟨h, trivial⟩
  | node a2 d2 o2 c2 r _ ih =>
    intro a d o c h ht
    obtain ⟨h2, hr⟩ := ht
    rw [carryS]
    split_ifs with hadv hlt
    · exact ⟨h, ih a2 d2 o2 c2 h2 hr⟩
    · have ho : o = o2 := by
        by_contra hne; exact hadv (Or.inl hne)
      subst ho
      exact ih a d (o + 1) _ ⟨by omega, h2, h⟩ hr
    · have ho : o = o2 := by
        by_contra hne; exact hadv (Or.inl hne)
      subst ho
      exact ih a2 d2 (o + 1) _ ⟨by omega, h, h2⟩ hr

theorem Shape.sorted_lt_count {l : List Int} (h : l.Sorted (· < ·)) (v : Int) : l.count v ≤ 1 :=
  List.nodup_iff_count_le_one.1 (h.nodup) v

theorem Shape.binomial_carry_mergeS (less : α → α → Bool) {sa sb : Shape α}
    (ha : sa.Binomial) (hb : sb.Binomial) : (carry less (mergeS sa sb)).Binomial := by
  obtain ⟨p1, _, p3, p4⟩ := ranks_mergeS _ sa sb le_rfl
  have hsorted := p4 (ha.1.imp (fun h => le_of_lt h)) (hb.1.imp (fun h => le_of_lt h))
  have hcount : ∀ v, (mergeS sa sb).ranks.count v ≤ 2 := by
    intro v
    rw [p1.count_eq, List.count_append]
    have := sorted_lt_count ha.1 v
    have := sorted_lt_count hb.1 v
    omega
  have htrees : (mergeS sa sb).Trees := p3.2 ⟨ha.2, hb.2⟩
  cases hm : mergeS sa sb with
  | nil => exact ⟨by simp [carry, ranks], trivial⟩
  | node a d o c r =>
    rw [hm] at hsorted hcount htrees
    simp only [ranks, List.sorted_cons] at hsorted
    have hc' : ∀ v, r.ranks.count v ≤ 2 := by
      intro v
      have := hcount v
      simp only [ranks, List.count_cons] at this
      omega
    exact ⟨(carryS_sorted less r a d o c hsorted.2 hc' hsorted.1).1,
      carryS_trees less r a d o c htrees.1 htrees.2⟩

theorem Shape.binomial_mergeQ (less : α → α → Bool) {sa sb : Shape α}
    (ha : sa.Binomial) (hb : sb.Binomial) : (mergeQ less sa sb).Binomial := by
  cases sb with
  | nil => exact ha
  | node a d o c r => exact binomial_carry_mergeS less ha hb

theorem Shape.binomial_single (p : Ptr) (e : α) : (Shape.node p e 0 .nil .nil).Binomial :=
  ⟨by simp [ranks], ⟨rfl, trivial⟩⟩

theorem Shape.ranks_revOnto : ∀ (s acc : Shape α),
    (revOnto s acc).ranks = s.ranks.reverse ++ acc.ranks ∧
    ((revOnto s acc).Trees ↔ s.Trees ∧ acc.Trees) := by
  intro s
  induction s with
  | nil => intro acc; simp [revOnto, ranks, Trees]
  | node a d o c s _ ih =>
    intro acc
    rw [revOnto, (ih _).1, (ih _).2]
    simp only [ranks, Trees, List.reverse_cons, List.append_assoc, List.singleton_append]
    exact ⟨trivial, by tauto⟩

theorem Shape.binomial_popS (less : α → α → Bool) {a : Ptr} {d : α} {o : Int} {c r : Shape α}
    (hnd : (Shape.node a d o c r).addrs.Nodup) (h : (Shape.node a d o c r).Binomial) :
    (popS less (.node a d o c r)).Binomial := by
  obtain ⟨pfx, ot, ct, sfx, hs, hp⟩ := popS_eq less hnd
  rw [hp]
  obtain ⟨h1, h2⟩ := h
  rw [hs] at h1 h2
  rw [ranks_append] at h1
  rw [trees_append] at h2
  simp only [ranks, Trees] at h1 h2
  refine binomial_mergeQ less ⟨?_, ?_⟩ ⟨?_, ?_⟩
  · rw [ranks_append]
    refine h1.sublist ?_
    exact List.Sublist.append (List.Sublist.refl _) (List.sublist_cons_self _ _)
  · rw [trees_append]; exact ⟨h2.1, h2.2.2⟩
  · rw [(ranks_revOnto ct .nil).1]
    simp only [ranks, List.append_nil]
    have := (binomChildren_lt ct ot h2.2.1).2.2.1
    exact List.pairwise_reverse.2 this
  · rw [(ranks_revOnto ct .nil).2]
    exact ⟨(binomChildren_lt ct ot h2.2.1).2.2.2.1, trivial⟩

theorem Shape.trees_card : ∀ (s : Shape α), s.Trees →
    (∀ v ∈ s.ranks, 0 ≤ v) ∧
    ((s.ranks.map Int.toNat).map (fun i => 2 ^ i)).sum = Multiset.card s.payloads := by
  intro s
  induction s with
  | nil => intro _; simp [ranks, payloads]
  | node a d o c s _ ih =>
    intro h
    obtain ⟨h1, h2⟩ := h
    obtain ⟨i1, i2⟩ := ih h2
    obtain ⟨c1, _, _, _, c5⟩ := binomChildren_lt c o h1
    refine ⟨?_, ?_⟩
    · intro v hv
      simp only [ranks, List.mem_cons] at hv
      rcases hv with rfl | hv
      · exact c1
      · exact i1 v hv
    · simp only [ranks, List.map_cons, List.sum_cons, i2, payloads, Multiset.card_add,
        Multiset.card_singleton]
      omega

theorem Shape.binomial_bits {s : Shape α} (h : s.Binomial) :
    s.ranks.map Int.toNat = Nat.bitIndices (Multiset.card s.payloads) := by
  obtain ⟨i1, i2⟩ := trees_card s h.2
  rw [← i2]
  refine (Nat.bitIndices_twoPowsum ?_).symm
  rw [List.Sorted, List.pairwise_map]
  refine List.Pairwise.imp_of_mem ?_ h.1
  intro x y hx hy hxy
  have := i1 x hx
  have := i1 y hy
  omega

/-! ## `Merge` on its own: what it writes and in which order it takes the nodes -/

theorem two_holds_a : Holds two_mem ⟨1, 1⟩ (.node 1 1 0 .nil .nil) :=
  ⟨⟨rfl, by decide, 0, 0, 0, rfl, rfl, rfl⟩, by decide, by decide⟩

theorem two_holds_b : Holds two_mem ⟨2, 1⟩ (.node 2 2 0 .nil .nil) :=
  ⟨⟨rfl, by decide, 0, 0, 0, rfl, rfl, rfl⟩, by decide, by decide⟩

theorem two_disjoint : ((Shape.node 1 1 0 .nil .nil : Shape Nat).addrs +
    (Shape.node 2 2 0 .nil .nil : Shape Nat).addrs).Nodup := by decide

theorem Merge_unlinked : ∀ (f : Nat) (m : Mem α) (p1 p2 : Ptr) (m1 : Mem α) (r : Ptr),
    Merge f m p1 p2 = .ok (m1, r) →
    m1.last = m.last ∧ ∀ x, (m1.cell x).map node.unlinked = (m.cell x).map node.unlinked := by
  intro f
  induction f with
  | zero => intro m p1 p2 m1 r h; simp [Merge] at h
  | succ f ih =>
    intro m p1 p2 m1 r h
    rw [Merge] at h
    split_ifs at h with h1 h2
    · cases h; exact ⟨rfl, fun _ => rfl⟩
    · cases h; exact ⟨rfl, fun _ => rfl⟩
    · split at h
      · rename_i n1 n2 hd1 hd2
        split_ifs at h with ho
        · split at h
          · cases h
          · rename_i m2 r2 hm
            obtain ⟨il, ic⟩ := ih _ _ _ _ _ hm
            split at h
            · cases h
            · rename_i n1' hd1'
              cases h
              refine ⟨il, fun x => ?_⟩
              rw [← ic x]
              by_cases hx : x = p1
              · subst hx
                rw [Mem.deref_of_ne h1] at hd1'
                simp [hd1', node.unlinked]
              · simp [hx]
        · split at h
          · cases h
          · rename_i m2 r2 hm
            obtain ⟨il, ic⟩ := ih _ _ _ _ _ hm
            split at h
            · cases h
            · rename_i n2' hd2'
              cases h
              refine ⟨il, fun x => ?_⟩
              rw [← ic x]
              by_cases hx : x = p2
              · subst hx
                rw [Mem.deref_of_ne h2] at hd2'
                simp [hd2', node.unlinked]
              · simp [hx]
      · cases h

theorem Shape.sublist_mergeS : ∀ (n : Nat) (s1 s2 : Shape α), s1.len + s2.len ≤ n →
    s1.rootAddrs.Sublist (mergeS s1 s2).rootAddrs ∧
    s2.rootAddrs.Sublist (mergeS s1 s2).rootAddrs := by
  intro n
  induction n with
  | zero =>
    intro s1 s2 h
    cases s1 with
    | nil => simp [mergeS, rootAddrs]
    | node a d o c r => simp [len] at h
  | succ n ih =>
    intro s1 s2 h
    cases s1 with
    | nil => simp [mergeS, rootAddrs]
    | node a1 d1 o1 c1 r1 =>
      cases s2 with
      | nil => simp [mergeS, rootAddrs]
      | node a2 d2 o2 c2 r2 =>
        rw [mergeS]
        split_ifs with ho
        · obtain ⟨i1, i2⟩ := ih r1 (.node a2 d2 o2 c2 r2) (by simp [len] at h ⊢; omega)
          simp only [rootAddrs] at i2 ⊢
          exact ⟨i1.cons₂ _, i2.cons _⟩
        · obtain ⟨i1, i2⟩ := ih r2 (.node a1 d1 o1 c1 r1) (by simp [len] at h ⊢; omega)
          simp only [rootAddrs] at i2 ⊢
          exact ⟨i2.cons _, i1.cons₂ _⟩

theorem Shape.mergeS_ptr (a1 : Ptr) (d1 : α) (o1 : Int) (c1 r1 : Shape α) (a2 : Ptr) (d2 : α)
    (o2 : Int) (c2 r2 : Shape α) :
    (mergeS (.node a1 d1 o1 c1 r1) (.node a2 d2 o2 c2 r2)).ptr = if o1 < o2 then a1 else a2 := by
  rw [mergeS]; split_ifs <;> rfl

theorem Shape.binomChildren_ranks : ∀ (c : Shape α) (k : Int), BinomChildren k c →
    c.ranks = (List.range k.toNat).reverse.map Int.ofNat := by
  intro c
  induction c with
  | nil =>
    intro k h
    simp only [BinomChildren] at h
    subst h
    simp [ranks]
  | node a d o c s ihc ihs =>
    intro k h
    simp only [BinomChildren] at h
    obtain ⟨ho, hc, hs⟩ := h
    have h0 := (binomChildren_lt s o hs).1
    have hk : k.toNat = o.toNat + 1 := by omega
    rw [ranks, ihs o hs, hk, List.range_succ]
    simp only [List.reverse_append, List.reverse_cons, List.reverse_nil, List.nil_append,
      List.singleton_append, List.map_cons, List.cons.injEq, and_true]
    simp [Int.toNat_of_nonneg h0]

/-! ## Draining a queue -/

theorem drain_spec {less : α → α → Bool} (hl : StrictWeakOrder less) : ∀ (n : Nat) (m : Mem α)
    (q : priority_queue) (s : Shape α) (out : List α) (f : Nat), Holds m q s →
    HeapOrdered less s → Multiset.card s.payloads = n → n < f →
    ∃ m1 q1 l, drain (nothrow less) f m q out = .ret (m1, q1, out ++ l) ∧ q1.empty = true ∧
      (l : Multiset α) = s.payloads ∧ l.Pairwise (fun a b => less a b = false) := by
  intro n
  induction n with
  | zero =>
    intro m q s out f h _ hc hf
    obtain ⟨f, rfl⟩ : ∃ f', f = f' + 1 := ⟨f - 1, by omega⟩
    have he := h.empty_iff.2 hc
    refine ⟨m, q, [], by simp [drain, he], he, ?_, List.Pairwise.nil⟩
    rw [Multiset.card_eq_zero.1 hc]; rfl
  | succ n ih =>
    intro m q s out f h ho hc hf
    obtain ⟨f, rfl⟩ : ∃ f', f = f' + 1 := ⟨f - 1, by omega⟩
    have he : q.empty = false := by
      cases hq : q.empty with
      | false => rfl
      | true => have := h.empty_iff.1 hq; omega
    obtain ⟨a, d, o, c, r, rfl⟩ := h.shape_ne_nil he
    obtain ⟨m1, hrun, hh, _⟩ := pop_spec less h
    have hp := payloads_popS less h.nodup
    have hc1 : Multiset.card (popS less (.node a d o c r)).payloads = n := by
      rw [hp, Multiset.card_cons] at hc; omega
    obtain ⟨m2, q2, l, hd, he2, hl2, hpw⟩ := ih m1 _ _ (out ++ [(scanS less a d (.node a d o c r)).2])
      f hh (heapOrdered_popS hl h.nodup ho) hc1 (by omega)
    refine ⟨m2, q2, (scanS less a d (.node a d o c r)).2 :: l, ?_, he2, ?_, ?_⟩
    · rw [drain]
      simp only [he, Bool.false_eq_true, if_false, top_spec less h, hrun, hd]
      simp
    · rw [hp, ← hl2]; rfl
    · refine List.Pairwise.cons ?_ hpw
      intro y hy
      refine (best_max hl ho).2 y ?_
      rw [hp, Multiset.mem_cons]
      right
      rw [← hl2]
      exact hy

/-! ## Counting the calls of `Link` -/

theorem merge_loop_counting_fst (comp : α → α → Option Bool) : ∀ (f : Nat) (m : Mem α)
    (Head pre cur nxt : Ptr) (k : Nat),
    (merge_loop_counting comp f m Head pre cur nxt k).1 = merge_loop comp f m Head pre cur nxt := by
  intro f
  induction f with
  | zero => intros; rfl
  | succ f ih =>
    intro m Head pre cur nxt k
    rw [merge_loop_counting, merge_loop]
    by_cases h0 : nxt = 0
    · simp only [h0, if_true]
    · simp only [h0, if_false]
      cases hc : m.deref cur with
      | none => rfl
      | some c =>
        cases hn : m.deref nxt with
        | none => rfl
        | some n =>
          simp only []
          cases hcond : (if c.order ≠ n.order then some true
               else if n.sibling ≠ 0 then
                 (m.deref n.sibling).map (fun s => decide (n.order = s.order))
               else some false) with
          | none => rfl
          | some b =>
            cases b with
            | true => exact ih _ _ _ _ _ _
            | false =>
              simp only []
              cases hcmp : comp n.data c.data with
              | none => rfl
              | some b2 =>
                cases b2 with
                | true =>
                  simp only []
                  cases h1 : (m.write cur { c with sibling := n.sibling }).deref nxt with
                  | none => rfl
                  | some n1 =>
                    simp only []
                    cases hL : Link ((m.write cur { c with sibling := n.sibling }).write nxt
                        { n1 with parent := cur }) nxt cur with
                    | error e => rfl
                    | ok m3 =>
                      simp only []
                      cases h3 : m3.deref cur with
                      | none => rfl
                      | some c3 => exact ih _ _ _ _ _ _
                | false =>
                  simp only []
                  cases hp : (if pre = 0 then some (m, nxt)
                       else (m.deref pre).map
                         (fun p => (m.write pre { p with sibling := nxt }, Head))) with
                  | none => rfl
                  | some mh =>
                    obtain ⟨m1, Head1⟩ := mh
                    simp only []
                    cases hL : Link m1 cur nxt with
                    | error e => rfl
                    | ok m2 =>
                      simp only []
                      cases h3 : m2.deref nxt with
                      | none => rfl
                      | some n2 => exact ih _ _ _ _ _ _

theorem merge_counting_fst (comp : α → α → Option Bool) (m : Mem α)
    (this other : priority_queue) (same_object : Bool) (k : Nat) :
    (merge_counting comp m this other same_object k).1 = merge comp m this other same_object := by
  rw [merge_counting, merge]
  by_cases h0 : other.empty ∨ same_object = true
  · simp only [h0, if_true]
  · simp only [h0, if_false]
    cases hM : Merge m.steps m this.head other.head with
    | error e => rfl
    | ok r =>
      obtain ⟨m1, Head⟩ := r
      simp only []
      by_cases hH : Head = 0
      · simp only [hH, if_true]
      · simp only [hH, if_false]
        cases hd : m1.deref Head with
        | none => rfl
        | some h =>
          simp only []
          have e := merge_loop_counting_fst comp m1.steps m1 Head 0 Head h.sibling k
          cases hr : merge_loop_counting comp m1.steps m1 Head 0 Head h.sibling k with
          | mk r1 k1 =>
            rw [hr] at e
            simp only at e
            rw [← e]
            cases r1 with
            | ret v => rfl
            | fault e1 => rfl
            | throw ex m2 =>
              simp only []
              cases hc : clear m2.steps m2 Head with
              | error e1 => rfl
              | ok m3 => rfl

theorem push_counting_fst (comp : α → α → Option Bool) (m : Mem α) (this : priority_queue)
    (e : α) (k : Nat) : (push_counting comp m this e k).1 = push comp m this e := by
  rw [push_counting, push]
  simp only []
  by_cases h0 : this.head = 0
  · simp only [h0, if_true]
  · simp only [h0, if_false]
    cases hd : (make_node m e).2.deref this.head with
    | none => rfl
    | some h =>
      simp only []
      cases hc : comp h.data e with
      | none =>
        simp only []
        cases hcl : clear (make_node m e).2.steps (make_node m e).2 (make_node m e).1 with
        | error e1 => rfl
        | ok m1 => rfl
      | some b =>
        simp only []
        have e0 := merge_counting_fst comp (make_node m e).2 this ⟨(make_node m e).1, 1⟩ false k
        cases hr : merge_counting comp (make_node m e).2 this ⟨(make_node m e).1, 1⟩ false k with
        | mk r1 k1 =>
          rw [hr] at e0
          simp only at e0
          rw [← e0]
          cases r1 with
          | ret v => rfl
          | fault e1 => rfl
          | throw ex st =>
            obtain ⟨m1, this1, tq1⟩ := st
            simp only []
            cases hf : free m1 (make_node m e).1 with
            | error e1 => rfl
            | ok m2 =>
              simp only []
              cases hc2 : clear m2.steps m2 tq1.head with
              | error e1 => rfl
              | ok m3 => rfl

theorem push_all_counting_fst (comp : α → α → Option Bool) : ∀ (xs : List α) (m : Mem α)
    (q : priority_queue) (k : Nat),
    (push_all_counting comp xs m q k).1 = push_all comp xs m q := by
  intro xs
  induction xs with
  | nil => intros; rfl
  | cons x xs ih =>
    intro m q k
    rw [push_all_counting, push_all]
    have e := push_counting_fst comp m q x k
    cases hr : push_counting comp m q x k with
    | mk r1 k1 =>
      rw [hr] at e
      simp only at e
      rw [← e]
      cases r1 with
      | ret v => obtain ⟨m1, q1⟩ := v; exact ih _ _ _
      | fault e1 => rfl
      | throw ex st => rfl

theorem merge_loop_counting_spec (less : α → α → Bool) : ∀ (rest : Shape α) (f : Nat)
    (m : Mem α) (Head pre cur : Ptr) (pfx : Shape α) (d : α) (o : Int) (c : Shape α)
    (pc pp nxt : Ptr) (k : Nat),
    Pre m pfx Head pre cur → cur ≠ 0 → m.cell cur = some ⟨d, o, pc, pp, nxt⟩ →
    Seg m c pc 0 → Seg m rest nxt 0 →
    (pfx.addrs + ({cur} + (c.addrs + rest.addrs))).Nodup → rest.len < f →
    (merge_loop_counting (nothrow less) f m Head pre cur nxt k).2 +
      (carryS less cur d o c rest).len = k + rest.len + 1 := by
  intro rest
  induction rest with
  | nil =>
    intro f m Head pre cur pfx d o c pc pp nxt k hpre hcur hcell hc hrest _ hlen
    cases hrest
    obtain ⟨f, rfl⟩ : ∃ f', f = f' + 1 := ⟨f - 1, by omega⟩
    simp [merge_loop_counting, carryS, len]
  | node a2 d2 o2 c2 r _ ih =>
    intro f m Head pre cur pfx d o c pc pp nxt k hpre hcur hcell hc hrest hnd hlen
    obtain ⟨rfl, ha2, pc2, pp2, ps2, hcell2, hc2, hr2⟩ := hrest
    obtain ⟨f, rfl⟩ : ∃ f', f = f' + 1 := ⟨f - 1, by omega⟩
    have hlen' : r.len < f := by simp [len] at hlen; omega
    simp only [addrs] at hnd
    obtain ⟨hne, ⟨x1, x2, x3, x4⟩, ⟨y1, y2, y3, y4⟩⟩ := six hnd
    have hthird := third_eq (m := m) o2 hr2
    have hcond : (if o ≠ o2 then some true
        else if ps2 ≠ 0 then (m.deref ps2).map (fun s => decide (o2 = s.order))
        else some false) = some (decide (o ≠ o2 ∨ startsWith o2 r = true)) := by
      by_cases ho : o = o2
      · simp only [ho, ne_eq, not_true_eq_false, if_false, false_or]
        rw [hthird]; simp
      · simp [ho]
    rw [merge_loop_counting]
    simp only [ha2, if_false, Mem.deref_of_ne hcur, Mem.deref_of_ne ha2, hcell, hcell2]
    rw [hcond]
    by_cases hadv : o ≠ o2 ∨ startsWith o2 r = true
    · -- the roots stay apart
      simp only [hadv, decide_True]
      have hcount := ih f m Head cur nxt
        (pfx.append (.node cur d o c .nil)) d2 o2 c2 pc2 pp2 ps2 k
        (hpre.snoc pc pp nxt hcur hcell hc) ha2 hcell2 hc2 hr2
        (by
          have e : (pfx.append (.node cur d o c .nil)).addrs + ({nxt} + (c2.addrs + r.addrs)) =
              pfx.addrs + ({cur} + (c.addrs + ({nxt} + (c2.addrs + r.addrs)))) := by
            simp only [addrs_append, addrs]; ac_rfl
          rw [e]; exact hnd) hlen'
      rw [carryS, if_pos hadv]
      simp only [len]
      omega
    · simp only [hadv, decide_False, nothrow]
      have hregion : ∀ x, (x ∈ pfx.addrs ∨ x ∈ c.addrs ∨ x ∈ c2.addrs ∨ x ∈ r.addrs) →
          x ≠ cur ∧ x ≠ nxt := by
        intro x hx
        constructor
        · rintro rfl; rcases hx with h | h | h | h
          · exact x1 h
          · exact x2 h
          · exact x3 h
          · exact x4 h
        · rintro rfl; rcases hx with h | h | h | h
          · exact y1 h
          · exact y2 h
          · exact y3 h
          · exact y4 h
      by_cases hl : less d2 d = true
      · -- nxt becomes the first child of cur
        simp only [hl]
        have e1 : (m.write cur ⟨d, o, pc, pp, ps2⟩).cell nxt = some ⟨d2, o2, pc2, pp2, ps2⟩ := by
          simp [Ne.symm hne, hcell2]
        simp only [e1]
        obtain ⟨m3, hL, hk1, hk2, hoth, hlast3⟩ :=
          @Link_spec α ((m.write cur ⟨d, o, pc, pp, ps2⟩).write nxt ⟨d2, o2, pc2, cur, ps2⟩)
            nxt cur ⟨d2, o2, pc2, cur, ps2⟩ ⟨d, o, pc, pp, ps2⟩ (by simp) (by simp [hne])
            ha2 hcur (Ne.symm hne)
        simp only [hL, Mem.deref_of_ne hcur, hk2]
        have hfr3 : ∀ x, x ≠ cur → x ≠ nxt → m3.cell x = m.cell x := by
          intro x h1 h2
          rw [hoth x h2 h1]; simp [h1, h2]
        have hcount := ih f m3 Head pre cur pfx d (o + 1)
          (.node nxt d2 o2 c2 c) nxt pp ps2 (k + 1)
          (hpre.transport (fun a ha => hfr3 a (hregion a (Or.inl ha)).1 (hregion a (Or.inl ha)).2))
          hcur hk2
          (Seg.node_intro pc2 cur pc ha2 hk1
            (Seg.frame (fun a ha => hfr3 a (hregion a (Or.inr (Or.inr (Or.inl ha)))).1
              (hregion a (Or.inr (Or.inr (Or.inl ha)))).2) hc2)
            (Seg.frame (fun a ha => hfr3 a (hregion a (Or.inr (Or.inl ha))).1
              (hregion a (Or.inr (Or.inl ha))).2) hc))
          (Seg.frame (fun a ha => hfr3 a (hregion a (Or.inr (Or.inr (Or.inr ha)))).1
              (hregion a (Or.inr (Or.inr (Or.inr ha)))).2) hr2)
          (by
            have e : pfx.addrs + ({cur} + ((Shape.node nxt d2 o2 c2 c).addrs + r.addrs)) =
                pfx.addrs + ({cur} + (c.addrs + ({nxt} + (c2.addrs + r.addrs)))) := by
              simp only [addrs]; ac_rfl
            rw [e]; exact hnd) hlen'
        rw [carryS, if_neg hadv, if_pos hl]
        simp only [len]
        omega
      · -- cur becomes the first child of nxt
        have hl' : less d2 d = false := by simpa using hl
        simp only [hl']
        have hndp : pfx.addrs.Nodup :=
          (sep hnd (A := pfx.addrs) (B := {cur} + (c.addrs + ({nxt} + (c2.addrs + r.addrs)))) rfl).1
        obtain ⟨m1, Head1, hred, hpre1, hlast1, hfr1⟩ := hpre.redirect hndp nxt
        simp only [hred]
        have hcur1 : m1.cell cur = some ⟨d, o, pc, pp, nxt⟩ := by rw [hfr1 cur x1, hcell]
        have hnxt1 : m1.cell nxt = some ⟨d2, o2, pc2, pp2, ps2⟩ := by rw [hfr1 nxt y1, hcell2]
        obtain ⟨m3, hL, hk1, hk2, hoth, hlast3⟩ :=
          @Link_spec α m1 cur nxt ⟨d, o, pc, pp, nxt⟩ ⟨d2, o2, pc2, pp2, ps2⟩ hcur1 hnxt1
            hcur ha2 hne
        simp only [hL, Mem.deref_of_ne ha2, hk2]
        have hfr3 : ∀ x, x ≠ cur → x ≠ nxt → x ∉ pfx.addrs → m3.cell x = m.cell x := by
          intro x h1 h2 h3
          rw [hoth x h1 h2, hfr1 x h3]
        have hsepP := (sep hnd (A := pfx.addrs)
          (B := {cur} + (c.addrs + ({nxt} + (c2.addrs + r.addrs)))) rfl).2.2.2
        have hout : ∀ x, (x ∈ c.addrs ∨ x ∈ c2.addrs ∨ x ∈ r.addrs) → m3.cell x = m.cell x := by
          intro x hx
          have hr := hregion x (Or.inr hx)
          refine hfr3 x hr.1 hr.2 (hsepP x ?_)
          simp only [Multiset.mem_add, Multiset.mem_singleton]
          tauto
        have hcount := ih f m3 Head1 pre nxt pfx d2 (o2 + 1)
          (.node cur d o c c2) cur pp2 ps2 (k + 1)
          (hpre1.transport (fun a ha => hoth a (hregion a (Or.inl ha)).1 (hregion a (Or.inl ha)).2))
          ha2 hk2
          (Seg.node_intro pc nxt pc2 hcur hk1
            (Seg.frame (fun a ha => hout a (Or.inl ha)) hc)
            (Seg.frame (fun a ha => hout a (Or.inr (Or.inl ha))) hc2))
          (Seg.frame (fun a ha => hout a (Or.inr (Or.inr ha))) hr2)
          (by
            have e : pfx.addrs + ({nxt} + ((Shape.node cur d o c c2).addrs + r.addrs)) =
                pfx.addrs + ({cur} + (c.addrs + ({nxt} + (c2.addrs + r.addrs)))) := by
              simp only [addrs]; ac_rfl
            rw [e]; exact hnd) hlen'
        rw [carryS, if_neg hadv, if_neg hl]
        simp only [len]
        omega

theorem merge_counting_spec (less : α → α → Bool) {m : Mem α} {a b : priority_queue}
    {sa sb : Shape α} (ha : Seg m sa a.head 0) (hb : Seg m sb b.head 0)
    (hnd : (sa.addrs + sb.addrs).Nodup) (hbd : ∀ x ∈ sa.addrs + sb.addrs, x ≤ m.last)
    (k : Nat) :
    (merge_counting (nothrow less) m a b false k).2 + (mergeQ less sa sb).len =
      k + sa.len + sb.len := by
  cases sb with
  | nil =>
    have hb0 : b.head = 0 := hb
    simp [merge_counting, priority_queue.empty, mergeQ, hb0, len]
  | node pb db ob cb rb =>
    have hb0 : b.head ≠ 0 := by rw [hb.1]; exact hb.2.1
    have h0 : 0 ∉ sa.addrs + (Shape.node pb db ob cb rb).addrs := by
      rw [Multiset.mem_add, not_or]; exact ⟨ha.zero_not_mem, hb.zero_not_mem⟩
    have hcard := card_le_last hnd h0 hbd
    have hlen : sa.len + (Shape.node pb db ob cb rb).len < m.steps := by
      have h1 := len_le_card sa
      have h2 := len_le_card (Shape.node pb db ob cb rb)
      rw [Multiset.card_add] at hcard
      simp only [Mem.steps]; omega
    obtain ⟨m1, hM, hS, hL, hF⟩ := Merge_spec m.steps m sa _ a.head b.head ha hb hnd hlen
    obtain ⟨a1, d1, o1, c1, r1, hshape⟩ := mergeS_node sa pb db ob cb rb
    have haddr := addrs_mergeS sa (Shape.node pb db ob cb rb)
    have hrl := (ranks_mergeS _ sa (Shape.node pb db ob cb rb) le_rfl).1.length_eq
    rw [List.length_append, ranks_length, ranks_length, ranks_length] at hrl
    rw [hshape] at hM hS haddr hrl
    simp only [Shape.ptr_node] at hM hS
    obtain ⟨_, ha1, pc1, pp1, ps1, hcell1, hc1, hr1⟩ := hS
    have hnd1 : ((Shape.nil : Shape α).addrs + ({a1} + (c1.addrs + r1.addrs))).Nodup := by
      have e : (Shape.nil : Shape α).addrs + ({a1} + (c1.addrs + r1.addrs)) =
          sa.addrs + (Shape.node pb db ob cb rb).addrs := by
        rw [← haddr]; simp [addrs]
      rw [e]; exact hnd
    have hlen1 : r1.len < m1.steps := by
      have h1 := len_le_card r1
      rw [← haddr] at hcard
      simp only [addrs, Multiset.card_add, Multiset.card_singleton] at hcard
      simp only [Mem.steps, hL]; omega
    have hcount := merge_loop_counting_spec less r1 m1.steps m1 a1 0 a1
      .nil d1 o1 c1 pc1 pp1 ps1 k (Or.inl ⟨rfl, rfl, rfl⟩) ha1 hcell1 hc1 hr1 hnd1 hlen1
    obtain ⟨m2, Head2, hrun, _⟩ := merge_loop_spec less r1 m1.steps m1 a1 0 a1
      .nil d1 o1 c1 pc1 pp1 ps1 (Or.inl ⟨rfl, rfl, rfl⟩) ha1 hcell1 hc1 hr1 hnd1 hlen1
    have hfst := merge_loop_counting_fst (nothrow less) m1.steps m1 a1 0 a1 ps1 k
    rw [hrun] at hfst
    have hres : mergeQ less sa (Shape.node pb db ob cb rb) = carryS less a1 d1 o1 c1 r1 := by
      simp only [mergeQ, hshape, carry]
    rw [hres]
    cases hr : merge_loop_counting (nothrow less) m1.steps m1 a1 0 a1 ps1 k with
    | mk res k1 =>
      rw [hr] at hfst hcount
      simp only at hfst hcount
      subst hfst
      simp only [merge_counting, priority_queue.empty, hb0, decide_False, Bool.false_eq_true,
        or_self, if_false, hM, ha1, Mem.deref_of_ne ha1, hcell1, hr]
      simp only [len] at hrl hcount ⊢
      omega

theorem push_counting_spec (less : α → α → Bool) {m : Mem α} {q : priority_queue}
    {s : Shape α} (h : Holds m q s) (e : α) (k : Nat) :
    (push_counting (nothrow less) m q e k).2 +
      (carry less (mergeS s (.node (m.last + 1) e 0 .nil .nil))).len = k + s.len + 1 := by
  obtain ⟨hseg, hnd, hbd⟩ := h
  obtain ⟨qh, ql⟩ := q
  simp only at hseg ⊢
  have hfresh : m.last + 1 ∉ s.addrs := fun hx => by
    have h1 : (m.last + 1 : Nat) ≤ m.last := hbd _ hx
    omega
  have hnd0 : (s.addrs + (Shape.node (m.last + 1) e 0 .nil .nil).addrs).Nodup := by
    simp only [addrs, add_zero]
    rw [Multiset.nodup_add]
    refine ⟨hnd, Multiset.nodup_singleton _, ?_⟩
    rw [Multiset.disjoint_left]
    intro x hx hx'
    rw [Multiset.mem_singleton] at hx'
    exact hfresh (hx' ▸ hx)
  cases s with
  | nil =>
    have hq : qh = 0 := hseg
    simp [push_counting, make_node, hq, mergeS, carry, carryS, len]
  | node a d o c r =>
    obtain ⟨hqa, ha, pc, pp, ps, hcell, hc, hr⟩ := hseg
    subst hqa
    have hseg : Seg m (Shape.node qh d o c r) qh 0 := ⟨rfl, ha, pc, pp, ps, hcell, hc, hr⟩
    have hane : qh ≠ m.last + 1 := by
      rintro rfl; exact hfresh (by simp [addrs])
    have hseg0 : Seg (make_node m e).2 (Shape.node qh d o c r) (priority_queue.mk qh ql).head 0 := by
      refine Seg.frame ?_ hseg
      intro x hx
      have : x ≠ m.last + 1 := by rintro rfl; exact hfresh hx
      simp [make_node, this]
    have hnew : Seg (make_node m e).2 (Shape.node (m.last + 1) e 0 .nil .nil)
        (priority_queue.mk (m.last + 1) 1).head 0 :=
      Seg.node_intro 0 0 0 (Nat.succ_ne_zero m.last) (by simp [make_node]) rfl rfl
    have hbd0 : ∀ x ∈ (Shape.node qh d o c r).addrs + (Shape.node (m.last + 1) e 0 .nil .nil).addrs,
        x ≤ (make_node m e).2.last := by
      intro x hx
      rw [Multiset.mem_add] at hx
      rcases hx with hx | hx
      · exact Nat.le_succ_of_le (hbd x hx)
      · simp [addrs] at hx; simp [make_node, hx]
    have hcount := merge_counting_spec less hseg0 hnew hnd0 hbd0 k
    obtain ⟨m1, hrun, _⟩ := merge_spec less hseg0 hnew hnd0 hbd0
    have hfst := merge_counting_fst (nothrow less) (make_node m e).2 ⟨qh, ql⟩ ⟨m.last + 1, 1⟩
      false k
    rw [hrun] at hfst
    have hcell0 : (make_node m e).2.cell qh = some ⟨d, o, pc, pp, ps⟩ := by
      simp [make_node, hane, hcell]
    cases hr : merge_counting (nothrow less) (make_node m e).2 ⟨qh, ql⟩ ⟨m.last + 1, 1⟩
        false k with
    | mk res k1 =>
      rw [hr] at hfst hcount
      simp only at hfst hcount
      subst hfst
      simp only [push_counting, ha, if_false]
      rw [show (make_node m e).1 = m.last + 1 from rfl]
      simp only [Mem.deref_of_ne ha, hcell0]
      simp only [nothrow] at hr ⊢
      rw [hr]
      simp only [mergeQ, len] at hcount ⊢
      omega

theorem push_all_counting_spec (less : α → α → Bool) : ∀ (xs : List α) (m : Mem α)
    (q : priority_queue) (s : Shape α) (k : Nat), Holds m q s → s.Binomial →
    ∃ m1 q1 s1 k1, push_all_counting (nothrow less) xs m q k = (.ret (m1, q1), k1) ∧
      Holds m1 q1 s1 ∧ s1.Binomial ∧ k1 + s1.len = k + s.len + xs.length ∧
      Multiset.card s1.payloads = Multiset.card s.payloads + xs.length := by
  intro xs
  induction xs with
  | nil => intro m q s k h hb; exact ⟨m, q, s, k, rfl, h, hb, rfl, rfl⟩
  | cons x xs ih =>
    intro m q s k h hb
    obtain ⟨m1, hrun, hh, _⟩ := push_spec less h x
    have hcount := push_counting_spec less h x k
    have hfst := push_counting_fst (nothrow less) m q x k
    rw [hrun] at hfst
    have hb1 := binomial_carry_mergeS less hb (binomial_single (m.last + 1) x)
    cases hr : push_counting (nothrow less) m q x k with
    | mk res k1 =>
      rw [hr] at hfst hcount
      simp only at hfst hcount
      subst hfst
      obtain ⟨m2, q2, s2, k2, hrun2, hh2, hb2, hk2, hc2⟩ := ih m1 _ _ k1 hh hb1
      refine ⟨m2, q2, s2, k2, ?_, hh2, hb2, ?_, ?_⟩
      · rw [push_all_counting, hr]; exact hrun2
      · simp only [List.length_cons]; omega
      · rw [hc2, payloads_carry, payloads_mergeS]
        simp only [payloads, List.length_cons, Multiset.card_add, Multiset.card_singleton,
          Multiset.card_zero]
        omega

/-! ## `size()` inside the range of `int`, and at its end -/

theorem push_all_size_top_in_range {less : α → α → Bool} (hl : StrictWeakOrder less)
    (xs : List α) (m0 : Mem α) (hn : xs.length < 2 ^ 31) :
    ∃ m q, push_all (nothrow less) xs m0 mk_empty = .ret (m, q) ∧ q.size = xs.length ∧
      (xs ≠ [] → ∃ v, top (nothrow less) m q = .ret v ∧ v ∈ xs ∧
        ∀ x ∈ xs, less v x = false) := by
  obtain ⟨m, q, s, hrun, hh, ho, hp, hlen⟩ :=
    push_all_spec hl xs m0 mk_empty .nil (Holds.empty m0) trivial
  have hlen1 := hlen (by simpa [mk_empty] using hn)
  refine ⟨m, q, hrun, by simpa [priority_queue.size, mk_empty] using hlen1, ?_⟩
  intro hne
  simp only [payloads, zero_add] at hp
  cases s with
  | nil =>
    exfalso
    have : (xs : Multiset α) = 0 := by rw [← hp]; rfl
    exact hne (by simpa using this)
  | node a d o c r =>
    obtain ⟨h1, h2⟩ := best_max hl ho
    rw [hp] at h1 h2
    exact ⟨_, top_spec less hh, by simpa using h1, fun x hx => h2 x (by simpa using hx)⟩

theorem push_pop_in_range (less : α → α → Bool) (m : Mem α) (q : priority_queue)
    (s : Shape α) (h : Holds m q s) :
    (∀ v, ∃ m1 q1 s1, push (nothrow less) m q v = .ret (m1, q1) ∧ Holds m1 q1 s1 ∧
      s1.payloads = v ::ₘ s.payloads ∧ (q.size + 1 < 2 ^ 31 → q1.size = q.size + 1)) ∧
    (q.empty = false → ∃ v m1 q1 s1, top (nothrow less) m q = .ret v ∧
      pop (nothrow less) m q = .ret (m1, q1) ∧ Holds m1 q1 s1 ∧
      s.payloads = v ::ₘ s1.payloads ∧
      (0 < q.size → q.size < 2 ^ 31 → q1.size + 1 = q.size)) ∧
    (∀ ops : List (Op α),
      (underflows (Multiset.card s.payloads) ops = true ∧
        ∃ st, run (nothrow less) ops m q [] = .throw .container_is_empty st) ∨
      (underflows (Multiset.card s.payloads) ops = false ∧
        ∃ m1 q1 out s1, run (nothrow less) ops m q [] = .ret (m1, q1, out) ∧ Holds m1 q1 s1 ∧
          s1.payloads + (out : Multiset α) = s.payloads + pushed ops ∧
          (q.size = Multiset.card s.payloads → q.size + ops.length < 2 ^ 31 →
            q1.size = Multiset.card s1.payloads))) := by
  refine ⟨fun v => ?_, fun hne => ?_, fun ops => ?_⟩
  · obtain ⟨m1, q1, s1, h1, h2, h3, h4⟩ := push_step less h v
    exact ⟨m1, q1, s1, h1, h2, h3, fun hb => by
      rw [priority_queue.size, h4]; exact length_succ _ hb⟩
  · obtain ⟨v, m1, q1, s1, h0, h1, h2, h3, h4⟩ := pop_step less h hne
    refine ⟨v, m1, q1, s1, h0, h1, h2, h3, fun hpos hb => ?_⟩
    have e := length_pred q.length hb
    rw [if_neg (by simp only [priority_queue.size] at hpos; omega)] at e
    rw [priority_queue.size, h4]; exact e
  · rcases run_spec less ops m q s [] h with h1 | ⟨hu, m1, q1, out, s1, h1, h2, h3, h4⟩
    · exact Or.inl h1
    · exact Or.inr ⟨hu, m1, q1, out, s1, h1, h2, by simpa using h3, h4⟩

theorem push_at_int_max {less : α → α → Bool} (hl : StrictWeakOrder less) (xs : List α)
    (hn : xs.length = 2147483647) (v : α) :
    ∃ m q s m1 q1 s1, push_all (nothrow less) xs Mem.empty mk_empty = .ret (m, q) ∧
      Holds m q s ∧ Multiset.card s.payloads = 2147483647 ∧ q.length = 2147483647 ∧
      push (nothrow less) m q v = .ret (m1, q1) ∧ Holds m1 q1 s1 ∧
      s1.payloads = v ::ₘ s.payloads ∧ Multiset.card s1.payloads = 2147483648 ∧
      q1.length = 18446744071562067968 ∧
      push_all (nothrow less) (xs ++ [v]) Mem.empty mk_empty = .ret (m1, q1) := by
  obtain ⟨m, q, s, hrun, hh, _, hp, hlen⟩ :=
    push_all_spec hl xs Mem.empty mk_empty .nil (Holds.empty _) trivial
  have hq : q.length = 2147483647 := by
    rw [hlen (by rw [hn]; decide), hn]; rfl
  have hc : Multiset.card s.payloads = 2147483647 := by
    rw [hp]; simp [payloads, hn]
  obtain ⟨m1, q1, s1, hpush, hh1, hp1, hl1⟩ := push_step less hh v
  refine ⟨m, q, s, m1, q1, s1, hrun, hh, hc, hq, hpush, hh1, hp1, ?_, ?_, ?_⟩
  · rw [hp1, Multiset.card_cons, hc]
  · rw [hl1, hq]; decide
  · rw [push_all_append _ xs [v] _ _ _ _ hrun]
    simp only [push_all, hpush]

end

section

variable {α : Type}
open Shape priority_queue

/-! ## The claims -/

/-- C1 (the code at the failing input): pushing `2 ^ 31` zeros onto a default-constructed
queue under `std::less` returns every time and leaves a well-formed queue that stores
`2 ^ 31` elements, but `size()` is `2 ^ 64 - 2 ^ 31`, not `2 ^ 31`: the last push finds
`length == INT_MAX` and computes `init_length + 1` in `int`. -/
theorem push_all_size_past_int_max :
    ∃ m q s, push_all (nothrow nat_less) (List.replicate 2147483648 0) Mem.empty mk_empty =
        .ret (m, q) ∧
      Holds m q s ∧ Multiset.card s.payloads = 2147483648 ∧ q.size = 18446744071562067968 ∧
      q.size ≠ (List.replicate 2147483648 0).length := by
  obtain ⟨_, _, _, m1, q1, s1, _, _, _, _, _, hh, _, hc, hl, hrun⟩ :=
    push_at_int_max nat_less_swo (List.replicate 2147483647 0) (List.length_replicate _ _) 0
  rw [← List.replicate_succ' 2147483647 0] at hrun
  refine ⟨m1, q1, s1, hrun, hh, hc, hl, ?_⟩
  rw [List.length_replicate, priority_queue.size, hl]
  decide

/-- C2 (the code at the failing input): on the queue left by pushing `2 ^ 31 - 1` zeros,
whose `size()` is `2 ^ 31 - 1`, the number of stored elements, `push(0)` returns and adds
exactly one `0` to the stored payloads, but `size()` becomes `2 ^ 64 - 2 ^ 31` instead of
`2 ^ 31`: `init_length + 1` is computed in `int` from `INT_MAX`. -/
theorem push_at_int_max_size :
    ∃ m q s m1 q1 s1,
      push_all (nothrow nat_less) (List.replicate 2147483647 0) Mem.empty mk_empty =
        .ret (m, q) ∧
      Holds m q s ∧ q.size = Multiset.card s.payloads ∧ q.size = 2147483647 ∧
      push (nothrow nat_less) m q 0 = .ret (m1, q1) ∧ Holds m1 q1 s1 ∧
      s1.payloads = 0 ::ₘ s.payloads ∧ q1.size = 18446744071562067968 ∧
      q1.size ≠ q.size + 1 := by
  obtain ⟨m, q, s, m1, q1, s1, hrun, hh, hc, hq, hpush, hh1, hp1, _, hl, _⟩ :=
    push_at_int_max nat_less_swo (List.replicate 2147483647 0) (List.length_replicate _ _) 0
  refine ⟨m, q, s, m1, q1, s1, hrun, hh, ?_, hq, hpush, hh1, hp1, hl, ?_⟩
  · rw [priority_queue.size, hq, hc]
  · rw [priority_queue.size, priority_queue.size, hl, hq]
    decide

/-- C3: for two well-formed queues `a` and `b` that share no node, under a non-throwing
ordering, `a.merge(b)` returns; afterwards `a` is well formed, its payloads are those of
`a` and `b` before the call, with multiplicity, and `b.empty()` is true. -/
theorem merge_union {α : Type} (less : α → α → Bool) (m : Mem α) (a b : priority_queue)
    (sa sb : Shape α) (ha : Holds m a sa) (hb : Holds m b sb)
    (hdisj : (sa.addrs + sb.addrs).Nodup) :
    ∃ m1 a1 b1 s1, merge (nothrow less) m a b false = .ret (m1, a1, b1) ∧ Holds m1 a1 s1 ∧
      s1.payloads = sa.payloads + sb.payloads ∧ b1.empty = true := by
  obtain ⟨m1, hrun, hseg, hlast, _⟩ := merge_spec less ha.seg hb.seg hdisj (by
    intro x hx
    rw [Multiset.mem_add] at hx
    rcases hx with hx | hx
    · exact ha.bound x hx
    · exact hb.bound x hx)
  refine ⟨m1, _, _, mergeQ less sa sb, hrun, ⟨hseg, ?_, ?_⟩, payloads_mergeQ less sa sb, ?_⟩
  · rw [addrs_mergeQ]; exact hdisj
  · intro x hx
    rw [addrs_mergeQ, Multiset.mem_add] at hx
    rw [hlast]
    rcases hx with hx | hx
    · exact ha.bound x hx
    · exact hb.bound x hx
  · simp [priority_queue.empty]

/-- Witness for C3: merging the one-element queue `{2}` into the one-element queue `{1}`. -/
theorem merge_union_witness :
    Holds two_mem ⟨1, 1⟩ (.node 1 1 0 .nil .nil) ∧ Holds two_mem ⟨2, 1⟩ (.node 2 2 0 .nil .nil) ∧
    ((Shape.node 1 1 0 .nil .nil : Shape Nat).addrs +
      (Shape.node 2 2 0 .nil .nil : Shape Nat).addrs).Nodup ∧
    ∃ m1 a1 b1 s1, merge (nothrow nat_less) two_mem ⟨1, 1⟩ ⟨2, 1⟩ false = .ret (m1, a1, b1) ∧
      Holds m1 a1 s1 ∧
      s1.payloads = (Shape.node 1 1 0 .nil .nil : Shape Nat).payloads +
        (Shape.node 2 2 0 .nil .nil : Shape Nat).payloads ∧ b1.empty = true :=
  have h1 : Holds two_mem ⟨1, 1⟩ (.node 1 1 0 .nil .nil) :=
    ⟨⟨rfl, by decide, 0, 0, 0, rfl, rfl, rfl⟩, by decide, by decide⟩
  have h2 : Holds two_mem ⟨2, 1⟩ (.node 2 2 0 .nil .nil) :=
    ⟨⟨rfl, by decide, 0, 0, 0, rfl, rfl, rfl⟩, by decide, by decide⟩
  have h3 : ((Shape.node 1 1 0 .nil .nil : Shape Nat).addrs +
      (Shape.node 2 2 0 .nil .nil : Shape Nat).addrs).Nodup := by decide
  ⟨h1, h2, h3, merge_union nat_less two_mem ⟨1, 1⟩ ⟨2, 1⟩ _ _ h1 h2 h3⟩

/-- C4 (the code at the failing input): merging the one-element queue `{2}` into the
one-element queue `{1}` returns with `size()` still 1 for both queues, although the first
now holds the two-node tree with root 2 and child 1 and the second is empty: `merge` never
assigns `length`. -/
theorem merge_keeps_both_lengths :
    ∃ m1 a1 b1, merge (nothrow nat_less) two_mem ⟨1, 1⟩ ⟨2, 1⟩ false = .ret (m1, a1, b1) ∧
      a1.size = 1 ∧ b1.size = 1 ∧ b1.empty = true ∧
      Holds m1 a1 (.node 2 2 1 (.node 1 1 0 .nil .nil) .nil) :=
  ⟨_, _, _, rfl, rfl, rfl, rfl,
    ⟨rfl, by decide, 1, 0, 0, rfl, ⟨rfl, by decide, 0, 2, 0, rfl, rfl, rfl⟩, rfl⟩,
    by decide, by decide⟩

/-- C5 (the code at the failing input): when the one comparison of the carry pass throws
while `{2}` is merged into `{1}`, the exception propagates after the local queue `temp`
has been destroyed, and with it the nodes of both queues: `head` of either queue is left
pointing to a released cell. -/
theorem merge_throw_releases_nodes :
    ∃ m1, merge (throws_on 1 2) two_mem ⟨1, 1⟩ ⟨2, 1⟩ false =
        .throw .thrown_by_compare (m1, ⟨1, 1⟩, ⟨2, 1⟩) ∧
      m1.cell 1 = none ∧ m1.cell 2 = none ∧
      two_mem.cell 1 = some ⟨1, 0, 0, 0, 0⟩ ∧ two_mem.cell 2 = some ⟨2, 0, 0, 0, 0⟩ :=
  ⟨_, rfl, rfl, rfl, rfl, rfl⟩

/-- C6 (the code at the failing input): after pushing 1, 3, 2 with a `Compare` that throws
on `(2, 1)`, `top()` returns 3, and `pop()` reaches the comparison of 2 with 1 in the
re-merge of the children; the nodes are released while the exception unwinds `merge`, and
the handler of `pop()` then reads them: undefined behaviour instead of a restored queue. -/
theorem pop_throw_undefined :
    ∃ m q, push_all (throws_on 2 1) [1, 3, 2] Mem.empty mk_empty = .ret (m, q) ∧
      top (throws_on 2 1) m q = .ret 3 ∧
      pop (throws_on 2 1) m q = .fault .undefined_behaviour :=
  ⟨_, _, rfl, rfl, rfl⟩

/-- C7 (the code at the failing input): after pushing 1, 2, 3 with a `Compare` that throws
on `(2, 4)`, `push(4)` passes its preliminary comparison and throws inside `merge`; the
nodes are released while the exception unwinds `merge`, and the handler of `push` then
frees the new node a second time: undefined behaviour instead of an unchanged queue. -/
theorem push_throw_undefined :
    ∃ m q, push_all (throws_on 2 4) [1, 2, 3] Mem.empty mk_empty = .ret (m, q) ∧
      push (throws_on 2 4) m q 4 = .fault .undefined_behaviour :=
  ⟨_, _, rfl, rfl⟩

/-- C8: `top()` and `pop()` throw `container_is_empty` when the queue is empty, and `pop()`
then leaves the memory and the queue as they were; on a non-empty queue neither of them
throws `container_is_empty`, whatever `Compare` does; and on a well-formed non-empty queue
with a non-throwing ordering both return. -/
theorem container_is_empty_iff {α : Type} (comp : α → α → Option Bool) (m : Mem α)
    (q : priority_queue) :
    (q.empty = true → top comp m q = .throw .container_is_empty () ∧
      pop comp m q = .throw .container_is_empty (m, q)) ∧
    (q.empty = false → (∀ u, top comp m q ≠ .throw .container_is_empty u) ∧
      ∀ st, pop comp m q ≠ .throw .container_is_empty st) ∧
    (∀ (less : α → α → Bool) (s : Shape α), comp = nothrow less → Holds m q s →
      q.empty = false → (∃ v, top comp m q = .ret v) ∧ ∃ st, pop comp m q = .ret st) := by
  refine ⟨?_, ?_, ?_⟩
  · intro he
    simp [top, pop, he]
  · intro he
    constructor
    · intro u h
      simp only [top, he, Bool.false_eq_true, if_false] at h
      have := top_loop_throw _ _ _ _ _ h
      cases this
    · intro st h
      rcases pop_throw h with h1 | h1
      · rw [he] at h1; cases h1
      · cases h1
  · intro less s hc h he
    subst hc
    obtain ⟨a, d, o, c, r, rfl⟩ := h.shape_ne_nil he
    obtain ⟨m1, hrun, _⟩ := pop_spec less h
    exact ⟨⟨_, top_spec less h⟩, ⟨_, hrun⟩⟩

/-- Witness for C8: the empty queue, and the queue left by pushing 1, 2, 3. -/
theorem container_is_empty_iff_witness :
    (top (nothrow nat_less) demo_mem mk_empty = .throw .container_is_empty () ∧
      pop (nothrow nat_less) demo_mem mk_empty = .throw .container_is_empty (demo_mem, mk_empty)) ∧
    ((∀ u, top (nothrow nat_less) demo_mem demo_queue ≠ .throw .container_is_empty u) ∧
      ∀ st, pop (nothrow nat_less) demo_mem demo_queue ≠ .throw .container_is_empty st) ∧
    ((∃ v, top (nothrow nat_less) demo_mem demo_queue = .ret v) ∧
      ∃ st, pop (nothrow nat_less) demo_mem demo_queue = .ret st) :=
  ⟨(container_is_empty_iff (nothrow nat_less) demo_mem mk_empty).1 rfl,
    (container_is_empty_iff (nothrow nat_less) demo_mem demo_queue).2.1 rfl,
    (container_is_empty_iff (nothrow nat_less) demo_mem demo_queue).2.2 nat_less demo_shape rfl
      demo_holds rfl⟩

/-- C9: in a well-formed queue whose forest satisfies heap order under a strict weak
ordering, the scan of the root list that `top()` performs returns a stored element `v`
such that no stored element `x`, root or not, has `less v x`. -/
theorem top_maximum_of_heap_ordered {α : Type} (less : α → α → Bool)
    (hl : StrictWeakOrder less) (m : Mem α) (q : priority_queue) (s : Shape α)
    (h : Holds m q s) (hne : q.empty = false) (ho : HeapOrdered less s) :
    ∃ v, top (nothrow less) m q = .ret v ∧ v ∈ s.payloads ∧
      ∀ x ∈ s.payloads, less v x = false := by
  obtain ⟨a, d, o, c, r, rfl⟩ := h.shape_ne_nil hne
  obtain ⟨h1, h2⟩ := best_max hl ho
  exact ⟨_, top_spec less h, h1, h2⟩

/-- Witness for C9: the queue left by pushing 1, 2, 3. -/
theorem top_maximum_of_heap_ordered_witness :
    StrictWeakOrder nat_less ∧ Holds demo_mem demo_queue demo_shape ∧
    demo_queue.empty = false ∧ HeapOrdered nat_less demo_shape ∧
    ∃ v, top (nothrow nat_less) demo_mem demo_queue = .ret v ∧ v ∈ demo_shape.payloads ∧
      ∀ x ∈ demo_shape.payloads, nat_less v x = false :=
  ⟨nat_less_swo, demo_holds, rfl, demo_heapOrdered,
    top_maximum_of_heap_ordered nat_less nat_less_swo demo_mem demo_queue demo_shape
      demo_holds rfl demo_heapOrdered⟩

/-- C10 (the code at the failing input): copy-constructing from an empty queue leaves
`length` as the storage held it, so `size()` of the copy is whatever was there (here 7),
not the 0 of the source. -/
theorem copy_of_empty_keeps_raw_length :
    ∃ c, copy_construct (Mem.empty : Mem Nat) ⟨5, 7⟩ mk_empty = .ok (Mem.empty, c) ∧
      c.size = 7 ∧ c.empty = true ∧ mk_empty.size = 0 :=
  ⟨_, rfl, rfl, rfl, rfl⟩

/-- C11: `merge(other)` returns at once, leaving the memory and both queues (heads, links,
contents and `length`) exactly as they were, when `other` is empty or when `other` is the
object `*this` itself; in particular `q.merge(q)` changes nothing. -/
theorem merge_noop {α : Type} (comp : α → α → Option Bool) (m : Mem α)
    (this other : priority_queue) (same_object : Bool)
    (h : other.empty = true ∨ same_object = true) :
    merge comp m this other same_object = .ret (m, this, other) := by
  simp only [merge, h, if_true]

/-- Witness for C11: merging an empty queue into the sample queue, and the sample queue
into itself. -/
theorem merge_noop_witness :
    (mk_empty.empty = true ∨ false = true) ∧
    merge (nothrow nat_less) demo_mem demo_queue mk_empty false =
      .ret (demo_mem, demo_queue, mk_empty) ∧
    (demo_queue.empty = true ∨ true = true) ∧
    merge (nothrow nat_less) demo_mem demo_queue demo_queue true =
      .ret (demo_mem, demo_queue, demo_queue) :=
  ⟨Or.inl rfl, merge_noop (nothrow nat_less) demo_mem demo_queue mk_empty false (Or.inl rfl),
    Or.inr rfl, merge_noop (nothrow nat_less) demo_mem demo_queue demo_queue true (Or.inr rfl)⟩

/-- C12 as stated fails: in the scenario `size()` is 4, not 6, after the merge, and after
two more pops `top()` is 3, not 2, and `size()` is 2, not 4. -/
theorem scenario_not_as_stated :
    scenario = some ⟨5, 4, 4, 4, 10, 3, 2⟩ ∧ scenario ≠ some ⟨5, 4, 4, 6, 10, 2, 4⟩ :=
  ⟨by decide, by decide⟩

/-- C12, amended: in the scenario `top()` is 5 after the five pushes; after `pop()`,
`top()` is 4 and `size()` is 4; after the merge `top()` is 10; after two more pops `top()`
is 3. (Nothing is said about `size()` once `merge` has run.) -/
theorem scenario_tops : ∃ n1 n2, scenario = some ⟨5, 4, 4, n1, 10, 3, n2⟩ :=
  ⟨_, _, rfl⟩

/-- C13: the binomial-forest invariant (root ranks strictly ascending, every node of rank
`k` with children of ranks `k - 1, ..., 0`) is kept by `merge`, `push` and `pop` under a
non-throwing ordering when it holds for the queues beforehand; under it a node of rank `k`
has `k` children, of ranks `k - 1, ..., 0` along the chain, and `2 ^ k - 1` descendants, and
the root ranks are the positions of the set bits of the number of stored elements. -/
theorem binomial_invariant {α : Type} (less : α → α → Bool) (m : Mem α)
    (a b : priority_queue) (sa sb : Shape α) (ha : Holds m a sa) (hb : Holds m b sb)
    (hdisj : (sa.addrs + sb.addrs).Nodup) (hba : sa.Binomial) (hbb : sb.Binomial) :
    (∃ m1 a1 b1 s1, merge (nothrow less) m a b false = .ret (m1, a1, b1) ∧ Holds m1 a1 s1 ∧
      s1.Binomial) ∧
    (∀ v, ∃ m1 a1 s1, push (nothrow less) m a v = .ret (m1, a1) ∧ Holds m1 a1 s1 ∧
      s1.Binomial) ∧
    (a.empty = false → ∃ m1 a1 s1, pop (nothrow less) m a = .ret (m1, a1) ∧ Holds m1 a1 s1 ∧
      s1.Binomial) ∧
    (∀ (k : Int) (c : Shape α), BinomChildren k c →
      c.ranks = (List.range k.toNat).reverse.map Int.ofNat ∧ c.len = k.toNat ∧
      Multiset.card c.payloads + 1 = 2 ^ k.toNat) ∧
    sa.ranks.map Int.toNat = Nat.bitIndices (Multiset.card sa.payloads) := by
  refine ⟨?_, ?_, ?_, fun k c h => ⟨binomChildren_ranks c k h, ?_,
    (binomChildren_lt c k h).2.2.2.2⟩, binomial_bits hba⟩
  rotate_right
  · rw [← ranks_length, binomChildren_ranks c k h]; simp
  · obtain ⟨m1, hrun, hseg, hlast, _⟩ := merge_spec less ha.seg hb.seg hdisj (by
      intro x hx
      rw [Multiset.mem_add] at hx
      rcases hx with hx | hx
      · exact ha.bound x hx
      · exact hb.bound x hx)
    refine ⟨m1, _, _, mergeQ less sa sb, hrun, ⟨hseg, ?_, ?_⟩, binomial_mergeQ less hba hbb⟩
    · rw [addrs_mergeQ]; exact hdisj
    · intro x hx
      rw [addrs_mergeQ, Multiset.mem_add] at hx
      rw [hlast]
      rcases hx with hx | hx
      · exact ha.bound x hx
      · exact hb.bound x hx
  · intro v
    obtain ⟨m1, hrun, hh, _⟩ := push_spec less ha v
    exact ⟨m1, _, _, hrun, hh, binomial_carry_mergeS less hba (binomial_single _ v)⟩
  · intro hne
    obtain ⟨p, d, o, c, r, rfl⟩ := ha.shape_ne_nil hne
    obtain ⟨m1, hrun, hh, _⟩ := pop_spec less ha
    exact ⟨m1, _, _, hrun, hh, binomial_popS less ha.nodup hba⟩

/-- Witness for C13: the one-element queues at addresses 1 and 2. -/
theorem binomial_invariant_witness :
    Holds two_mem ⟨1, 1⟩ (.node 1 1 0 .nil .nil) ∧ Holds two_mem ⟨2, 1⟩ (.node 2 2 0 .nil .nil) ∧
    ∃ m1 a1 b1 s1, merge (nothrow nat_less) two_mem ⟨1, 1⟩ ⟨2, 1⟩ false = .ret (m1, a1, b1) ∧
      Holds m1 a1 s1 ∧ s1.Binomial :=
  ⟨two_holds_a, two_holds_b,
    (binomial_invariant nat_less two_mem ⟨1, 1⟩ ⟨2, 1⟩ _ _ two_holds_a two_holds_b two_disjoint
      (binomial_single 1 1) (binomial_single 2 2)).1⟩

/-- C14: heap order is kept by `merge`, `push` and `pop` under a non-throwing strict weak
ordering: when it holds for the queues beforehand, then afterwards `less parent child` is
false on every parent-child edge of the forest. -/
theorem heap_order_invariant {α : Type} (less : α → α → Bool) (hl : StrictWeakOrder less)
    (m : Mem α) (a b : priority_queue) (sa sb : Shape α) (ha : Holds m a sa)
    (hb : Holds m b sb) (hdisj : (sa.addrs + sb.addrs).Nodup) (hoa : HeapOrdered less sa)
    (hob : HeapOrdered less sb) :
    (∃ m1 a1 b1 s1, merge (nothrow less) m a b false = .ret (m1, a1, b1) ∧ Holds m1 a1 s1 ∧
      HeapOrdered less s1) ∧
    (∀ v, ∃ m1 a1 s1, push (nothrow less) m a v = .ret (m1, a1) ∧ Holds m1 a1 s1 ∧
      HeapOrdered less s1) ∧
    (a.empty = false → ∃ m1 a1 s1, pop (nothrow less) m a = .ret (m1, a1) ∧ Holds m1 a1 s1 ∧
      HeapOrdered less s1) := by
  refine ⟨?_, ?_, ?_⟩
  · obtain ⟨m1, hrun, hseg, hlast, _⟩ := merge_spec less ha.seg hb.seg hdisj (by
      intro x hx
      rw [Multiset.mem_add] at hx
      rcases hx with hx | hx
      · exact ha.bound x hx
      · exact hb.bound x hx)
    refine ⟨m1, _, _, mergeQ less sa sb, hrun, ⟨hseg, ?_, ?_⟩,
      heapOrdered_mergeQ hl sa sb hoa hob⟩
    · rw [addrs_mergeQ]; exact hdisj
    · intro x hx
      rw [addrs_mergeQ, Multiset.mem_add] at hx
      rw [hlast]
      rcases hx with hx | hx
      · exact ha.bound x hx
      · exact hb.bound x hx
  · intro v
    obtain ⟨m1, hrun, hh, _⟩ := push_spec less ha v
    exact ⟨m1, _, _, hrun, hh, heapOrdered_carry hl _ (heapOrdered_mergeS less _ _ _ le_rfl hoa
      ⟨fun _ hx => by simp [rootData] at hx, trivial, trivial⟩)⟩
  · intro hne
    obtain ⟨p, d, o, c, r, rfl⟩ := ha.shape_ne_nil hne
    obtain ⟨m1, hrun, hh, _⟩ := pop_spec less ha
    exact ⟨m1, _, _, hrun, hh, heapOrdered_popS hl ha.nodup hoa⟩

/-- Witness for C14: the one-element queues at addresses 1 and 2 under `std::less`. -/
theorem heap_order_invariant_witness :
    StrictWeakOrder nat_less ∧ Holds two_mem ⟨1, 1⟩ (.node 1 1 0 .nil .nil) ∧
    Holds two_mem ⟨2, 1⟩ (.node 2 2 0 .nil .nil) ∧
    ∃ m1 a1 b1 s1, merge (nothrow nat_less) two_mem ⟨1, 1⟩ ⟨2, 1⟩ false = .ret (m1, a1, b1) ∧
      Holds m1 a1 s1 ∧ HeapOrdered nat_less s1 :=
  ⟨nat_less_swo, two_holds_a, two_holds_b,
    (heap_order_invariant nat_less nat_less_swo two_mem ⟨1, 1⟩ ⟨2, 1⟩ _ _ two_holds_a
      two_holds_b two_disjoint ⟨fun _ hx => by simp [rootData] at hx, trivial, trivial⟩
      ⟨fun _ hx => by simp [rootData] at hx, trivial, trivial⟩).1⟩

/-- C15: for every list `xs` pushed onto an empty queue under a non-throwing strict weak
ordering, the pushes return, and draining the queue (`top()` then `pop()` until `empty()`)
returns; the values come out as a permutation of `xs` in which no later value is greater
than an earlier one, there are exactly `xs.length` of them (one per `pop()`), and the
queue is empty afterwards. -/
theorem drain_sorted {α : Type} (less : α → α → Bool) (hl : StrictWeakOrder less)
    (xs : List α) (f : Nat) (hf : xs.length < f) :
    ∃ m1 q1 m2 q2 out, push_all (nothrow less) xs Mem.empty mk_empty = .ret (m1, q1) ∧
      drain (nothrow less) f m1 q1 [] = .ret (m2, q2, out) ∧ out.Perm xs ∧
      out.Pairwise (fun a b => less a b = false) ∧ out.length = xs.length ∧
      q2.empty = true := by
  obtain ⟨m1, q1, s1, hrun, hh, ho, hp, _⟩ := push_all_spec hl xs Mem.empty mk_empty .nil
    (Holds.empty _) trivial
  have hp1 : s1.payloads = (xs : Multiset α) := by rw [hp]; simp [payloads]
  obtain ⟨m2, q2, l, hd, he, hl2, hpw⟩ := drain_spec hl xs.length m1 q1 s1 [] f hh ho
    (by rw [hp1]; rfl) hf
  have hperm : l.Perm xs := Multiset.coe_eq_coe.1 (hl2.trans hp1)
  exact ⟨m1, q1, m2, q2, l, hrun, by simpa using hd, hperm, hpw, hperm.length_eq, he⟩

/-- Witness for C15: pushing 1, 3, 2 under `std::less` and draining with four steps. -/
theorem drain_sorted_witness :
    StrictWeakOrder nat_less ∧ [1, 3, 2].length < 4 ∧
    ∃ m1 q1 m2 q2 out, push_all (nothrow nat_less) [1, 3, 2] Mem.empty mk_empty = .ret (m1, q1) ∧
      drain (nothrow nat_less) 4 m1 q1 [] = .ret (m2, q2, out) ∧ out.Perm [1, 3, 2] ∧
      out.Pairwise (fun a b => nat_less a b = false) ∧ out.length = [1, 3, 2].length ∧
      q2.empty = true :=
  ⟨nat_less_swo, by decide, drain_sorted nat_less nat_less_swo [1, 3, 2] 4 (by decide)⟩

/-- C16: for every list of `n` values and every non-throwing ordering, the `n` pushes onto
an empty queue return, and the calls of `Link` they make number `n` minus the number of
trees of the final forest, which is `n` minus the number of set bits of `n`; so there are
at most `n` of them. -/
theorem push_links_count {α : Type} (less : α → α → Bool) (xs : List α) :
    ∃ m q s links, push_all_counting (nothrow less) xs Mem.empty mk_empty 0 =
        (.ret (m, q), links) ∧
      push_all (nothrow less) xs Mem.empty mk_empty = .ret (m, q) ∧ Holds m q s ∧
      links + s.len = xs.length ∧ links + (Nat.bitIndices xs.length).length = xs.length ∧
      links ≤ xs.length := by
  obtain ⟨m, q, s, k, hrun, hh, hb, hk, hc⟩ := push_all_counting_spec less xs Mem.empty mk_empty
    .nil 0 (Holds.empty _) ⟨by simp [ranks], trivial⟩
  have hfst := push_all_counting_fst (nothrow less) xs Mem.empty mk_empty 0
  rw [hrun] at hfst
  simp only [len, payloads, Multiset.card_zero, zero_add] at hk hc
  have hbits : s.len = (Nat.bitIndices xs.length).length := by
    rw [← hc, ← binomial_bits hb, List.length_map, ranks_length]
  exact ⟨m, q, s, k, hrun, hfst.symm, hh, hk, by omega, by omega⟩

/-- C17: for two root lists held in memory without a shared node, each ascending (not
necessarily strictly) by rank, `Merge(list1, list2)` returns; the list it returns is
ascending by rank and its nodes are exactly those of `list1` and `list2`, each with the
tree it had; every cell keeps its payload, rank, child and parent (only `sibling` links
change); `Merge(nullptr, l)` and `Merge(l, nullptr)` return `l` and change nothing.
(`Merge` has no `Compare` at hand: it cannot compare payloads.) -/
theorem Merge_ascending {α : Type} (m : Mem α) (s1 s2 : Shape α) (p1 p2 : Ptr) (f : Nat)
    (h1 : Seg m s1 p1 0) (h2 : Seg m s2 p2 0) (hnd : (s1.addrs + s2.addrs).Nodup)
    (hs1 : s1.ranks.Sorted (· ≤ ·)) (hs2 : s2.ranks.Sorted (· ≤ ·))
    (hf : s1.len + s2.len < f) :
    (∃ m1 r s, Merge f m p1 p2 = .ok (m1, r) ∧ Seg m1 s r 0 ∧ s.ranks.Sorted (· ≤ ·) ∧
      s.rootAddrs.Perm (s1.rootAddrs ++ s2.rootAddrs) ∧ s.addrs = s1.addrs + s2.addrs ∧
      s.payloads = s1.payloads + s2.payloads ∧
      ∀ x, (m1.cell x).map node.unlinked = (m.cell x).map node.unlinked) ∧
    (∀ l, Merge f m 0 l = .ok (m, l)) ∧ (∀ l, Merge f m l 0 = .ok (m, l)) := by
  obtain ⟨f, rfl⟩ : ∃ f', f = f' + 1 := ⟨f - 1, by omega⟩
  obtain ⟨m1, hrun, hseg, _, _⟩ := Merge_spec (f + 1) m s1 s2 p1 p2 h1 h2 hnd hf
  obtain ⟨_, q2, _, q4⟩ := ranks_mergeS _ s1 s2 le_rfl
  refine ⟨⟨m1, _, mergeS s1 s2, hrun, hseg, q4 hs1 hs2, q2, addrs_mergeS s1 s2,
    payloads_mergeS s1 s2, (Merge_unlinked _ _ _ _ _ _ hrun).2⟩, ?_, ?_⟩
  · intro l; simp [Merge]
  · intro l
    by_cases hl : l = 0
    · simp [Merge, hl]
    · simp [Merge, hl]

/-- Witness for C17: the one-node lists at addresses 1 and 2. -/
theorem Merge_ascending_witness :
    Seg two_mem (.node 1 1 0 .nil .nil) 1 0 ∧ Seg two_mem (.node 2 2 0 .nil .nil) 2 0 ∧
    ((Shape.node 1 1 0 .nil .nil : Shape Nat).addrs +
      (Shape.node 2 2 0 .nil .nil : Shape Nat).addrs).Nodup ∧
    (Shape.node 1 1 0 .nil .nil : Shape Nat).ranks.Sorted (· ≤ ·) ∧
    (Shape.node 2 2 0 .nil .nil : Shape Nat).ranks.Sorted (· ≤ ·) ∧
    (Shape.node 1 1 0 .nil .nil : Shape Nat).len + (Shape.node 2 2 0 .nil .nil : Shape Nat).len
      < 3 ∧
    ((∃ m1 r s, Merge 3 two_mem 1 2 = .ok (m1, r) ∧ Seg m1 s r 0 ∧ s.ranks.Sorted (· ≤ ·) ∧
      s.rootAddrs.Perm ((Shape.node 1 1 0 .nil .nil : Shape Nat).rootAddrs ++
        (Shape.node 2 2 0 .nil .nil : Shape Nat).rootAddrs) ∧
      s.addrs = (Shape.node 1 1 0 .nil .nil : Shape Nat).addrs +
        (Shape.node 2 2 0 .nil .nil : Shape Nat).addrs ∧
      s.payloads = (Shape.node 1 1 0 .nil .nil : Shape Nat).payloads +
        (Shape.node 2 2 0 .nil .nil : Shape Nat).payloads ∧
      ∀ x, (m1.cell x).map node.unlinked = (two_mem.cell x).map node.unlinked) ∧
    (∀ l, Merge 3 two_mem 0 l = .ok (two_mem, l)) ∧
    (∀ l, Merge 3 two_mem l 0 = .ok (two_mem, l))) :=
  ⟨two_holds_a.seg, two_holds_b.seg, two_disjoint, by simp [ranks], by simp [ranks],
    by decide,
    Merge_ascending two_mem _ _ 1 2 3 two_holds_a.seg two_holds_b.seg two_disjoint
      (by simp [ranks]) (by simp [ranks]) (by decide)⟩

/-- C18 as stated fails: `list1` is the node of rank 0 at address 1, `list2` the node of
rank 0 at address 2, and `Merge(list1, list2)` returns the node of `list2` with the node of
`list1` as its sibling. -/
theorem Merge_tie_takes_list2 :
    ∃ m1, Merge 3 two_mem 1 2 = .ok (m1, 2) ∧ m1.cell 2 = some ⟨2, 0, 0, 0, 1⟩ ∧
      m1.cell 1 = some ⟨1, 0, 0, 0, 0⟩ ∧
      two_mem.cell 1 = some ⟨1, 0, 0, 0, 0⟩ ∧ two_mem.cell 2 = some ⟨2, 0, 0, 0, 0⟩ :=
  ⟨_, rfl, rfl, rfl, rfl, rfl⟩

/-- C18, amended: `Merge(list1, list2)` keeps the relative order of the nodes that come
from the same input list; when both lists are non-empty the node returned first is the
head of `list1` if its rank is strictly smaller and the head of `list2` otherwise, so on
a tie the node of `list2` comes first, and the merge goes on with the rest of `list2` in
the place of `list1` (the list returned is `mergeS list1 list2`). -/
theorem Merge_keeps_list_order {α : Type} (m : Mem α) (s1 s2 : Shape α) (p1 p2 : Ptr)
    (f : Nat) (h1 : Seg m s1 p1 0) (h2 : Seg m s2 p2 0) (hnd : (s1.addrs + s2.addrs).Nodup)
    (hf : s1.len + s2.len < f) :
    ∃ m1 r, Merge f m p1 p2 = .ok (m1, r) ∧ Seg m1 (mergeS s1 s2) r 0 ∧
      s1.rootAddrs.Sublist (mergeS s1 s2).rootAddrs ∧
      s2.rootAddrs.Sublist (mergeS s1 s2).rootAddrs ∧
      ∀ a1 d1 o1 c1 r1 a2 d2 o2 c2 r2, s1 = .node a1 d1 o1 c1 r1 → s2 = .node a2 d2 o2 c2 r2 →
        r = (if o1 < o2 then a1 else a2) ∧
        mergeS s1 s2 = (if o1 < o2 then .node a1 d1 o1 c1 (mergeS r1 s2)
          else .node a2 d2 o2 c2 (mergeS r2 s1)) := by
  obtain ⟨m1, hrun, hseg, _, _⟩ := Merge_spec f m s1 s2 p1 p2 h1 h2 hnd hf
  obtain ⟨q1, q2⟩ := sublist_mergeS _ s1 s2 le_rfl
  refine ⟨m1, _, hrun, hseg, q1, q2, ?_⟩
  intro a1 d1 o1 c1 r1 a2 d2 o2 c2 r2 e1 e2
  subst e1 e2
  refine ⟨mergeS_ptr _ _ _ _ _ _ _ _ _ _, ?_⟩
  rw [mergeS]

/-- Witness for C18 (amended): the one-node lists at addresses 1 and 2. -/
theorem Merge_keeps_list_order_witness :
    Seg two_mem (.node 1 1 0 .nil .nil) 1 0 ∧ Seg two_mem (.node 2 2 0 .nil .nil) 2 0 ∧
    ∃ m1 r, Merge 3 two_mem 1 2 = .ok (m1, r) ∧
      Seg m1 (mergeS (.node 1 1 0 .nil .nil) (.node 2 2 0 .nil .nil)) r 0 :=
  have h := Merge_keeps_list_order two_mem _ _ 1 2 3 two_holds_a.seg two_holds_b.seg
    two_disjoint (by decide)
  ⟨two_holds_a.seg, two_holds_b.seg, h.elim fun m1 h => h.elim fun r h => ⟨m1, r, h.1, h.2.1⟩⟩

/-- C19: on a well-formed non-empty queue, under a non-throwing strict weak ordering,
`top()` returns the payload `v` of a root such that no root is greater than `v` and every
root in front of it in the root list is strictly less than `v`: the earliest maximal root.
(`top()` only reads: it has the memory and the queue as arguments and no state as result.) -/
theorem top_earliest_maximal_root {α : Type} (less : α → α → Bool)
    (hl : StrictWeakOrder less) (m : Mem α) (q : priority_queue) (s : Shape α)
    (h : Holds m q s) (hne : q.empty = false) :
    ∃ v front back, top (nothrow less) m q = .ret v ∧ s.rootData = front ++ v :: back ∧
      (∀ x ∈ s.rootData, less v x = false) ∧ (∀ y ∈ front, less y v = true) := by
  obtain ⟨a, d, o, c, r, rfl⟩ := h.shape_ne_nil hne
  obtain ⟨front, back, he, hfront⟩ := scanS_earliest hl r a d
  rw [← scanS_self less a d o c r] at he hfront
  exact ⟨_, front, back, top_spec less h, he, (scanS_ge hl (.node a d o c r) a d).2, hfront⟩

/-- Witness for C19: the sample queue, whose roots hold 3 and then 2. -/
theorem top_earliest_maximal_root_witness :
    StrictWeakOrder nat_less ∧ Holds demo_mem demo_queue demo_shape ∧
    demo_queue.empty = false ∧
    ∃ v front back, top (nothrow nat_less) demo_mem demo_queue = .ret v ∧
      demo_shape.rootData = front ++ v :: back ∧
      (∀ x ∈ demo_shape.rootData, nat_less v x = false) ∧
      (∀ y ∈ front, nat_less y v = true) :=
  ⟨nat_less_swo, demo_holds, rfl,
    top_earliest_maximal_root nat_less nat_less_swo demo_mem demo_queue demo_shape demo_holds rfl⟩

/-- C20: for two distinct live nodes `a` and `b`, `Link(a, b)` returns; afterwards `a` has
`parent == b` and as `sibling` the former `child` of `b`, `b` has `child == a` and its rank
raised by one, and nothing else has changed: payloads, the rank and child of `a`, the
parent and `sibling` of `b`, every other cell. If `a` and `b` had rank `k` and their child
lists were those of binomial trees of rank `k`, the child list of `b` is now that of a
binomial tree of rank `k + 1`, and the tree of `b` has `2 ^ (k + 1)` nodes. -/
theorem Link_effect {α : Type} (m : Mem α) (a b : Ptr) (na nb : node α)
    (ha : m.deref a = some na) (hb : m.deref b = some nb) (hab : a ≠ b) :
    ∃ m1, Link m a b = .ok m1 ∧
      m1.cell a = some ⟨na.data, na.order, na.child, b, nb.child⟩ ∧
      m1.cell b = some ⟨nb.data, nb.order + 1, a, nb.parent, nb.sibling⟩ ∧
      (∀ x, x ≠ a → x ≠ b → m1.cell x = m.cell x) ∧
      ∀ (k : Int) (ca cb : Shape α), na.order = k → nb.order = k →
        Seg m ca na.child 0 → Seg m cb nb.child 0 →
        (({a} : Multiset Ptr) + ({b} + (ca.addrs + cb.addrs))).Nodup →
        BinomChildren k ca → BinomChildren k cb →
        Seg m1 (.node a na.data k ca cb) a 0 ∧
        BinomChildren (k + 1) (.node a na.data k ca cb) ∧
        Multiset.card (Shape.node a na.data k ca cb).payloads + 1 = 2 ^ (k + 1).toNat := by
  have za : a ≠ 0 := by rintro rfl; simp at ha
  have zb : b ≠ 0 := by rintro rfl; simp at hb
  rw [Mem.deref_of_ne za] at ha
  rw [Mem.deref_of_ne zb] at hb
  obtain ⟨m1, hrun, ka, kb, hoth, _⟩ := Link_spec ha hb za zb hab
  refine ⟨m1, hrun, ka, kb, hoth, ?_⟩
  intro k ca cb hoa hob hca hcb hnd hka hkb
  have e : ({a} : Multiset Ptr) + ({b} + (ca.addrs + cb.addrs)) =
      (0 : Multiset Ptr) + ({a} + ((0 : Multiset Ptr) + ({b} + (ca.addrs + cb.addrs)))) := by
    simp
  rw [e] at hnd
  obtain ⟨_, ⟨_, _, x3, x4⟩, ⟨_, _, y3, y4⟩⟩ := six hnd
  have hfr : ∀ x, x ∈ ca.addrs ∨ x ∈ cb.addrs → m1.cell x = m.cell x := by
    intro x hx
    refine hoth x ?_ ?_
    · rintro rfl; rcases hx with h | h
      · exact x3 h
      · exact x4 h
    · rintro rfl; rcases hx with h | h
      · exact y3 h
      · exact y4 h
  refine ⟨?_, ?_, ?_⟩
  · refine Seg.node_intro na.child b nb.child za (by rw [ka, hoa]) ?_ ?_
    · exact Seg.frame (fun x hx => hfr x (Or.inl hx)) hca
    · exact Seg.frame (fun x hx => hfr x (Or.inr hx)) hcb
  · have hbc : BinomChildren (k + 1) (.node a na.data k ca cb) := by
      simp only [BinomChildren]; exact ⟨by omega, hka, hkb⟩
    exact hbc
  · have hbc : BinomChildren (k + 1) (.node a na.data k ca cb) := by
      simp only [BinomChildren]; exact ⟨by omega, hka, hkb⟩
    exact (binomChildren_lt _ (k + 1) hbc).2.2.2.2

/-- Witness for C20: linking the node at address 1 under the node at address 2. -/
theorem Link_effect_witness :
    two_mem.deref 1 = some ⟨1, 0, 0, 0, 0⟩ ∧ two_mem.deref 2 = some ⟨2, 0, 0, 0, 0⟩ ∧
    (1 : Ptr) ≠ 2 ∧
    ∃ m1, Link two_mem 1 2 = .ok m1 ∧
      m1.cell 1 = some ⟨1, 0, 0, 2, 0⟩ ∧ m1.cell 2 = some ⟨2, 0 + 1, 1, 0, 0⟩ ∧
      (∀ x, x ≠ 1 → x ≠ 2 → m1.cell x = two_mem.cell x) :=
  have h := Link_effect two_mem 1 2 ⟨1, 0, 0, 0, 0⟩ ⟨2, 0, 0, 0, 0⟩ rfl rfl (by decide)
  ⟨rfl, rfl, by decide, h.elim fun m1 h => ⟨m1, h.1, h.2.1, h.2.2.1, h.2.2.2.1⟩⟩

end

end sjtu
